import Mathlib

/-!
Verification development for the `ait` FSM-learning library.

The repository learns the finite-state machine of a system under test
(`ait/explorer.py`), stores it in a labelled directed multigraph wrapped
around `igraph.Graph` (`ait/graph_wrapper.py`), classifies and Eulerizes
graphs (`ait/utils.py`, duplicated in `ait/strategy/edge_cover.py`), and
produces edge-covering walks (Hierholzer, `ait/strategy/edge_cover.py`)
and node-covering walks (`ait/strategy/node_cover.py`).

This file gives a shallow embedding of those components and proves or
refutes the listed behavioural claims.  The embedding models an igraph
directed multigraph as a list of vertex names plus a list of labelled
arrows; edge attributes that only feed rendering/CSV export (the
`detail` payloads) are not modelled, and `random.choice` is modelled by
an arbitrary stream of naturals used as an index modulo the number of
choices, so that quantifying over the stream quantifies over every
possible sequence of random draws.
-/

set_option maxHeartbeats 1000000

/-- An arrow is a directed labelled edge, as in `ait/graph_wrapper.py`
(class `Arrow`: tail, head, name). -/
structure Arrow where
  tail : String
  head : String
  name : String
deriving DecidableEq, Repr

/-- A directed multigraph in igraph style: a list of vertex names (in
vertex-id order) and a list of arrows (in edge-id order).  Multiple
arrows with the same triple may coexist. -/
structure SGraph where
  verts : List String
  edges : List Arrow
deriving DecidableEq, Repr

/-- Well-formedness as igraph maintains it: vertex names are unique and
every edge endpoint is a vertex. -/
def SGraph.wf (g : SGraph) : Prop :=
  g.verts.Nodup ∧ ∀ a ∈ g.edges, a.tail ∈ g.verts ∧ a.head ∈ g.verts

instance (g : SGraph) : Decidable g.wf := by
  unfold SGraph.wf; infer_instance

/-- `vertex.degree(mode="out")` of igraph: number of edges whose tail is `v`. -/
def outDeg (g : SGraph) (v : String) : Nat :=
  (g.edges.filter (fun a => a.tail == v)).length

/-- `vertex.degree(mode="in")` of igraph: number of edges whose head is `v`. -/
def inDeg (g : SGraph) (v : String) : Nat :=
  (g.edges.filter (fun a => a.head == v)).length

/-- The degree difference `out - in` computed throughout `ait/utils.py`. -/
def delta (g : SGraph) (v : String) : Int :=
  (outDeg g v : Int) - (inDeg g v : Int)

/-! ### Generic saturation (reachability closure)

Used to model igraph's connectivity / BFS reachability questions.  A
step adds every vertex of `vs` adjacent to the current set; with fuel
`vs.length` the set is saturated. -/

def satStep (adj : String → String → Bool) (vs : List String) (s : List String) :
    List String :=
  s ++ vs.filter (fun v => !s.contains v && s.any (fun u => adj u v))

def saturate (adj : String → String → Bool) (vs : List String) :
    Nat → List String → List String
  | 0, s => s
  | n + 1, s => saturate adj vs n (satStep adj vs s)

/-- One-step adjacency restricted to the vertex universe. -/
def AdjRel (adj : String → String → Bool) (vs : List String) (u v : String) : Prop :=
  adj u v = true ∧ v ∈ vs

/-- Reachability generated by `AdjRel`. -/
def Reaches (adj : String → String → Bool) (vs : List String) : String → String → Prop :=
  Relation.ReflTransGen (AdjRel adj vs)

theorem subset_satStep (adj : String → String → Bool) (vs s : List String) :
    s ⊆ satStep adj vs s := by
  intro x hx; exact List.mem_append_left _ hx

theorem subset_saturate (adj : String → String → Bool) (vs : List String) :
    ∀ n s, s ⊆ saturate adj vs n s := by
  intro n
  induction n with
  | zero => intro s x hx; exact hx
  | succ n ih =>
    intro s x hx
    exact ih (satStep adj vs s) (subset_satStep adj vs s hx)

theorem mem_satStep_sound (adj : String → String → Bool) (vs s : List String)
    (v : String) (hv : v ∈ satStep adj vs s) :
    v ∈ s ∨ ∃ u ∈ s, AdjRel adj vs u v := by
  rcases List.mem_append.mp hv with h | h
  · exact Or.inl h
  · right
    rcases List.mem_filter.mp h with ⟨hvs, hcond⟩
    rw [Bool.and_eq_true] at hcond
    rcases List.any_eq_true.mp hcond.2 with ⟨u, hu, hadj⟩
    exact ⟨u, hu, hadj, hvs⟩

theorem mem_saturate_sound (adj : String → String → Bool) (vs : List String) :
    ∀ n s v, v ∈ saturate adj vs n s → ∃ u ∈ s, Reaches adj vs u v := by
  intro n
  induction n with
  | zero =>
    intro s v hv; exact ⟨v, hv, Relation.ReflTransGen.refl⟩
  | succ n ih =>
    intro s v hv
    rcases ih (satStep adj vs s) v hv with ⟨u, hu, hr⟩
    rcases mem_satStep_sound adj vs s u hu with h | ⟨w, hw, hadj⟩
    · exact ⟨u, h, hr⟩
    · exact ⟨w, hw, Relation.ReflTransGen.trans (Relation.ReflTransGen.single hadj) hr⟩

/-- If one saturation step adds nothing, the set is adjacency-closed. -/
theorem closed_of_satStep_eq (adj : String → String → Bool) (vs s : List String)
    (h : satStep adj vs s = s) :
    ∀ u ∈ s, ∀ v ∈ vs, adj u v = true → v ∈ s := by
  intro u hu v hv hadj
  by_contra hvs
  have hfil : v ∈ vs.filter (fun v => !s.contains v && s.any (fun u => adj u v)) := by
    refine List.mem_filter.mpr ⟨hv, ?_⟩
    rw [Bool.and_eq_true]
    constructor
    · rw [Bool.not_eq_true']
      rw [Bool.eq_false_iff]
      intro hc
      exact hvs (by simpa using hc)
    · exact List.any_eq_true.mpr ⟨u, hu, hadj⟩
  have : v ∈ satStep adj vs s := List.mem_append_right _ hfil
  rw [h] at this
  exact hvs this

theorem saturate_of_satStep_eq (adj : String → String → Bool) (vs : List String)
    (n : Nat) (s : List String) (h : satStep adj vs s = s) :
    saturate adj vs n s = s := by
  induction n with
  | zero => rfl
  | succ n ih =>
    show saturate adj vs n (satStep adj vs s) = s
    rw [h]; exact ih

/-- Measure: vertices of the universe not yet in the set. -/
def satMissing (vs s : List String) : Nat :=
  (vs.filter (fun v => !s.contains v)).length

theorem satMissing_satStep_lt (adj : String → String → Bool) (vs s : List String)
    (h : satStep adj vs s ≠ s) :
    satMissing vs (satStep adj vs s) < satMissing vs s := by
  set t := vs.filter (fun v => !s.contains v && s.any (fun u => adj u v)) with ht
  have hts : satStep adj vs s = s ++ t := rfl
  have htne : t ≠ [] := by
    intro h0
    exact h (by rw [hts, h0, List.append_nil])
  have hsub : List.Sublist (vs.filter (fun v => !(satStep adj vs s).contains v))
      (vs.filter (fun v => !s.contains v)) := by
    apply List.monotone_filter_right
    intro a ha
    rw [Bool.not_eq_true', Bool.eq_false_iff] at ha ⊢
    intro hc
    apply ha
    have hmem : a ∈ s := by simpa using hc
    have : a ∈ satStep adj vs s := by rw [hts]; exact List.mem_append_left t hmem
    simpa using this
  rcases Nat.lt_or_eq_of_le hsub.length_le with hlt | heq
  · exact hlt
  · exfalso
    have heql := hsub.eq_of_length heq
    rcases List.exists_mem_of_ne_nil t htne with ⟨v, hvt⟩
    have hvt' := hvt
    rw [ht] at hvt'
    have hvvs : v ∈ vs := (List.mem_filter.mp hvt').1
    have hvnot : (!s.contains v) = true := by
      have := (List.mem_filter.mp hvt').2
      rw [Bool.and_eq_true] at this
      exact this.1
    have hvfil : v ∈ vs.filter (fun v => !s.contains v) :=
      List.mem_filter.mpr ⟨hvvs, hvnot⟩
    rw [← heql] at hvfil
    have hvno := (List.mem_filter.mp hvfil).2
    rw [Bool.not_eq_true', Bool.eq_false_iff] at hvno
    apply hvno
    have : v ∈ satStep adj vs s := by
      rw [hts]; exact List.mem_append_right s hvt
    simpa using this

/-- With fuel at least the number of missing universe vertices, saturation
reaches a fixpoint. -/
theorem satStep_saturate_eq (adj : String → String → Bool) (vs : List String) :
    ∀ n s, satMissing vs s ≤ n →
      satStep adj vs (saturate adj vs n s) = saturate adj vs n s := by
  intro n
  induction n with
  | zero =>
    intro s hs
    have h0 : satMissing vs s = 0 := Nat.le_zero.mp hs
    have hfe : vs.filter (fun v => !s.contains v) = [] :=
      List.eq_nil_of_length_eq_zero h0
    show satStep adj vs s = s
    have hnil : vs.filter (fun v => !s.contains v && s.any (fun u => adj u v)) = [] := by
      have hsub : List.Sublist
          (vs.filter (fun v => !s.contains v && s.any (fun u => adj u v)))
          (vs.filter (fun v => !s.contains v)) := by
        apply List.monotone_filter_right
        intro a ha
        rw [Bool.and_eq_true] at ha
        exact ha.1
      rw [hfe] at hsub
      exact List.sublist_nil.mp hsub
    rw [satStep, hnil, List.append_nil]
  | succ n ih =>
    intro s hs
    by_cases hfix : satStep adj vs s = s
    · rw [saturate, saturate_of_satStep_eq adj vs n _ (by rw [hfix]; exact hfix)]
      rw [hfix]; exact hfix
    · have hlt := satMissing_satStep_lt adj vs s hfix
      have : satMissing vs (satStep adj vs s) ≤ n := by omega
      exact ih (satStep adj vs s) this

/-- Completeness: a saturated set with enough fuel contains everything
reachable from the seed. -/
theorem mem_saturate_complete (adj : String → String → Bool) (vs : List String)
    (n : Nat) (s : List String) (hn : satMissing vs s ≤ n)
    (u v : String) (hu : u ∈ s) (hr : Reaches adj vs u v) :
    v ∈ saturate adj vs n s := by
  have hclosed := closed_of_satStep_eq adj vs _ (satStep_saturate_eq adj vs n s hn)
  induction hr with
  | refl => exact subset_saturate adj vs n s hu
  | tail _ hstep ih =>
    rcases hstep with ⟨hadj, hmem⟩
    exact hclosed _ ih _ hmem hadj

theorem satMissing_le_length (vs s : List String) : satMissing vs s ≤ vs.length :=
  List.length_filter_le _ vs

/-! ### Connectivity and directed reachability on `SGraph` -/

/-- Undirected adjacency (mode="weak" view of the directed graph). -/
def undirAdj (g : SGraph) (u v : String) : Bool :=
  g.edges.any (fun a => (a.tail == u && a.head == v) || (a.tail == v && a.head == u))

/-- `utils.is_connected` / `graph_wrapper.is_connected`: weak connectivity via
`igraph.Graph.is_connected(mode="weak")`.  The null graph is not connected. -/
def is_connected (g : SGraph) : Bool :=
  match g.verts with
  | [] => false
  | v0 :: _ => g.verts.all (fun v => (saturate (undirAdj g) g.verts g.verts.length [v0]).contains v)

/-- Directed adjacency: at least one arrow from `u` to `v`. -/
def dirAdj (g : SGraph) (u v : String) : Bool :=
  g.edges.any (fun a => a.tail == u && a.head == v)

/-- Executable set of vertices reachable from `v` along directed arrows. -/
def reachList (g : SGraph) (v : String) : List String :=
  saturate (dirAdj g) g.verts g.verts.length [v]

/-- Propositional directed reachability along edges of `g`. -/
def DReach (g : SGraph) (u v : String) : Prop :=
  Reaches (dirAdj g) g.verts u v

/-! ### Eulerian classification (`ait/utils.py::is_eulerian`, duplicated in
`ait/strategy/edge_cover.py`) -/

/-- The `Eulerian` enum of `ait/utils.py`. -/
inductive Eulerian where
  | NONE
  | CIRCUIT
  | PATH
deriving DecidableEq, Repr

/-- The vertex scan of `is_eulerian`: walks the vertex list keeping track of
whether a `+1` or a `-1` degree difference has been seen (the
`uneven_degrees` set of the Python code can only ever hold `+1` and `-1`).
`none` models the early `return Eulerian.NONE`. -/
def classifyVerts (g : SGraph) : List String → Bool → Bool → Option (Bool × Bool)
  | [], sawPlus, sawMinus => some (sawPlus, sawMinus)
  | v :: rest, sawPlus, sawMinus =>
    let d := delta g v
    if d = 0 then classifyVerts g rest sawPlus sawMinus
    else if 1 < d ∨ d < -1 then none
    else if d = 1 then
      if sawPlus then none else classifyVerts g rest true sawMinus
    else
      if sawMinus then none else classifyVerts g rest sawPlus true

/-- `ait/utils.py::is_eulerian`: weak connectivity check, then the vertex
scan; zero uneven vertices is a CIRCUIT, two (one `+1`, one `-1`) is a
PATH, one is NONE. -/
def is_eulerian (g : SGraph) : Eulerian :=
  if is_connected g = true then
    match classifyVerts g g.verts false false with
    | none => Eulerian.NONE
    | some (false, false) => Eulerian.CIRCUIT
    | some (true, true) => Eulerian.PATH
    | some _ => Eulerian.NONE
  else Eulerian.NONE

/-- Number of vertices (of a list) with degree difference `+1`. -/
def nPlusL (g : SGraph) (l : List String) : Nat :=
  (l.filter (fun v => decide (delta g v = 1))).length

/-- Number of vertices (of a list) with degree difference `-1`. -/
def nMinusL (g : SGraph) (l : List String) : Nat :=
  (l.filter (fun v => decide (delta g v = -1))).length

/-- Number of graph vertices with `out - in = +1`. -/
def nPlus (g : SGraph) : Nat := nPlusL g g.verts

/-- Number of graph vertices with `out - in = -1`. -/
def nMinus (g : SGraph) : Nat := nMinusL g g.verts

theorem classifyVerts_all_zero (g : SGraph) :
    ∀ l p m, (∀ v ∈ l, delta g v = 0) → classifyVerts g l p m = some (p, m) := by
  intro l
  induction l with
  | nil => intro p m _; rfl
  | cons v rest ih =>
    intro p m h
    have hv : delta g v = 0 := h v (List.mem_cons_self v rest)
    simp only [classifyVerts, hv]
    norm_num
    exact ih p m (fun w hw => h w (List.mem_cons_of_mem v hw))

theorem classifyVerts_bad (g : SGraph) :
    ∀ l p m, (∃ v ∈ l, 1 < (delta g v).natAbs) → classifyVerts g l p m = none := by
  intro l
  induction l with
  | nil => rintro p m ⟨v, hv, -⟩; simp at hv
  | cons v rest ih =>
    rintro p m ⟨w, hw, hbad⟩
    rcases List.mem_cons.mp hw with rfl | hwrest
    · have h1 : ¬ delta g w = 0 := by
        intro h0; rw [h0] at hbad; simp at hbad
      have h2 : 1 < delta g w ∨ delta g w < -1 := by omega
      simp only [classifyVerts, if_neg h1, if_pos h2]
    · by_cases h0 : delta g v = 0
      · simp only [classifyVerts, if_pos h0]
        exact ih p m ⟨w, hwrest, hbad⟩
      · by_cases hb : 1 < delta g v ∨ delta g v < -1
        · simp only [classifyVerts, if_neg h0, if_pos hb]
        · by_cases h1 : delta g v = 1
          · simp only [classifyVerts, if_neg h0, if_neg hb, if_pos h1]
            cases p
            · simp only [Bool.false_eq_true, if_false]
              exact ih true m ⟨w, hwrest, hbad⟩
            · simp
          · simp only [classifyVerts, if_neg h0, if_neg hb, if_neg h1]
            cases m
            · simp only [Bool.false_eq_true, if_false]
              exact ih p true ⟨w, hwrest, hbad⟩
            · simp

theorem nPlusL_cons (g : SGraph) (v : String) (rest : List String) :
    nPlusL g (v :: rest) = (if delta g v = 1 then 1 else 0) + nPlusL g rest := by
  simp only [nPlusL, List.filter_cons]
  by_cases h : delta g v = 1
  · simp only [h]
    simp
    omega
  · simp [h]

theorem nMinusL_cons (g : SGraph) (v : String) (rest : List String) :
    nMinusL g (v :: rest) = (if delta g v = -1 then 1 else 0) + nMinusL g rest := by
  simp only [nMinusL, List.filter_cons]
  by_cases h : delta g v = -1
  · simp only [h]
    simp
    omega
  · simp [h]

theorem classifyVerts_dupPlus (g : SGraph) :
    ∀ l m, 1 ≤ nPlusL g l → classifyVerts g l true m = none := by
  intro l
  induction l with
  | nil => intro m h; simp [nPlusL] at h
  | cons v rest ih =>
    intro m h
    rw [nPlusL_cons] at h
    by_cases h0 : delta g v = 0
    · simp only [classifyVerts, if_pos h0]
      rw [if_neg (by omega)] at h
      exact ih m (by omega)
    · by_cases hb : 1 < delta g v ∨ delta g v < -1
      · simp only [classifyVerts, if_neg h0, if_pos hb]
      · by_cases h1 : delta g v = 1
        · simp [classifyVerts, if_neg h0, if_neg hb, h1]
        · simp only [classifyVerts, if_neg h0, if_neg hb, if_neg h1]
          rw [if_neg h1] at h
          cases m
          · simp only [Bool.false_eq_true, if_false]
            exact ih true (by omega)
          · simp

theorem classifyVerts_dupMinus (g : SGraph) :
    ∀ l p, 1 ≤ nMinusL g l → classifyVerts g l p true = none := by
  intro l
  induction l with
  | nil => intro p h; simp [nMinusL] at h
  | cons v rest ih =>
    intro p h
    rw [nMinusL_cons] at h
    by_cases h0 : delta g v = 0
    · simp only [classifyVerts, if_pos h0]
      rw [if_neg (by omega)] at h
      exact ih p (by omega)
    · by_cases hb : 1 < delta g v ∨ delta g v < -1
      · simp only [classifyVerts, if_neg h0, if_pos hb]
      · by_cases h1 : delta g v = 1
        · simp only [classifyVerts, if_neg h0, if_neg hb, if_pos h1]
          cases p
          · simp only [Bool.false_eq_true, if_false]
            rw [if_neg (by omega)] at h
            exact ih true (by omega)
          · simp
        · simp [classifyVerts, if_neg h0, if_neg hb, if_neg h1]

theorem classifyVerts_twoPlus (g : SGraph) :
    ∀ l p m, 2 ≤ nPlusL g l → classifyVerts g l p m = none := by
  intro l
  induction l with
  | nil => intro p m h; simp [nPlusL] at h
  | cons v rest ih =>
    intro p m h
    rw [nPlusL_cons] at h
    by_cases h0 : delta g v = 0
    · simp only [classifyVerts, if_pos h0]
      rw [if_neg (by omega)] at h
      exact ih p m (by omega)
    · by_cases hb : 1 < delta g v ∨ delta g v < -1
      · simp only [classifyVerts, if_neg h0, if_pos hb]
      · by_cases h1 : delta g v = 1
        · simp only [classifyVerts, if_neg h0, if_neg hb, if_pos h1]
          cases p
          · simp only [Bool.false_eq_true, if_false]
            rw [if_pos h1] at h
            exact classifyVerts_dupPlus g rest m (by omega)
          · simp
        · simp only [classifyVerts, if_neg h0, if_neg hb, if_neg h1]
          rw [if_neg h1] at h
          cases m
          · simp only [Bool.false_eq_true, if_false]
            exact ih p true (by omega)
          · simp

theorem classifyVerts_twoMinus (g : SGraph) :
    ∀ l p m, 2 ≤ nMinusL g l → classifyVerts g l p m = none := by
  intro l
  induction l with
  | nil => intro p m h; simp [nMinusL] at h
  | cons v rest ih =>
    intro p m h
    rw [nMinusL_cons] at h
    by_cases h0 : delta g v = 0
    · simp only [classifyVerts, if_pos h0]
      rw [if_neg (by omega)] at h
      exact ih p m (by omega)
    · by_cases hb : 1 < delta g v ∨ delta g v < -1
      · simp only [classifyVerts, if_neg h0, if_pos hb]
      · by_cases h1 : delta g v = 1
        · simp only [classifyVerts, if_neg h0, if_neg hb, if_pos h1]
          rw [if_neg (by omega)] at h
          cases p
          · simp only [Bool.false_eq_true, if_false]
            exact ih true m (by omega)
          · simp
        · simp only [classifyVerts, if_neg h0, if_neg hb, if_neg h1]
          cases m
          · simp only [Bool.false_eq_true, if_false]
            rw [if_pos (by omega)] at h
            exact classifyVerts_dupMinus g rest p (by omega)
          · simp

theorem classifyVerts_some_char (g : SGraph) :
    ∀ l p m p' m', classifyVerts g l p m = some (p', m') →
      (p = true → p' = true) ∧ (m = true → m' = true) ∧
      ∀ v ∈ l, delta g v = 0 ∨ (delta g v = 1 ∧ p' = true) ∨
        (delta g v = -1 ∧ m' = true) := by
  intro l
  induction l with
  | nil =>
    intro p m p' m' h
    simp only [classifyVerts, Option.some.injEq, Prod.mk.injEq] at h
    refine ⟨fun hp => ?_, fun hm => ?_, fun v hv => by simp at hv⟩
    · rw [← h.1]; exact hp
    · rw [← h.2]; exact hm
  | cons v rest ih =>
    intro p m p' m' h
    by_cases h0 : delta g v = 0
    · simp only [classifyVerts, if_pos h0] at h
      rcases ih p m p' m' h with ⟨hp, hm, hrest⟩
      exact ⟨hp, hm, fun w hw => by
        rcases List.mem_cons.mp hw with rfl | hw'
        · exact Or.inl h0
        · exact hrest w hw'⟩
    · by_cases hb : 1 < delta g v ∨ delta g v < -1
      · simp only [classifyVerts, if_neg h0, if_pos hb] at h
        exact absurd h (by simp)
      · by_cases h1 : delta g v = 1
        · simp only [classifyVerts, if_neg h0, if_neg hb, if_pos h1] at h
          cases p
          · simp only [Bool.false_eq_true, if_false] at h
            rcases ih true m p' m' h with ⟨hp, hm, hrest⟩
            refine ⟨?_, hm, fun w hw => ?_⟩
            · intro hc; cases hc
            rcases List.mem_cons.mp hw with rfl | hw'
            · exact Or.inr (Or.inl ⟨h1, hp rfl⟩)
            · exact hrest w hw'
          · simp at h
        · have hm1 : delta g v = -1 := by omega
          simp only [classifyVerts, if_neg h0, if_neg hb, if_neg h1] at h
          cases m
          · simp only [Bool.false_eq_true, if_false] at h
            rcases ih p true p' m' h with ⟨hp, hm, hrest⟩
            refine ⟨hp, ?_, fun w hw => ?_⟩
            · intro hc; cases hc
            rcases List.mem_cons.mp hw with rfl | hw'
            · exact Or.inr (Or.inr ⟨hm1, hm rfl⟩)
            · exact hrest w hw'
          · simp at h

theorem classifyVerts_path_ok (g : SGraph) :
    ∀ l p m, (∀ v ∈ l, (delta g v).natAbs ≤ 1) →
      (p = true → nPlusL g l = 0) → (m = true → nMinusL g l = 0) →
      nPlusL g l ≤ 1 → nMinusL g l ≤ 1 →
      classifyVerts g l p m =
        some (p || decide (nPlusL g l = 1), m || decide (nMinusL g l = 1)) := by
  intro l
  induction l with
  | nil =>
    intro p m _ _ _ _ _
    simp [classifyVerts, nPlusL, nMinusL]
  | cons v rest ih =>
    intro p m habs hp hm hp1 hm1
    have hvabs : (delta g v).natAbs ≤ 1 := habs v (List.mem_cons_self v rest)
    have habs' : ∀ w ∈ rest, (delta g w).natAbs ≤ 1 :=
      fun w hw => habs w (List.mem_cons_of_mem v hw)
    rw [nPlusL_cons] at hp hp1
    rw [nMinusL_cons] at hm hm1
    by_cases h0 : delta g v = 0
    · have hne1 : ¬ (delta g v = 1) := by omega
      have hnem : ¬ (delta g v = -1) := by omega
      rw [if_neg hne1] at hp hp1
      rw [if_neg hnem] at hm hm1
      simp only [classifyVerts, if_pos h0]
      rw [ih p m habs' (fun hx => by have := hp hx; omega)
        (fun hx => by have := hm hx; omega) (by omega) (by omega)]
      rw [nPlusL_cons, nMinusL_cons, if_neg hne1, if_neg hnem]
      simp
    · have hnb : ¬ (1 < delta g v ∨ delta g v < -1) := by omega
      by_cases h1 : delta g v = 1
      · have hnem : ¬ (delta g v = -1) := by omega
        rw [if_pos h1] at hp hp1
        rw [if_neg hnem] at hm hm1
        have hpf : p = false := by
          cases p
          · rfl
          · exact absurd (hp rfl) (by omega)
        subst hpf
        have hrest0 : nPlusL g rest = 0 := by omega
        simp only [classifyVerts, if_neg h0, if_neg hnb, if_pos h1,
          Bool.false_eq_true, if_false]
        rw [ih true m habs' (fun _ => hrest0)
          (fun hx => by have := hm hx; omega) (by omega) (by omega)]
        rw [nPlusL_cons, nMinusL_cons, if_pos h1, if_neg hnem, hrest0]
        simp
      · have hm1' : delta g v = -1 := by omega
        rw [if_neg h1] at hp hp1
        rw [if_pos hm1'] at hm hm1
        have hmf : m = false := by
          cases m
          · rfl
          · exact absurd (hm rfl) (by omega)
        subst hmf
        have hrest0 : nMinusL g rest = 0 := by omega
        simp only [classifyVerts, if_neg h0, if_neg hnb, if_neg h1,
          Bool.false_eq_true, if_false]
        rw [ih p true habs' (fun hx => by have := hp hx; omega)
          (fun _ => hrest0) (by omega) (by omega)]
        rw [nPlusL_cons, nMinusL_cons, if_neg h1, if_pos hm1', hrest0]
        simp

theorem is_eulerian_circuit_of (g : SGraph) (hc : is_connected g = true)
    (hz : ∀ v ∈ g.verts, delta g v = 0) : is_eulerian g = Eulerian.CIRCUIT := by
  rw [is_eulerian, if_pos hc, classifyVerts_all_zero g g.verts false false hz]

theorem is_eulerian_circuit_inv (g : SGraph) (h : is_eulerian g = Eulerian.CIRCUIT) :
    is_connected g = true ∧ ∀ v ∈ g.verts, delta g v = 0 := by
  rw [is_eulerian] at h
  by_cases hc : is_connected g = true
  · refine ⟨hc, ?_⟩
    rw [if_pos hc] at h
    rcases hcl : classifyVerts g g.verts false false with - | ⟨p', m'⟩
    · rw [hcl] at h; exact absurd h (by simp)
    · rcases classifyVerts_some_char g g.verts false false p' m' hcl with ⟨-, -, hchar⟩
      rw [hcl] at h
      intro v hv
      rcases hchar v hv with h0 | ⟨-, hp'⟩ | ⟨-, hm'⟩
      · exact h0
      · subst hp'
        rcases hm : m' with - | -
        · rw [hm] at h; exact absurd h (by simp)
        · rw [hm] at h; exact absurd h (by simp)
      · subst hm'
        rcases hplane : p' with - | -
        · rw [hplane] at h; exact absurd h (by simp)
        · rw [hplane] at h; exact absurd h (by simp)
  · rw [if_neg hc] at h
    exact absurd h (by simp)

theorem is_eulerian_none_of (g : SGraph)
    (h : is_connected g = false ∨ 2 ≤ nPlus g ∨ 2 ≤ nMinus g ∨
      ∃ v ∈ g.verts, 1 < (delta g v).natAbs) :
    is_eulerian g = Eulerian.NONE := by
  by_cases hc : is_connected g = true
  · rcases h with hcf | h2p | h2m | hbad
    · rw [hcf] at hc; exact absurd hc (by simp)
    · rw [is_eulerian, if_pos hc, classifyVerts_twoPlus g g.verts false false h2p]
    · rw [is_eulerian, if_pos hc, classifyVerts_twoMinus g g.verts false false h2m]
    · rw [is_eulerian, if_pos hc, classifyVerts_bad g g.verts false false hbad]
  · rw [is_eulerian, if_neg hc]

theorem is_eulerian_path_of (g : SGraph) (hc : is_connected g = true)
    (hp : nPlus g = 1) (hm : nMinus g = 1)
    (habs : ∀ v ∈ g.verts, (delta g v).natAbs ≤ 1) :
    is_eulerian g = Eulerian.PATH := by
  rw [is_eulerian, if_pos hc,
    classifyVerts_path_ok g g.verts false false habs
      (fun hx => by cases hx) (fun hx => by cases hx)
      (by rw [nPlus] at hp; omega) (by rw [nMinus] at hm; omega)]
  rw [nPlus] at hp
  rw [nMinus] at hm
  rw [hp, hm]
  simp

/-- The graph `a→b, b→c, c→b, c→d, c→d`: weakly connected, exactly one
vertex with degree difference `+1` (`a`), exactly one with `-1` (`b`), but
`c` has `+2` and `d` has `-2`. -/
def gC4 : SGraph :=
  ⟨["a", "b", "c", "d"],
   [⟨"a", "b", "e1"⟩, ⟨"b", "c", "e2"⟩, ⟨"c", "b", "e3"⟩,
    ⟨"c", "d", "e4"⟩, ⟨"c", "d", "e5"⟩]⟩

/-- C4, counterexample.  The claim says the classifier returns PATH whenever
the graph is weakly connected with exactly one vertex of degree difference
`+1` and exactly one of `-1`; on `gC4` those conditions hold and yet
`is_eulerian` returns NONE (because another vertex has `|out - in| > 1`). -/
theorem claim_C4_counterexample :
    is_connected gC4 = true ∧ nPlus gC4 = 1 ∧ nMinus gC4 = 1 ∧
    is_eulerian gC4 = Eulerian.NONE := by decide

/-- C4 (amended): `is_eulerian` returns NONE if the graph is not weakly
connected, or more than one vertex has `out - in = +1`, or more than one has
`-1`, or any vertex has `|out - in| > 1`; it returns CIRCUIT if the graph is
weakly connected and every vertex is balanced; and it returns PATH if the
graph is weakly connected, exactly one vertex has `+1`, exactly one has `-1`,
and — the amendment — every vertex has `|out - in| ≤ 1`. -/
theorem claim_C4_theorem (g : SGraph) :
    (is_connected g = false ∨ 2 ≤ nPlus g ∨ 2 ≤ nMinus g ∨
      (∃ v ∈ g.verts, 1 < (delta g v).natAbs) → is_eulerian g = Eulerian.NONE) ∧
    (is_connected g = true → (∀ v ∈ g.verts, delta g v = 0) →
      is_eulerian g = Eulerian.CIRCUIT) ∧
    (is_connected g = true → nPlus g = 1 → nMinus g = 1 →
      (∀ v ∈ g.verts, (delta g v).natAbs ≤ 1) → is_eulerian g = Eulerian.PATH) :=
  ⟨fun h => is_eulerian_none_of g h,
   fun hc hz => is_eulerian_circuit_of g hc hz,
   fun hc hp hm habs => is_eulerian_path_of g hc hp hm habs⟩

/-- C4, witness: evaluating the three branches of the amended claim on
concrete graphs. -/
theorem claim_C4_witness :
    is_eulerian ⟨["a", "b"], []⟩ = Eulerian.NONE ∧
    is_eulerian ⟨["a", "b"], [⟨"a", "b", "x"⟩, ⟨"b", "a", "y"⟩]⟩ = Eulerian.CIRCUIT ∧
    is_eulerian ⟨["a", "b"], [⟨"a", "b", "x"⟩]⟩ = Eulerian.PATH :=
  ⟨(claim_C4_theorem _).1 (Or.inl (by decide)),
   (claim_C4_theorem _).2.1 (by decide) (by decide),
   (claim_C4_theorem _).2.2 (by decide) (by decide) (by decide) (by decide)⟩

/-! ### Shortest path (`ait/utils.py::shortest_path`, wrapping
`igraph.Graph.get_shortest_path(..., output="epath")`) -/

/-- Outgoing edges of a vertex, in edge-id order. -/
def outArrows (g : SGraph) (v : String) : List Arrow :=
  g.edges.filter (fun a => a.tail == v)

/-- One BFS-layer expansion: extend every frontier path along every outgoing
edge whose head is unvisited. -/
def spExpand (g : SGraph) (visited : List String)
    (frontier : List (String × List Arrow)) : List (String × List Arrow) :=
  (frontier.map (fun x =>
    (outArrows g x.1).filterMap (fun a =>
      if visited.contains a.head then none else some (a.head, x.2 ++ [a])))).flatten

/-- Layered BFS producing a minimum-edge-count path to `target`. -/
def spSearch (g : SGraph) (target : String) :
    Nat → List (String × List Arrow) → List String → Option (List Arrow)
  | 0, _, _ => none
  | fuel + 1, frontier, visited =>
    match frontier.find? (fun x => x.1 == target) with
    | some x => some x.2
    | none =>
      let ex := spExpand g visited frontier
      if ex.isEmpty then none
      else spSearch g target fuel ex (visited ++ ex.map (fun x => x.1))

/-- `ait/utils.py::shortest_path`: a minimum-edge-count path from `src` to
`tgt` as a list of arrows; `[]` when none exists (igraph then logs a warning
and the wrapper returns `[]`). -/
def shortest_path (g : SGraph) (src tgt : String) : List Arrow :=
  match spSearch g tgt (g.verts.length + 1) [(src, [])] [src] with
  | some p => p
  | none => []

/-- A list of arrows that chains from `s` to `t`. -/
def isChain : String → List Arrow → String → Prop
  | s, [], t => s = t
  | s, a :: rest, t => a.tail = s ∧ isChain a.head rest t

instance : ∀ s p t, Decidable (isChain s p t) := fun s p t => by
  induction p generalizing s with
  | nil => exact (inferInstance : Decidable (s = t))
  | cons a rest ih =>
    have := ih a.head
    exact (inferInstance : Decidable (a.tail = s ∧ isChain a.head rest t))

theorem isChain_append_single (s : String) (p : List Arrow) (v : String) (a : Arrow) :
    ∀ {s0}, isChain s0 p s → a.tail = s → a.head = v → isChain s0 (p ++ [a]) v := by
  induction p with
  | nil =>
    intro s0 hc ht hh
    cases hc
    exact ⟨ht, hh⟩
  | cons b rest ih =>
    intro s0 hc ht hh
    exact ⟨hc.1, ih hc.2 ht hh⟩

theorem spSearch_chain (g : SGraph) (target src : String) :
    ∀ fuel frontier visited p,
      (∀ x ∈ frontier, isChain src x.2 x.1 ∧ ∀ a ∈ x.2, a ∈ g.edges) →
      spSearch g target fuel frontier visited = some p →
      isChain src p target ∧ ∀ a ∈ p, a ∈ g.edges := by
  intro fuel
  induction fuel with
  | zero => intro frontier visited p _ h; exact absurd h (by simp [spSearch])
  | succ fuel ih =>
    intro frontier visited p hinv h
    rw [spSearch] at h
    rcases hf : frontier.find? (fun x => x.1 == target) with - | x
    · rw [hf] at h
      by_cases hex : (spExpand g visited frontier).isEmpty
      · rw [if_pos hex] at h; exact absurd h (by simp)
      · rw [if_neg hex] at h
        refine ih (spExpand g visited frontier) _ p ?_ h
        intro y hy
        rcases List.mem_flatten.mp hy with ⟨l, hl, hyl⟩
        rcases List.mem_map.mp hl with ⟨x, hxf, rfl⟩
        rcases List.mem_filterMap.mp hyl with ⟨a, ha, hcond⟩
        rcases List.mem_filter.mp ha with ⟨haedges, hatail⟩
        by_cases hv : (visited.contains a.head : Bool)
        · rw [if_pos hv] at hcond; cases hcond
        · rw [if_neg hv] at hcond
          rcases Option.some.injEq _ _ ▸ hcond with rfl
          rcases hinv x hxf with ⟨hchain, hmem⟩
          constructor
          · exact isChain_append_single x.1 x.2 a.head a hchain
              (by simpa using hatail) rfl
          · intro b hb
            rcases List.mem_append.mp hb with hb | hb
            · exact hmem b hb
            · rw [List.mem_singleton.mp hb]; exact haedges
    · rw [hf] at h
      have hx := List.find?_some hf
      have hxf : x ∈ frontier := List.mem_of_find?_eq_some hf
      rcases hinv x hxf with ⟨hchain, hmem⟩
      have : x.1 = target := by simpa using hx
      rw [Option.some.injEq] at h
      subst h
      rw [← this]
      exact ⟨hchain, hmem⟩

theorem shortest_path_spec (g : SGraph) (src tgt : String) :
    shortest_path g src tgt = [] ∨
      (isChain src (shortest_path g src tgt) tgt ∧
        ∀ a ∈ shortest_path g src tgt, a ∈ g.edges) := by
  rw [shortest_path]
  rcases hs : spSearch g tgt (g.verts.length + 1) [(src, [])] [src] with - | p
  · exact Or.inl rfl
  · right
    refine spSearch_chain g tgt src _ [(src, [])] [src] p ?_ hs
    intro x hx
    rw [List.mem_singleton.mp hx]
    exact ⟨rfl, by intro a ha; simp at ha⟩

theorem isChain_last_head (dflt : Arrow) :
    ∀ (p : List Arrow) s t, isChain s p t → p ≠ [] →
      (p.getLast?.getD dflt).head = t := by
  intro p
  induction p with
  | nil => intro s t _ h; exact absurd rfl h
  | cons a rest ih =>
    intro s t hc _
    rcases rest with - | ⟨b, rest'⟩
    · cases hc.2; rfl
    · have := ih a.head t hc.2 (by simp)
      simpa [List.getLast?] using this

/-! ### Eulerization (`ait/utils.py::get_uneven_pair`, `duplicate_path`,
`eulerize`; duplicated in `ait/strategy/edge_cover.py`) -/

/-- The scan of `get_uneven_pair`: remembers the last vertex with positive
degree difference as hub and the last with negative difference as sink,
stopping as soon as both are non-empty strings. -/
def gupLoop (g : SGraph) : List String → String → String → String × String
  | [], hub, sink => (hub, sink)
  | v :: rest, hub, sink =>
    let d := delta g v
    let hub' := if 0 < d then v else hub
    let sink' := if d < 0 then v else sink
    if hub' ≠ "" ∧ sink' ≠ "" then (hub', sink') else gupLoop g rest hub' sink'

/-- `ait/utils.py::get_uneven_pair`. -/
def getUnevenPair (g : SGraph) : String × String :=
  gupLoop g g.verts "" ""

theorem gupLoop_spec (g : SGraph) :
    ∀ l hub sink,
      (hub = "" ∨ (hub ∈ g.verts ∧ 0 < delta g hub)) →
      (sink = "" ∨ (sink ∈ g.verts ∧ delta g sink < 0)) →
      (∀ v ∈ l, v ∈ g.verts) →
      ((gupLoop g l hub sink).1 = "" ∨
        ((gupLoop g l hub sink).1 ∈ g.verts ∧ 0 < delta g (gupLoop g l hub sink).1)) ∧
      ((gupLoop g l hub sink).2 = "" ∨
        ((gupLoop g l hub sink).2 ∈ g.verts ∧ delta g (gupLoop g l hub sink).2 < 0)) := by
  intro l
  induction l with
  | nil =>
    intro hub sink hh hs _
    exact ⟨hh, hs⟩
  | cons v rest ih =>
    intro hub sink hh hs hmem
    have hvmem : v ∈ g.verts := hmem v (List.mem_cons_self v rest)
    have hmem' : ∀ w ∈ rest, w ∈ g.verts := fun w hw => hmem w (List.mem_cons_of_mem v hw)
    have hh' : (if 0 < delta g v then v else hub) = "" ∨
        ((if 0 < delta g v then v else hub) ∈ g.verts ∧
          0 < delta g (if 0 < delta g v then v else hub)) := by
      by_cases hd : 0 < delta g v
      · rw [if_pos hd]; exact Or.inr ⟨hvmem, hd⟩
      · rw [if_neg hd]; exact hh
    have hs' : (if delta g v < 0 then v else sink) = "" ∨
        ((if delta g v < 0 then v else sink) ∈ g.verts ∧
          delta g (if delta g v < 0 then v else sink) < 0) := by
      by_cases hd : delta g v < 0
      · rw [if_pos hd]; exact Or.inr ⟨hvmem, hd⟩
      · rw [if_neg hd]; exact hs
    by_cases hstop : (if 0 < delta g v then v else hub) ≠ "" ∧
        (if delta g v < 0 then v else sink) ≠ ""
    · simp only [gupLoop, if_pos hstop]
      constructor
      · rcases hh' with h | h
        · exact absurd h hstop.1
        · exact Or.inr h
      · rcases hs' with h | h
        · exact absurd h hstop.2
        · exact Or.inr h
    · simp only [gupLoop, if_neg hstop]
      exact ih _ _ hh' hs' hmem'

/-- `ait/utils.py::duplicate_path`: recompute the repetition count from the
path's first tail and last head, then append that many copies of the path's
arrows.  A missing endpoint vertex (the `ValueError` branch) makes the call
a no-op; a non-positive count adds nothing (`range` of a non-positive
number is empty). -/
def duplicate_path (g : SGraph) (path : List Arrow) : SGraph :=
  match path with
  | [] => g
  | a :: _ =>
    let vfrom := a.tail
    let vto := (path.getLast?.getD a).head
    if vfrom ∈ g.verts ∧ vto ∈ g.verts then
      let rep := min ((inDeg g vfrom : Int) - outDeg g vfrom)
        ((outDeg g vto : Int) - inDeg g vto)
      ⟨g.verts, g.edges ++ (List.replicate rep.toNat path).flatten⟩
    else g

/-- Total imbalance of a graph: the sum over its vertices of `|out - in|`. -/
def totalImbalance (g : SGraph) : Nat :=
  (g.verts.map (fun v => (delta g v).natAbs)).sum

/-- The `while True` loop of `ait/utils.py::eulerize`, with explicit fuel
(`none` models fuel exhaustion and is proved unreachable for sufficient
fuel).  The loop also returns the final graph to expose the mutation. -/
def eulerizeLoop : Nat → SGraph → Option (Eulerian × SGraph)
  | 0, _ => none
  | fuel + 1, g =>
    let p := getUnevenPair g
    if p.1 = "" ∧ p.2 = "" then some (Eulerian.CIRCUIT, g)
    else if p.1 = "" ∨ p.2 = "" then some (Eulerian.NONE, g)
    else
      let path := shortest_path g p.2 p.1
      if path = [] then some (is_eulerian g, g)
      else eulerizeLoop fuel (duplicate_path g path)

/-- `ait/utils.py::eulerize` (the loop fuel suffices by
`eulerizeLoop_terminates`). -/
def eulerize (g : SGraph) : Eulerian × SGraph :=
  let eul := is_eulerian g
  if eul ≠ Eulerian.NONE then (eul, g)
  else if is_connected g = false then (Eulerian.NONE, g)
  else (eulerizeLoop (totalImbalance g + 1) g).getD (Eulerian.NONE, g)

/-- Number of arrows of a list with tail `v`. -/
def countTail (l : List Arrow) (v : String) : Nat :=
  (l.filter (fun a => a.tail == v)).length

/-- Number of arrows of a list with head `v`. -/
def countHead (l : List Arrow) (v : String) : Nat :=
  (l.filter (fun a => a.head == v)).length

theorem outDeg_append (verts : List String) (e1 e2 : List Arrow) (v : String) :
    outDeg ⟨verts, e1 ++ e2⟩ v = outDeg ⟨verts, e1⟩ v + countTail e2 v := by
  simp [outDeg, countTail, List.filter_append]

theorem inDeg_append (verts : List String) (e1 e2 : List Arrow) (v : String) :
    inDeg ⟨verts, e1 ++ e2⟩ v = inDeg ⟨verts, e1⟩ v + countHead e2 v := by
  simp [inDeg, countHead, List.filter_append]

theorem countTail_join_replicate (k : Nat) (p : List Arrow) (v : String) :
    countTail ((List.replicate k p).flatten) v = k * countTail p v := by
  induction k with
  | zero => simp [countTail]
  | succ k ih =>
    rw [List.replicate_succ, List.flatten_cons]
    simp only [countTail, List.filter_append, List.length_append] at ih ⊢
    rw [ih]
    ring

theorem countHead_join_replicate (k : Nat) (p : List Arrow) (v : String) :
    countHead ((List.replicate k p).flatten) v = k * countHead p v := by
  induction k with
  | zero => simp [countHead]
  | succ k ih =>
    rw [List.replicate_succ, List.flatten_cons]
    simp only [countHead, List.filter_append, List.length_append] at ih ⊢
    rw [ih]
    ring

/-- Telescoping along a chain: the tail-count minus head-count of a chain
from `s` to `t` is `+1` at `s`, `-1` at `t`, `0` elsewhere. -/
theorem chain_count_diff (v : String) :
    ∀ (p : List Arrow) (s t : String), isChain s p t →
      (countTail p v : Int) - countHead p v =
        (if v = s then 1 else 0) - (if v = t then 1 else 0) := by
  intro p
  induction p with
  | nil =>
    intro s t hc
    cases hc
    simp [countTail, countHead]
  | cons a rest ih =>
    intro s t hc
    have hrec := ih a.head t hc.2
    have hts : a.tail = s := hc.1
    have h1 : countTail (a :: rest) v =
        (if v = s then 1 else 0) + countTail rest v := by
      simp only [countTail, List.filter_cons]
      by_cases hv : v = s
      · subst hv
        rw [if_pos (by simp [hts])]
        simp [Nat.add_comm]
      · rw [if_neg (by simp [hts]; intro hcc; exact hv hcc.symm)]
        rw [if_neg hv]
        simp
    have h2 : countHead (a :: rest) v =
        (if v = a.head then 1 else 0) + countHead rest v := by
      simp only [countHead, List.filter_cons]
      by_cases hv : v = a.head
      · subst hv
        rw [if_pos (by simp)]
        simp [Nat.add_comm]
      · rw [if_neg (by simp; intro hcc; exact hv hcc.symm)]
        rw [if_neg hv]
        simp
    rw [h1, h2]
    push_cast
    omega

theorem sum_map_update1 (f f' : String → Nat) (k : Nat) :
    ∀ (l : List String) (h : String), l.Nodup → h ∈ l → f' h + k = f h →
      (∀ v ∈ l, v ≠ h → f' v = f v) →
      ((l.map f').sum + k = (l.map f).sum) := by
  intro l
  induction l with
  | nil => intro h _ hmem; simp at hmem
  | cons v rest ih =>
    intro h hnd hmem hfh hoth
    rcases List.mem_cons.mp hmem with rfl | hrest
    · have hothers : ∀ w ∈ rest, f' w = f w := by
        intro w hw
        have : w ≠ h := by
          intro heq; subst heq
          exact (List.nodup_cons.mp hnd).1 hw
        exact hoth w (List.mem_cons_of_mem h hw) this
      have : rest.map f' = rest.map f := List.map_congr_left hothers
      simp only [List.map_cons, List.sum_cons, this]
      omega
    · have hvne : v ≠ h := by
        intro heq; subst heq
        exact (List.nodup_cons.mp hnd).1 hrest
      have hv : f' v = f v := hoth v (List.mem_cons_self v rest) hvne
      have := ih h (List.nodup_cons.mp hnd).2 hrest hfh
        (fun w hw hne => hoth w (List.mem_cons_of_mem v hw) hne)
      simp only [List.map_cons, List.sum_cons, hv]
      omega

theorem sum_map_update2 (f f' : String → Nat) (k : Nat) :
    ∀ (l : List String) (s h : String), l.Nodup → s ∈ l → h ∈ l → s ≠ h →
      f' s + k = f s → f' h + k = f h →
      (∀ v ∈ l, v ≠ s → v ≠ h → f' v = f v) →
      ((l.map f').sum + 2 * k = (l.map f).sum) := by
  intro l
  induction l with
  | nil => intro s h _ hs; simp at hs
  | cons v rest ih =>
    intro s h hnd hs hh hsh hfs hfh hoth
    rcases List.mem_cons.mp hs with rfl | hsrest
    · have hhrest : h ∈ rest := by
        rcases List.mem_cons.mp hh with rfl | hr
        · exact absurd rfl hsh
        · exact hr
      have := sum_map_update1 f f' k rest h (List.nodup_cons.mp hnd).2 hhrest hfh
        (fun w hw hne => hoth w (List.mem_cons_of_mem s hw)
          (fun heq => (List.nodup_cons.mp hnd).1 (heq ▸ hw)) hne)
      simp only [List.map_cons, List.sum_cons]
      omega
    · rcases List.mem_cons.mp hh with rfl | hhrest
      · have := sum_map_update1 f f' k rest s (List.nodup_cons.mp hnd).2 hsrest hfs
          (fun w hw hne => hoth w (List.mem_cons_of_mem h hw) hne
            (fun heq => (List.nodup_cons.mp hnd).1 (heq ▸ hw)))
        simp only [List.map_cons, List.sum_cons]
        omega
      · have hvs : v ≠ s := fun heq => (List.nodup_cons.mp hnd).1 (heq ▸ hsrest)
        have hvh : v ≠ h := fun heq => (List.nodup_cons.mp hnd).1 (heq ▸ hhrest)
        have hv : f' v = f v := hoth v (List.mem_cons_self v rest) hvs hvh
        have := ih s h (List.nodup_cons.mp hnd).2 hsrest hhrest hsh hfs hfh
          (fun w hw => hoth w (List.mem_cons_of_mem v hw))
        simp only [List.map_cons, List.sum_cons, hv]
        omega

/-- Duplicating a non-empty chain from a sink (`out - in < 0`) to a hub
(`out - in > 0`) lowers the total imbalance by twice the repetition count. -/
theorem duplicate_path_imbalance (g : SGraph) (hwf : g.wf)
    (sink hub : String) (path : List Arrow)
    (hchain : isChain sink path hub) (hne : path ≠ [])
    (hsinkm : sink ∈ g.verts) (hhubm : hub ∈ g.verts)
    (hds : delta g sink < 0) (hdh : 0 < delta g hub) :
    totalImbalance (duplicate_path g path) + 2 ≤ totalImbalance g := by
  rcases path with - | ⟨a, rest⟩
  · exact absurd rfl hne
  have hts : a.tail = sink := hchain.1
  have hlast : ((a :: rest).getLast?.getD a).head = hub :=
    isChain_last_head a (a :: rest) sink hub hchain (by simp)
  have hsh : sink ≠ hub := by
    intro heq; rw [heq] at hds; omega
  rw [duplicate_path]
  rw [hts, hlast, if_pos ⟨hsinkm, hhubm⟩]
  set k : Int := min ((inDeg g sink : Int) - outDeg g sink)
    ((outDeg g hub : Int) - inDeg g hub) with hk
  have hk1 : 1 ≤ k := by
    rw [hk]
    rw [delta] at hds hdh
    omega
  set E := (List.replicate k.toNat (a :: rest)).flatten with hE
  show totalImbalance ⟨g.verts, g.edges ++ E⟩ + 2 ≤ totalImbalance g
  have hdelta : ∀ v, delta ⟨g.verts, g.edges ++ E⟩ v =
      delta g v + (k.toNat : Int) *
        ((if v = sink then 1 else 0) - (if v = hub then 1 else 0)) := by
    intro v
    have hdiff := chain_count_diff v (a :: rest) sink hub hchain
    have hout : outDeg ⟨g.verts, g.edges ++ E⟩ v = outDeg g v + countTail E v := by
      have := outDeg_append g.verts g.edges E v
      simpa using this
    have hin : inDeg ⟨g.verts, g.edges ++ E⟩ v = inDeg g v + countHead E v := by
      have := inDeg_append g.verts g.edges E v
      simpa using this
    have hct : countTail E v = k.toNat * countTail (a :: rest) v :=
      countTail_join_replicate k.toNat (a :: rest) v
    have hch : countHead E v = k.toNat * countHead (a :: rest) v :=
      countHead_join_replicate k.toNat (a :: rest) v
    rw [delta, delta, hout, hin, hct, hch]
    push_cast
    have hthis : ((countTail (a :: rest) v : Int)) - countHead (a :: rest) v =
        (if v = sink then 1 else 0) - (if v = hub then 1 else 0) := hdiff
    linear_combination (k.toNat : Int) * hthis
  have hks : k ≤ -(delta g sink) := by
    rw [hk, delta]; omega
  have hkh : k ≤ delta g hub := by
    rw [hk, delta]; omega
  have hfs : (delta ⟨g.verts, g.edges ++ E⟩ sink).natAbs + k.toNat =
      (delta g sink).natAbs := by
    have h := hdelta sink
    rw [if_pos rfl, if_neg hsh] at h
    omega
  have hfh : (delta ⟨g.verts, g.edges ++ E⟩ hub).natAbs + k.toNat =
      (delta g hub).natAbs := by
    have h := hdelta hub
    rw [if_neg (Ne.symm hsh), if_pos rfl] at h
    omega
  have hoth : ∀ v ∈ g.verts, v ≠ sink → v ≠ hub →
      (delta ⟨g.verts, g.edges ++ E⟩ v).natAbs = (delta g v).natAbs := by
    intro v _ hvs hvh
    have h := hdelta v
    rw [if_neg hvs, if_neg hvh] at h
    omega
  have hsum := sum_map_update2 (fun v => (delta g v).natAbs)
    (fun v => (delta ⟨g.verts, g.edges ++ E⟩ v).natAbs) k.toNat
    g.verts sink hub hwf.1 hsinkm hhubm hsh hfs hfh hoth
  have hk1n : 1 ≤ k.toNat := by omega
  have htot : totalImbalance ⟨g.verts, g.edges ++ E⟩ + 2 * k.toNat = totalImbalance g := by
    rw [totalImbalance, totalImbalance]
    exact hsum
  omega

theorem duplicate_path_wf (g : SGraph) (hwf : g.wf) (path : List Arrow)
    (hmem : ∀ a ∈ path, a ∈ g.edges) : (duplicate_path g path).wf := by
  rcases path with - | ⟨a, rest⟩
  · exact hwf
  rw [duplicate_path]
  by_cases hguard : a.tail ∈ g.verts ∧ ((a :: rest).getLast?.getD a).head ∈ g.verts
  · rw [if_pos hguard]
    refine ⟨hwf.1, ?_⟩
    intro b hb
    rcases List.mem_append.mp hb with hb | hb
    · exact hwf.2 b hb
    · rcases List.mem_flatten.mp hb with ⟨l, hl, hbl⟩
      have : l = a :: rest := List.eq_of_mem_replicate hl
      subst this
      exact hwf.2 b (hmem b hbl)
  · rw [if_neg hguard]
    exact hwf

theorem duplicate_path_verts (g : SGraph) (path : List Arrow) :
    (duplicate_path g path).verts = g.verts := by
  rcases path with - | ⟨a, rest⟩
  · rfl
  rw [duplicate_path]
  by_cases hguard : a.tail ∈ g.verts ∧ ((a :: rest).getLast?.getD a).head ∈ g.verts
  · rw [if_pos hguard]
  · rw [if_neg hguard]

/-- The Eulerize loop cannot exhaust its fuel when the fuel exceeds half the
initial total imbalance: every iteration that duplicates a path lowers the
imbalance by at least 2. -/
theorem eulerizeLoop_terminates :
    ∀ fuel (g : SGraph), g.wf → totalImbalance g < 2 * fuel →
      eulerizeLoop fuel g ≠ none := by
  intro fuel
  induction fuel with
  | zero => intro g _ h; omega
  | succ fuel ih =>
    intro g hwf hfuel
    rw [eulerizeLoop]
    by_cases hboth : (getUnevenPair g).1 = "" ∧ (getUnevenPair g).2 = ""
    · rw [if_pos hboth]; simp
    · rw [if_neg hboth]
      by_cases hone : (getUnevenPair g).1 = "" ∨ (getUnevenPair g).2 = ""
      · rw [if_pos hone]; simp
      · rw [if_neg hone]
        by_cases hpath : shortest_path g (getUnevenPair g).2 (getUnevenPair g).1 = []
        · rw [if_pos hpath]; simp
        · rw [if_neg hpath]
          push_neg at hone
          have hgup := gupLoop_spec g g.verts "" "" (Or.inl rfl) (Or.inl rfl)
            (fun v hv => hv)
          have hhub : (getUnevenPair g).1 ∈ g.verts ∧ 0 < delta g (getUnevenPair g).1 := by
            rcases hgup.1 with h | h
            · exact absurd h hone.1
            · exact h
          have hsink : (getUnevenPair g).2 ∈ g.verts ∧ delta g (getUnevenPair g).2 < 0 := by
            rcases hgup.2 with h | h
            · exact absurd h hone.2
            · exact h
          rcases shortest_path_spec g (getUnevenPair g).2 (getUnevenPair g).1 with h | h
          · exact absurd h hpath
          · have hdec := duplicate_path_imbalance g hwf (getUnevenPair g).2
              (getUnevenPair g).1 _ h.1 hpath hsink.1 hhub.1 hsink.2 hhub.2
            have hwf' := duplicate_path_wf g hwf _ h.2
            exact ih _ hwf' (by omega)

/-- C5: each Eulerize iteration that duplicates a path (non-empty hub and
sink found by `get_uneven_pair`, non-empty shortest path from the sink to
the hub) lowers the total imbalance `Σ|out - in|` by at least 2, and
consequently the `while True` loop of `eulerize` performs finitely many
iterations: fuel exceeding half the initial imbalance is never exhausted. -/
theorem claim_C5_theorem (g : SGraph) (hwf : g.wf) :
    (∀ hub sink path, getUnevenPair g = (hub, sink) → hub ≠ "" → sink ≠ "" →
      path = shortest_path g sink hub → path ≠ [] →
      totalImbalance (duplicate_path g path) + 2 ≤ totalImbalance g) ∧
    eulerizeLoop (totalImbalance g + 1) g ≠ none := by
  constructor
  · intro hub sink path hgup hh hs hsp hne
    have hspec := gupLoop_spec g g.verts "" "" (Or.inl rfl) (Or.inl rfl)
      (fun v hv => hv)
    rw [getUnevenPair] at hgup
    rw [hgup] at hspec
    simp only at hspec
    have hhub : hub ∈ g.verts ∧ 0 < delta g hub := by
      rcases hspec.1 with h | h
      · exact absurd h hh
      · exact h
    have hsink : sink ∈ g.verts ∧ delta g sink < 0 := by
      rcases hspec.2 with h | h
      · exact absurd h hs
      · exact h
    rcases shortest_path_spec g sink hub with h | h
    · rw [hsp] at hne; exact absurd h hne
    · rw [hsp]
      exact duplicate_path_imbalance g hwf sink hub _ h.1 (hsp ▸ hne)
        hsink.1 hhub.1 hsink.2 hhub.2
  · exact eulerizeLoop_terminates (totalImbalance g + 1) g hwf (by omega)

/-- The graph `a→b ×3, b→a`: vertex `a` has degree difference `+2`, vertex
`b` has `-2`; one Eulerize iteration duplicates the path `b→a` twice. -/
def gDup : SGraph :=
  ⟨["a", "b"],
   [⟨"a", "b", "e1"⟩, ⟨"a", "b", "e2"⟩, ⟨"a", "b", "e3"⟩, ⟨"b", "a", "r"⟩]⟩

/-- C5, witness: on `gDup` the Eulerize iteration hypotheses hold and both
conclusions evaluate. -/
theorem claim_C5_witness :
    totalImbalance (duplicate_path gDup [⟨"b", "a", "r"⟩]) + 2 ≤
      totalImbalance gDup ∧
    (eulerizeLoop (totalImbalance gDup + 1) gDup).isSome = true := by
  have h := claim_C5_theorem gDup (by decide)
  exact ⟨h.1 "a" "b" [⟨"b", "a", "r"⟩] (by decide) (by decide) (by decide)
    (by decide) (by decide), Option.isSome_iff_ne_none.mpr h.2⟩

theorem count_flatten_replicate (x : Arrow) (p : List Arrow) :
    ∀ n, ((List.replicate n p).flatten).count x = n * p.count x := by
  intro n
  induction n with
  | zero => simp
  | succ n ih =>
    rw [List.replicate_succ, List.flatten_cons, List.count_append, ih]
    ring

/-- C6 (amended): in an Eulerize iteration that found hub `h`, sink `s` and
a non-empty shortest path from `s` to `h`, the path is duplicated exactly
`k = min(in(s) - out(s), out(h) - in(h))` times — the claim's formula
swapped hub and sink — and each duplication adds one parallel copy of every
arrow of the path. -/
theorem claim_C6_theorem (g : SGraph) (hub sink : String) (path : List Arrow)
    (hgup : getUnevenPair g = (hub, sink)) (hh : hub ≠ "") (hs : sink ≠ "")
    (hsp : path = shortest_path g sink hub) (hne : path ≠ []) :
    1 ≤ min ((inDeg g sink : Int) - outDeg g sink)
      ((outDeg g hub : Int) - inDeg g hub) ∧
    ∀ x : Arrow, ((duplicate_path g path).edges.count x : Int) =
      g.edges.count x +
        (min ((inDeg g sink : Int) - outDeg g sink)
          ((outDeg g hub : Int) - inDeg g hub)) * path.count x := by
  have hspec := gupLoop_spec g g.verts "" "" (Or.inl rfl) (Or.inl rfl)
    (fun v hv => hv)
  rw [getUnevenPair] at hgup
  rw [hgup] at hspec
  simp only at hspec
  have hhub : hub ∈ g.verts ∧ 0 < delta g hub := by
    rcases hspec.1 with h | h
    · exact absurd h hh
    · exact h
  have hsink : sink ∈ g.verts ∧ delta g sink < 0 := by
    rcases hspec.2 with h | h
    · exact absurd h hs
    · exact h
  have hk1 : 1 ≤ min ((inDeg g sink : Int) - outDeg g sink)
      ((outDeg g hub : Int) - inDeg g hub) := by
    have h1 := hhub.2
    have h2 := hsink.2
    rw [delta] at h1 h2
    omega
  refine ⟨hk1, ?_⟩
  rcases shortest_path_spec g sink hub with h | h
  · rw [hsp] at hne; exact absurd h hne
  · subst hsp
    rcases hpe : shortest_path g sink hub with - | ⟨a, rest⟩
    · exact absurd hpe hne
    rw [hpe] at h
    have hts : a.tail = sink := h.1.1
    have hlast : ((a :: rest).getLast?.getD a).head = hub :=
      isChain_last_head a (a :: rest) sink hub h.1 (by simp)
    intro x
    rw [duplicate_path]
    rw [hts, hlast, if_pos ⟨hsink.1, hhub.1⟩]
    simp only [List.count_append, count_flatten_replicate]
    push_cast
    rw [Int.toNat_of_nonneg (by omega)]

/-- C6, counterexample.  On `gDup` an Eulerize iteration finds hub `a` and
sink `b`, the shortest path from the sink to the hub is the single arrow
`b→a`, and `duplicate_path` adds two parallel copies of it (count 1 → 3);
the claim's count `k = min(in(h)-out(h), out(s)-in(s))` evaluates to `-2`,
so the path is not duplicated `k` times as claimed. -/
theorem claim_C6_counterexample :
    getUnevenPair gDup = ("a", "b") ∧
    shortest_path gDup "b" "a" = [⟨"b", "a", "r"⟩] ∧
    (duplicate_path gDup [⟨"b", "a", "r"⟩]).edges.count ⟨"b", "a", "r"⟩ = 3 ∧
    min ((inDeg gDup "a" : Int) - outDeg gDup "a")
      ((outDeg gDup "b" : Int) - inDeg gDup "b") = -2 := by decide

/-- C6, witness: the amended claim evaluated on `gDup` at the duplicated
arrow itself. -/
theorem claim_C6_witness :
    1 ≤ min ((inDeg gDup "b" : Int) - outDeg gDup "b")
      ((outDeg gDup "a" : Int) - inDeg gDup "a") ∧
    ((duplicate_path gDup [⟨"b", "a", "r"⟩]).edges.count ⟨"b", "a", "r"⟩ : Int) =
      gDup.edges.count ⟨"b", "a", "r"⟩ +
        (min ((inDeg gDup "b" : Int) - outDeg gDup "b")
          ((outDeg gDup "a" : Int) - inDeg gDup "a")) *
          ([⟨"b", "a", "r"⟩] : List Arrow).count ⟨"b", "a", "r"⟩ :=
  ⟨(claim_C6_theorem gDup "a" "b" [⟨"b", "a", "r"⟩] (by decide) (by decide)
      (by decide) (by decide) (by decide)).1,
   (claim_C6_theorem gDup "a" "b" [⟨"b", "a", "r"⟩] (by decide) (by decide)
      (by decide) (by decide) (by decide)).2 ⟨"b", "a", "r"⟩⟩

/-! ### The GraphWrapper operations used by the Explorer
(`ait/graph_wrapper.py`).  The per-vertex / per-edge attribute payloads
(`detail` etc.) only feed rendering and CSV export and are not modelled. -/

/-- `GraphWrapper.has_node`. -/
def has_node (g : SGraph) (name : String) : Bool :=
  g.verts.contains name

/-- `GraphWrapper.add_node`: no-op on duplicates (igraph appends new
vertices at the end of the vertex sequence). -/
def add_node (g : SGraph) (name : String) : SGraph :=
  if has_node g name then g else ⟨g.verts ++ [name], g.edges⟩

/-- `GraphWrapper.get_arcs`: empty fields are wildcards; a non-empty tail
or head naming a missing vertex returns `[]` (the caught `ValueError`). -/
def get_arcs (g : SGraph) (arrow : Arrow) : List Arrow :=
  if arrow.tail ≠ "" ∧ arrow.tail ∉ g.verts then []
  else if arrow.head ≠ "" ∧ arrow.head ∉ g.verts then []
  else g.edges.filter (fun e =>
    (arrow.tail == "" || e.tail == arrow.tail) &&
    (arrow.head == "" || e.head == arrow.head) &&
    (arrow.name == "" || e.name == arrow.name))

/-- `GraphWrapper.add_arc`: with `unique` (the default) an existing match
of `get_arcs` makes the call a no-op; otherwise both endpoints are added
as needed and the edge is appended. -/
def add_arc (g : SGraph) (arrow : Arrow) (unique : Bool := true) : SGraph :=
  if unique && !(get_arcs g arrow).isEmpty then g
  else
    let g1 := add_node g arrow.tail
    let g2 := add_node g1 arrow.head
    ⟨g2.verts, g2.edges ++ [arrow]⟩

/-- `GraphWrapper.bfs`: `[]` for a missing root, otherwise the vertices
reachable from the root in layered (breadth-first) order. -/
def bfs (g : SGraph) (name : String) : List String :=
  if has_node g name then saturate (dirAdj g) g.verts g.verts.length [name]
  else []

/-- If every field of the queried arrow is non-empty, anything `get_arcs`
returns is the queried arrow itself, so a non-empty result means the arrow
is already an edge. -/
theorem get_arcs_nonempty_mem (g : SGraph) (arrow : Arrow)
    (htail : arrow.tail ≠ "") (hhead : arrow.head ≠ "") (hname : arrow.name ≠ "")
    (hne : get_arcs g arrow ≠ []) : arrow ∈ g.edges := by
  rw [get_arcs] at hne
  by_cases h1 : arrow.tail ≠ "" ∧ arrow.tail ∉ g.verts
  · rw [if_pos h1] at hne; exact absurd rfl hne
  · rw [if_neg h1] at hne
    by_cases h2 : arrow.head ≠ "" ∧ arrow.head ∉ g.verts
    · rw [if_pos h2] at hne; exact absurd rfl hne
    · rw [if_neg h2] at hne
      rcases List.exists_mem_of_ne_nil _ hne with ⟨x, hx⟩
      rcases List.mem_filter.mp hx with ⟨hxe, hcond⟩
      rw [Bool.and_eq_true, Bool.and_eq_true] at hcond
      rcases hcond with ⟨⟨ht, hh⟩, hn⟩
      have hxt : x.tail = arrow.tail := by
        rcases Bool.or_eq_true _ _ |>.mp ht with h | h
        · exact absurd (by simpa using h) htail
        · simpa using h
      have hxh : x.head = arrow.head := by
        rcases Bool.or_eq_true _ _ |>.mp hh with h | h
        · exact absurd (by simpa using h) hhead
        · simpa using h
      have hxn : x.name = arrow.name := by
        rcases Bool.or_eq_true _ _ |>.mp hn with h | h
        · exact absurd (by simpa using h) hname
        · simpa using h
      have : x = arrow := by
        cases x; cases arrow
        simp_all
      rw [← this]
      exact hxe

/-- After `add_arc` with all-non-empty fields, the arrow is in the graph. -/
theorem add_arc_mem (g : SGraph) (arrow : Arrow)
    (htail : arrow.tail ≠ "") (hhead : arrow.head ≠ "") (hname : arrow.name ≠ "") :
    arrow ∈ (add_arc g arrow).edges := by
  rw [add_arc]
  by_cases hu : (true && !(get_arcs g arrow).isEmpty) = true
  · rw [if_pos hu]
    rw [Bool.and_eq_true] at hu
    have : get_arcs g arrow ≠ [] := by
      intro h
      rw [h] at hu
      simp at hu
    exact get_arcs_nonempty_mem g arrow htail hhead hname this
  · rw [if_neg hu]
    exact List.mem_append_right _ (List.mem_singleton.mpr rfl)

/-! ### The Explorer (`ait/explorer.py`)

States and events are the adapter values of `ait/interface.py`: a state
carries a name, an opaque comparable payload (`value`) and a validity
flag; the adapter compares states by payload, and an invalid state never
equals a valid one (`ait/base.py::InvalidState`).  The system under test
is modelled by its hidden state type `σ` together with the three
operations the Explorer uses: reading `sut.state`, firing a named event
(`Event.fire` calls `sut.process_request` and returns the output map,
modelled opaquely as a string), and `sut.reset()`.  The `fired` field is
an observational trace of the events fired on the SUT. -/

structure StV where
  name : String
  value : String
  valid : Bool
deriving DecidableEq, Repr

/-- Adapter equality of states: by payload, with validity respected. -/
def stEq (a b : StV) : Bool :=
  a.valid == b.valid && a.value == b.value

structure SutModel (σ : Type) where
  view : σ → StV
  fire : String → σ → σ × String
  reset : σ → σ

/-- One row of the Explorer's `_state_matrix`: the source state object and
the per-event optional successor. -/
structure MazeRow where
  source : StV
  transitions : List (String × Option StV)
deriving DecidableEq, Repr

structure ExpState (σ : Type) where
  maze : List (String × MazeRow)
  graph : SGraph
  sut : σ
  fired : List String

/-- The `Transition` dataclass of `ait/interface.py` (source, target,
event, output). -/
structure TransitionV where
  source : StV
  target : StV
  eventName : String
  output : String
deriving DecidableEq, Repr

/-- The error kinds the Explorer and strategies can raise
(`ait/errors.py` plus un-typed Python exceptions: the `RuntimeError` of
`_set_transition` is the spec's *AmbiguousBehavior*; `KeyErr`,
`ValueErr`, `AttributeErr`, `IndexErr` and `TypeErr` model uncaught
builtin exceptions — `TypeErr` in particular is the `TypeError` Python
raises when a call passes arguments a function signature rejects). -/
inductive PyErr where
  | UnknownState
  | UnknownEvent
  | InvalidTransition
  | AmbiguousBehavior
  | KeyErr
  | ValueErr
  | AttributeErr
  | IndexErr
  | TypeErr
deriving DecidableEq, Repr

/-- Ordered-dict lookup. -/
def alookup {α : Type} : List (String × α) → String → Option α
  | [], _ => none
  | (k, v) :: rest, key => if k == key then some v else alookup rest key

/-- Ordered-dict update: overwrite in place, append if absent. -/
def aset {α : Type} : List (String × α) → String → α → List (String × α)
  | [], key, x => [(key, x)]
  | (k, v) :: rest, key, x =>
    if k == key then (k, x) :: rest else (k, v) :: aset rest key x

theorem alookup_aset_same {α : Type} :
    ∀ (l : List (String × α)) (k : String) (x : α), alookup (aset l k x) k = some x := by
  intro l
  induction l with
  | nil => intro k x; simp [aset, alookup]
  | cons p rest ih =>
    intro k x
    by_cases h : p.1 == k
    · rw [aset]
      show alookup (if p.1 == k then (p.1, x) :: rest else (p.1, p.2) :: aset rest k x) k = some x
      rw [if_pos h, alookup, if_pos h]
    · rw [aset]
      show alookup (if p.1 == k then (p.1, x) :: rest else (p.1, p.2) :: aset rest k x) k = some x
      rw [if_neg (by simpa using h), alookup, if_neg (by simpa using h)]
      exact ih k x

theorem alookup_aset_other {α : Type} :
    ∀ (l : List (String × α)) (k k' : String) (x : α), k' ≠ k →
      alookup (aset l k x) k' = alookup l k' := by
  intro l
  induction l with
  | nil =>
    intro k k' x hne
    simp only [aset, alookup]
    rw [if_neg (by simpa using Ne.symm hne)]
  | cons p rest ih =>
    intro k k' x hne
    rw [aset]
    show alookup (if p.1 == k then (p.1, x) :: rest else (p.1, p.2) :: aset rest k x) k' =
      alookup ((p.1, p.2) :: rest) k'
    by_cases h : p.1 == k
    · rw [if_pos h, alookup, alookup]
      have : ¬ (p.1 == k') = true := by
        have hk : p.1 = k := by simpa using h
        subst hk
        simpa using Ne.symm hne
      rw [if_neg this, if_neg this]
    · rw [if_neg h, alookup, alookup]
      by_cases h' : p.1 == k'
      · rw [if_pos h', if_pos h']
      · rw [if_neg h', if_neg h']
        exact ih k k' x hne

theorem alookup_append_some {α : Type} :
    ∀ (l m : List (String × α)) (k : String) (v : α), alookup l k = some v →
      alookup (l ++ m) k = some v := by
  intro l
  induction l with
  | nil => intro m k v h; simp [alookup] at h
  | cons p rest ih =>
    intro m k v h
    rcases p with ⟨pk, pv⟩
    rw [alookup] at h
    rw [List.cons_append, alookup]
    by_cases hp : pk == k
    · rw [if_pos hp] at h ⊢
      exact h
    · rw [if_neg hp] at h ⊢
      exact ih m k v h

/-- `Explorer._add_state`: skip invalid states; an already-recorded name
is a no-op.  For a new valid state the code first appends the maze row
(whose transitions map every configured event name to `None`) and then
calls `self._state_machine.add_node(state.name, state.value)`
(explorer.py line 157) — but `GraphWrapper.add_node(self, name)`
(graph_wrapper.py line 125) accepts a single argument, so the call raises
`TypeError` at call time.  The maze row inserted before the raise
persists; no vertex is ever added to the state graph.  The pair returned
is the mutated Explorer state together with the raised error, if any. -/
def addState (σ : Type) (events : List String) (e : ExpState σ) (st : StV) :
    ExpState σ × Option PyErr :=
  if st.valid = false then (e, none)
  else match alookup e.maze st.name with
    | some _ => (e, none)
    | none =>
      ({ e with
         maze := e.maze ++ [(st.name, ⟨st, events.map (fun ev => (ev, none))⟩)] },
       some PyErr.TypeErr)

/-- `Explorer._get_state`. -/
def getState (σ : Type) (e : ExpState σ) (name : String) : Option StV :=
  (alookup e.maze name).map (fun row => row.source)

/-- `Explorer._is_mature_state` (raises *UnknownState* on a missing name). -/
def isMatureState (σ : Type) (e : ExpState σ) (name : String) : Except PyErr Bool :=
  match alookup e.maze name with
  | some row => Except.ok (row.transitions.all (fun p => p.2.isSome))
  | none => Except.error PyErr.UnknownState

/-- `Explorer._mature()` with no argument: no row of the matrix has an
empty transition slot. -/
def matureAll (σ : Type) (e : ExpState σ) : Bool :=
  e.maze.all (fun r => r.2.transitions.all (fun p => p.2.isSome))

/-- `Explorer._set_transition`.  Returns the post-state together with the
raised error, if any: Python mutations performed before a raise persist.
Validators run first; `_add_state` is called on both endpoints, and a
`TypeError` raised there (any new valid endpoint) propagates; an empty
slot is filled, and when both endpoints are valid the code then calls
`add_arc(Arrow(...), source_detail=..., target_detail=..., event_detail=...,
transition_result=...)` (explorer.py lines 197-207), which
`GraphWrapper.add_arc(self, arrow, unique=True)` (graph_wrapper.py line
185) rejects with `TypeError` at call time — the slot filled before the
raise persists, and no arrow is ever added to the state graph.  A filled
slot with a different target raises the ambiguous-behavior
`RuntimeError`; a missing event name raises *UnknownEvent*; a missing
source row is an uncaught `KeyError`. -/
def setTransition (σ : Type) (events : List String)
    (validators : List (TransitionV → Option PyErr))
    (e : ExpState σ) (tr : TransitionV) : ExpState σ × Option PyErr :=
  match validators.findSome? (fun val => val tr) with
  | some err => (e, some err)
  | none =>
    match addState σ events e tr.source with
    | (e1, some p) => (e1, some p)
    | (e1, none) =>
      match addState σ events e1 tr.target with
      | (e2, some p) => (e2, some p)
      | (e2, none) =>
        match alookup e2.maze tr.source.name with
        | none => (e2, some PyErr.KeyErr)
        | some row =>
          match alookup row.transitions tr.eventName with
          | none => (e2, some PyErr.UnknownEvent)
          | some (some old) =>
            if stEq old tr.target then (e2, none)
            else (e2, some PyErr.AmbiguousBehavior)
          | some none =>
            let row2 : MazeRow :=
              ⟨row.source, aset row.transitions tr.eventName (some tr.target)⟩
            let e3 : ExpState σ := { e2 with maze := aset e2.maze tr.source.name row2 }
            if tr.source.valid && tr.target.valid then (e3, some PyErr.TypeErr)
            else (e3, none)

/-- Result of a stateful Explorer step: normal return, raised error, or
fuel exhaustion (the Python code may loop or recurse without bound). -/
inductive StepOut (σ : Type) where
  | ok (e : ExpState σ) (st : StV)
  | err (e : ExpState σ) (p : PyErr)
  | spin (e : ExpState σ)

/-- Result of the event loop inside `Explorer._discover`. -/
inductive EvLoopOut (σ : Type) where
  | done (e : ExpState σ)
  | change (e : ExpState σ) (t : StV)
  | fail (e : ExpState σ) (p : PyErr)

/-- The `for event in self._event_list.values()` loop of
`Explorer._discover`: skip exercised events; otherwise fire the event,
read the SUT state, record the transition, and on a state change hand the
new state back for recursive discovery. -/
def discoverEvents (σ : Type) (sm : SutModel σ) (events : List String)
    (validators : List (TransitionV → Option PyErr)) :
    ExpState σ → StV → List String → EvLoopOut σ
  | e, _, [] => EvLoopOut.done e
  | e, cur, ev :: rest =>
    match alookup e.maze cur.name with
    | none => EvLoopOut.fail e PyErr.UnknownEvent
    | some row =>
      match alookup row.transitions ev with
      | none => EvLoopOut.fail e PyErr.UnknownEvent
      | some (some _) => discoverEvents σ sm events validators e cur rest
      | some none =>
        let fired := sm.fire ev e.sut
        let e1 : ExpState σ := { e with sut := fired.1, fired := e.fired ++ [ev] }
        let target := sm.view fired.1
        match setTransition σ events validators e1 ⟨cur, target, ev, fired.2⟩ with
        | (e2, some p) => EvLoopOut.fail e2 p
        | (e2, none) =>
          if stEq cur target then discoverEvents σ sm events validators e2 cur rest
          else EvLoopOut.change e2 target

/-- `Explorer._discover`, with fuel bounding the recursion depth. -/
def discover (σ : Type) (sm : SutModel σ) (events : List String)
    (validators : List (TransitionV → Option PyErr)) :
    Nat → ExpState σ → StV → StepOut σ
  | 0, e, _ => StepOut.spin e
  | fuel + 1, e, cur =>
    match alookup e.maze cur.name with
    | none => StepOut.err e PyErr.UnknownEvent
    | some row =>
      if row.transitions.all (fun p => p.2.isSome) then StepOut.ok e cur
      else
        match discoverEvents σ sm events validators e cur events with
        | EvLoopOut.done e2 => StepOut.ok e2 cur
        | EvLoopOut.fail e2 p => StepOut.err e2 p
        | EvLoopOut.change e2 t => discover σ sm events validators fuel e2 t

/-- `Explorer._find_nearest_immature_state`: first BFS-visited immature
state name, `""` if none. -/
def findNearestGo (σ : Type) (e : ExpState σ) : List String → Except PyErr String
  | [] => Except.ok ""
  | name :: rest =>
    match isMatureState σ e name with
    | Except.error p => Except.error p
    | Except.ok true => findNearestGo σ e rest
    | Except.ok false => Except.ok name

def findNearestImmature (σ : Type) (e : ExpState σ) (source : String) :
    Except PyErr String :=
  findNearestGo σ e (bfs e.graph source)

/-- `path1`/`path2` of `Explorer._go_to_nearest_immature_state` are either
real arrow paths or the placeholder `list(range(len(matrix)))`, of which
only the length is used — unless it reaches `_execute_path`, where a
non-empty placeholder crashes on `arrow.name` (`AttributeError`). -/
inductive PathV where
  | placeholder (n : Nat)
  | real (p : List Arrow)

def pathLen : PathV → Nat
  | PathV.placeholder n => n
  | PathV.real p => p.length

/-- The arrow loop of `Explorer._execute_path`: fire each arrow's event by
name; a name missing from the alphabet is an uncaught `KeyError` (the
`except IndexError` clause does not catch it). -/
def execArrows (σ : Type) (sm : SutModel σ) (events : List String) :
    ExpState σ → String → List Arrow → ExpState σ × Except PyErr String
  | e, lastHead, [] => (e, Except.ok lastHead)
  | e, _, a :: rest =>
    if events.contains a.name then
      let fired := sm.fire a.name e.sut
      execArrows σ sm events
        { e with sut := fired.1, fired := e.fired ++ [a.name] } a.head rest
    else (e, Except.error PyErr.KeyErr)

/-- `Explorer._execute_path`. -/
def executePath (σ : Type) (sm : SutModel σ) (events : List String)
    (e : ExpState σ) : PathV → ExpState σ × Except PyErr String
  | PathV.placeholder 0 => (e, Except.ok "")
  | PathV.placeholder (_ + 1) => (e, Except.error PyErr.AttributeErr)
  | PathV.real [] => (e, Except.ok "")
  | PathV.real (a :: rest) => execArrows σ sm events e "" (a :: rest)

/-- `Explorer._go_to_nearest_immature_state`. -/
def goToNearestImmature (σ : Type) (sm : SutModel σ) (events : List String)
    (initialName : String) (e : ExpState σ) (source : String) :
    ExpState σ × Except PyErr String :=
  match isMatureState σ e source with
  | Except.error p => (e, Except.error p)
  | Except.ok false => (e, Except.ok source)
  | Except.ok true =>
    let ph := e.maze.length
    match findNearestImmature σ e source with
    | Except.error p => (e, Except.error p)
    | Except.ok t1 =>
      let path1 : PathV :=
        if t1 ≠ "" then PathV.real (shortest_path e.graph source t1)
        else PathV.placeholder ph
      if source ≠ initialName then
        match isMatureState σ e initialName with
        | Except.error p => (e, Except.error p)
        | Except.ok false => ({ e with sut := sm.reset e.sut }, Except.ok initialName)
        | Except.ok true =>
          match findNearestImmature σ e initialName with
          | Except.error p => (e, Except.error p)
          | Except.ok t2 =>
            if t2 ∉ e.graph.verts ∨ initialName ∉ e.graph.verts then
              (e, Except.error PyErr.ValueErr)
            else
              let path2 : PathV := PathV.real (shortest_path e.graph initialName t2)
              if pathLen path1 ≤ pathLen path2 then
                executePath σ sm events e path1
              else
                executePath σ sm events { e with sut := sm.reset e.sut } path2
      else
        if pathLen path1 ≤ ph then executePath σ sm events e path1
        else executePath σ sm events { e with sut := sm.reset e.sut }
          (PathV.placeholder ph)

/-- The `while not self._mature()` loop of `Explorer.explore`.  The
generation counter only logs a warning when it passes the iteration limit
(it never aborts), so it is not part of the state. -/
def exploreLoop (σ : Type) (sm : SutModel σ) (events : List String)
    (validators : List (TransitionV → Option PyErr)) (initialName : String) :
    Nat → ExpState σ → StV → StepOut σ
  | 0, e, _ => StepOut.spin e
  | fuel + 1, e, cur =>
    if matureAll σ e then StepOut.ok e cur
    else
      match goToNearestImmature σ sm events initialName e cur.name with
      | (e1, Except.error p) => StepOut.err e1 p
      | (e1, Except.ok sourceName) =>
        match getState σ e1 sourceName with
        | none => StepOut.err e1 PyErr.UnknownEvent
        | some src =>
          match discover σ sm events validators fuel e1 src with
          | StepOut.ok e2 cur2 =>
            exploreLoop σ sm events validators initialName fuel e2 cur2
          | StepOut.err e2 p => StepOut.err e2 p
          | StepOut.spin e2 => StepOut.spin e2

/-- `Explorer.__init__`: read the initial state from the SUT and hand it
to `_add_state`.  For a valid initial state `_add_state` inserts the maze
row and then raises `TypeError` at `add_node(state.name, state.value)`,
so construction itself fails; an invalid initial state is skipped and
construction succeeds with an empty maze.  (`_max_paths =
len(event_list)**3` only gates a log warning.) -/
def explorerInit (σ : Type) (events : List String) (sm : SutModel σ) (sut0 : σ) :
    ExpState σ × Option PyErr :=
  addState σ events ⟨[], ⟨[], []⟩, sut0, []⟩ (sm.view sut0)

theorem addState_preserves (σ : Type) (events : List String) (e : ExpState σ)
    (st : StV) (k : String) (row : MazeRow) (h : alookup e.maze k = some row) :
    alookup (addState σ events e st).1.maze k = some row := by
  rw [addState]
  by_cases hv : st.valid = false
  · rw [if_pos hv]; exact h
  · rw [if_neg hv]
    rcases hl : alookup e.maze st.name with - | r
    · simp only
      exact alookup_append_some e.maze _ k row h
    · simp only
      exact h

def stCs : StV := ⟨"s", "vs", true⟩

def stCt : StV := ⟨"t", "vt", true⟩

/-- Explorer state in which both endpoint states are already recorded
(each row arose from an earlier `_add_state` call whose `TypeError` the
caller caught: the maze row persists) and the slot `("s","x")` is empty.
No `add_node` call ever succeeds, so the state graph is empty. -/
def eC1 : ExpState Unit :=
  ⟨[("s", ⟨stCs, [("x", none)]⟩), ("t", ⟨stCt, [("x", none)]⟩)],
   ⟨[], []⟩, (), []⟩

/-- C1, counterexample run for the code bug.  Committing `(s, "x", t)`
through `_set_transition` with both endpoints valid and recorded and the
slot empty: the slot is filled with `t`, but the call then raises
`TypeError` at `add_arc(Arrow(...), source_detail=..., ...)` —
`GraphWrapper.add_arc(self, arrow, unique=True)` accepts no detail
keywords — and the state graph stays empty: the claimed arrow
`("s","t","x")` is never added. -/
theorem claim_C1_counterexample :
    (setTransition Unit ["x"] [] eC1 ⟨stCs, stCt, "x", "o"⟩).2 = some PyErr.TypeErr ∧
    alookup (setTransition Unit ["x"] [] eC1 ⟨stCs, stCt, "x", "o"⟩).1.maze "s" =
      some ⟨stCs, [("x", some stCt)]⟩ ∧
    (setTransition Unit ["x"] [] eC1 ⟨stCs, stCt, "x", "o"⟩).1.graph.edges = [] := by
  decide

/-- Maze row holding the already-filled slot `("s","e") ↦ t`. -/
def rowC2 : MazeRow := ⟨stCs, [("e", some stCt)]⟩

def eC2 : ExpState Unit := ⟨[("s", rowC2)], ⟨[], []⟩, (), []⟩

/-- C2, counterexample run for the code bug.  A conflicting
`_set_transition` against the filled slot `("s","e") ↦ t` whose observed
target is the new valid state `u`: `_add_state(transition.target)` runs
before the ambiguity check and raises `TypeError` at
`add_node(u.name, u.value)`, so the promised *AmbiguousBehavior* error is
never raised (the stored slot is unchanged). -/
theorem claim_C2_counterexample :
    (setTransition Unit ["e"] [] eC2 ⟨stCs, ⟨"u", "vu", true⟩, "e", "o"⟩).2 =
      some PyErr.TypeErr ∧
    (setTransition Unit ["e"] [] eC2 ⟨stCs, ⟨"u", "vu", true⟩, "e", "o"⟩).2 ≠
      some PyErr.AmbiguousBehavior ∧
    alookup (setTransition Unit ["e"] [] eC2 ⟨stCs, ⟨"u", "vu", true⟩, "e", "o"⟩).1.maze
      "s" = some rowC2 := by
  decide

/-- C3: partial correctness of the learning loop.  Whenever
`Explorer.explore` returns normally (the embedded loop yields `ok` rather
than an error or fuel exhaustion), every state recorded in the Maze is
mature: no transition slot is empty.  (The iteration limit in the code
only logs a warning and never aborts, so a normal return always exits
through the `while not self._mature()` test; the `TypeError` raises of
`_add_state` and `_set_transition` — the mismatched `add_node`/`add_arc`
call signatures — propagate as `err` outcomes, never as normal
returns.) -/
theorem claim_C3_theorem (σ : Type) (sm : SutModel σ) (events : List String)
    (validators : List (TransitionV → Option PyErr)) (initialName : String) :
    ∀ (fuel : Nat) (e : ExpState σ) (cur : StV) (e2 : ExpState σ) (cur2 : StV),
      exploreLoop σ sm events validators initialName fuel e cur = StepOut.ok e2 cur2 →
      matureAll σ e2 = true := by
  intro fuel
  induction fuel with
  | zero =>
    intro e cur e2 cur2 h
    rw [exploreLoop] at h
    exact StepOut.noConfusion h
  | succ fuel ih =>
    intro e cur e2 cur2 h
    rw [exploreLoop] at h
    by_cases hm : matureAll σ e = true
    · rw [if_pos hm] at h
      have h2 : e = e2 := by
        cases h
        rfl
      rw [← h2]
      exact hm
    · rw [if_neg hm] at h
      rcases hg : goToNearestImmature σ sm events initialName e cur.name with ⟨e1, res⟩
      rw [hg] at h
      rcases res with p | sourceName
      · exact StepOut.noConfusion h
      · simp only at h
        rcases hs : getState σ e1 sourceName with - | src
        · rw [hs] at h
          exact StepOut.noConfusion h
        · rw [hs] at h
          simp only at h
          rcases hd : discover σ sm events validators fuel e1 src with ⟨e3, cur3⟩ | ⟨e3, p⟩ | ⟨e3⟩
          · rw [hd] at h
            exact ih e3 cur3 e2 cur2 h
          · rw [hd] at h
            exact StepOut.noConfusion h
          · rw [hd] at h
            exact StepOut.noConfusion h

/-- SUT model used by concrete Explorer runs: a one-state system whose
state reads as the valid `stCs` and whose only event is a self-loop. -/
def smW : SutModel Unit :=
  ⟨fun _ => stCs, fun _ _ => ((), "o"), fun u => u⟩

/-- A state the adapter marks invalid (the `InvalidState` of
`ait/base.py`): `_add_state` skips it, so construction succeeds. -/
def stInv : StV := ⟨"i", "vi", false⟩

/-- SUT model whose observed state is the invalid `stInv`. -/
def smInv : SutModel Unit :=
  ⟨fun _ => stInv, fun _ u => (u, "o"), fun u => u⟩

/-- The Explorer state of a construction that succeeds in the staged
code: the initial state is invalid, so `_add_state` skips it and the
maze stays empty (a valid initial state makes `__init__` raise). -/
def eW0 : ExpState Unit := (explorerInit Unit ["a"] smInv ()).1

/-- The Explorer state produced by a terminating concrete run of the
learning loop from the realizable `eW0`. -/
def eW3 : ExpState Unit :=
  match exploreLoop Unit smInv ["a"] [] "i" 1 eW0 stInv with
  | StepOut.ok e _ => e
  | StepOut.err e _ => e
  | StepOut.spin e => e

/-- C3, witness: the concrete run returns normally and its final Maze is
mature. -/
theorem claim_C3_witness : matureAll Unit eW3 = true :=
  claim_C3_theorem Unit smInv ["a"] [] "i" 1 eW0 stInv eW3 stInv (by rfl)

/-- C10, counterexample run for the code bug.  Constructing the Explorer
with the empty event alphabet over a SUT whose initial state is the valid
`stCs`: `_add_state` inserts the maze row — whose transitions map is
indeed empty, hence immediately mature — and then raises `TypeError` at
`add_node(state.name, state.value)`, so `__init__` fails and `explore`
is never entered. -/
theorem claim_C10_counterexample :
    (explorerInit Unit [] smW ()).2 = some PyErr.TypeErr ∧
    (explorerInit Unit [] smW ()).1.maze = [("s", ⟨stCs, []⟩)] ∧
    matureAll Unit (explorerInit Unit [] smW ()).1 = true ∧
    (explorerInit Unit [] smW ()).1.graph.verts = [] := by
  decide

/-! ### Directed-reachability facts used by the Hierholzer proof -/

theorem mem_reachList_iff (g : SGraph) (v u : String) :
    u ∈ reachList g v ↔ Reaches (dirAdj g) g.verts v u := by
  constructor
  · intro h
    rcases mem_saturate_sound (dirAdj g) g.verts g.verts.length [v] u h with ⟨w, hw, hr⟩
    rw [List.mem_singleton.mp hw] at hr
    exact hr
  · intro h
    exact mem_saturate_complete (dirAdj g) g.verts g.verts.length [v]
      (satMissing_le_length g.verts [v]) v u (List.mem_singleton.mpr rfl) h

theorem self_mem_reachList (g : SGraph) (v : String) : v ∈ reachList g v :=
  subset_saturate (dirAdj g) g.verts g.verts.length [v] (List.mem_singleton.mpr rfl)

/-- `reachList` is closed under following an edge of the graph. -/
theorem reachList_closed (g : SGraph) (v : String) (a : Arrow)
    (ha : a ∈ g.edges) (hhead : a.head ∈ g.verts)
    (htail : a.tail ∈ reachList g v) : a.head ∈ reachList g v := by
  have hstep := closed_of_satStep_eq (dirAdj g) g.verts _
    (satStep_saturate_eq (dirAdj g) g.verts g.verts.length [v]
      (satMissing_le_length g.verts [v]))
  refine hstep a.tail htail a.head hhead ?_
  exact List.any_eq_true.mpr ⟨a, ha, by simp⟩

theorem satStep_nodup (adj : String → String → Bool) (vs s : List String)
    (hvs : vs.Nodup) (hs : s.Nodup) : (satStep adj vs s).Nodup := by
  rw [satStep]
  refine List.Nodup.append hs (List.Nodup.filter _ hvs) ?_
  intro x hxs hxf
  rcases List.mem_filter.mp hxf with ⟨-, hcond⟩
  rw [Bool.and_eq_true] at hcond
  have := hcond.1
  rw [Bool.not_eq_true', Bool.eq_false_iff] at this
  exact this (by simpa using hxs)

theorem saturate_nodup (adj : String → String → Bool) (vs : List String)
    (hvs : vs.Nodup) :
    ∀ n s, s.Nodup → (saturate adj vs n s).Nodup := by
  intro n
  induction n with
  | zero => intro s hs; exact hs
  | succ n ih =>
    intro s hs
    exact ih (satStep adj vs s) (satStep_nodup adj vs s hvs hs)

theorem saturate_subset_union (adj : String → String → Bool) (vs : List String) :
    ∀ n s x, x ∈ saturate adj vs n s → x ∈ s ∨ x ∈ vs := by
  intro n
  induction n with
  | zero => intro s x hx; exact Or.inl hx
  | succ n ih =>
    intro s x hx
    rcases ih (satStep adj vs s) x hx with h | h
    · rcases List.mem_append.mp h with h' | h'
      · exact Or.inl h'
      · exact Or.inr (List.mem_filter.mp h').1
    · exact Or.inr h

theorem reachList_nodup (g : SGraph) (v : String) (hwf : g.wf) :
    (reachList g v).Nodup :=
  saturate_nodup (dirAdj g) g.verts hwf.1 g.verts.length [v] (List.nodup_singleton v)

theorem reachList_subset (g : SGraph) (v : String) (hv : v ∈ g.verts) :
    ∀ u ∈ reachList g v, u ∈ g.verts := by
  intro u hu
  rcases saturate_subset_union (dirAdj g) g.verts g.verts.length [v] u hu with h | h
  · rw [List.mem_singleton.mp h]; exact hv
  · exact h

theorem countTail_cons (x : Arrow) (l : List Arrow) (v : String) :
    countTail (x :: l) v = (if x.tail = v then 1 else 0) + countTail l v := by
  simp only [countTail, List.filter_cons]
  by_cases h : x.tail = v
  · rw [if_pos h, if_pos (by simpa using h)]
    simp [Nat.add_comm]
  · rw [if_neg h, if_neg (by simpa using h)]
    simp

theorem countHead_cons (x : Arrow) (l : List Arrow) (v : String) :
    countHead (x :: l) v = (if x.head = v then 1 else 0) + countHead l v := by
  simp only [countHead, List.filter_cons]
  by_cases h : x.head = v
  · rw [if_pos h, if_pos (by simpa using h)]
    simp [Nat.add_comm]
  · rw [if_neg h, if_neg (by simpa using h)]
    simp

theorem sum_map_add_int (f q : String → Int) (l : List String) :
    (l.map (fun v => f v + q v)).sum = (l.map f).sum + (l.map q).sum := by
  induction l with
  | nil => simp
  | cons x l ih =>
    simp only [List.map_cons, List.sum_cons, ih]
    ring

theorem sum_map_sub_int (f q : String → Int) (l : List String) :
    (l.map (fun v => f v - q v)).sum = (l.map f).sum - (l.map q).sum := by
  induction l with
  | nil => simp
  | cons x l ih =>
    simp only [List.map_cons, List.sum_cons, ih]
    ring

theorem sum_indicator_int (w : String) :
    ∀ (l : List String), l.Nodup →
      (l.map (fun v => if w = v then (1 : Int) else 0)).sum =
        if w ∈ l then 1 else 0 := by
  intro l
  induction l with
  | nil => intro _; simp
  | cons x l ih =>
    intro hnd
    simp only [List.map_cons, List.sum_cons, ih (List.nodup_cons.mp hnd).2]
    by_cases hx : w = x
    · subst hx
      rw [if_pos rfl, if_pos (List.mem_cons_self w l),
        if_neg (List.nodup_cons.mp hnd).1]
      simp
    · rw [if_neg hx]
      by_cases hmem : w ∈ l
      · rw [if_pos hmem, if_pos (List.mem_cons_of_mem x hmem)]
        simp
      · rw [if_neg hmem, if_neg (by
          intro hc
          rcases List.mem_cons.mp hc with h | h
          · exact hx h
          · exact hmem h)]
        simp

theorem sum_countTail (l : List Arrow) :
    ∀ (R : List String), R.Nodup →
      (R.map (fun v => (countTail l v : Int))).sum =
        ((l.filter (fun a => R.contains a.tail)).length : Int) := by
  induction l with
  | nil =>
    intro R _
    simp [countTail]
  | cons x l ih =>
    intro R hnd
    have hcons : ∀ v, (countTail (x :: l) v : Int) =
        (if x.tail = v then (1 : Int) else 0) + (countTail l v : Int) := by
      intro v
      rw [countTail_cons]
      by_cases h : x.tail = v
      · rw [if_pos h, if_pos h]; push_cast; ring
      · rw [if_neg h, if_neg h]; push_cast; ring
    calc (R.map (fun v => (countTail (x :: l) v : Int))).sum
        = (R.map (fun v =>
            (if x.tail = v then (1 : Int) else 0) + (countTail l v : Int))).sum := by
          congr 1
          exact List.map_congr_left (fun v _ => hcons v)
      _ = (R.map (fun v => if x.tail = v then (1 : Int) else 0)).sum +
            (R.map (fun v => (countTail l v : Int))).sum :=
          sum_map_add_int _ _ R
      _ = (if x.tail ∈ R then (1 : Int) else 0) +
            ((l.filter (fun a => R.contains a.tail)).length : Int) := by
          rw [sum_indicator_int x.tail R hnd, ih R hnd]
      _ = ((((x :: l).filter (fun a => R.contains a.tail)).length : Int)) := by
          rw [List.filter_cons]
          by_cases h : x.tail ∈ R
          · rw [if_pos h, if_pos (by simpa using h)]
            simp [Nat.add_comm]
          · rw [if_neg h, if_neg (by simpa using h)]
            ring

theorem sum_countHead (l : List Arrow) :
    ∀ (R : List String), R.Nodup →
      (R.map (fun v => (countHead l v : Int))).sum =
        ((l.filter (fun a => R.contains a.head)).length : Int) := by
  induction l with
  | nil =>
    intro R _
    simp [countHead]
  | cons x l ih =>
    intro R hnd
    have hcons : ∀ v, (countHead (x :: l) v : Int) =
        (if x.head = v then (1 : Int) else 0) + (countHead l v : Int) := by
      intro v
      rw [countHead_cons]
      by_cases h : x.head = v
      · rw [if_pos h, if_pos h]; push_cast; ring
      · rw [if_neg h, if_neg h]; push_cast; ring
    calc (R.map (fun v => (countHead (x :: l) v : Int))).sum
        = (R.map (fun v =>
            (if x.head = v then (1 : Int) else 0) + (countHead l v : Int))).sum := by
          congr 1
          exact List.map_congr_left (fun v _ => hcons v)
      _ = (R.map (fun v => if x.head = v then (1 : Int) else 0)).sum +
            (R.map (fun v => (countHead l v : Int))).sum :=
          sum_map_add_int _ _ R
      _ = (if x.head ∈ R then (1 : Int) else 0) +
            ((l.filter (fun a => R.contains a.head)).length : Int) := by
          rw [sum_indicator_int x.head R hnd, ih R hnd]
      _ = ((((x :: l).filter (fun a => R.contains a.head)).length : Int)) := by
          rw [List.filter_cons]
          by_cases h : x.head ∈ R
          · rw [if_pos h, if_pos (by simpa using h)]
            simp [Nat.add_comm]
          · rw [if_neg h, if_neg (by simpa using h)]
            ring

theorem sumDelta_filter (g : SGraph) (R : List String) (hnd : R.Nodup) :
    (R.map (fun v => delta g v)).sum =
      ((g.edges.filter (fun a => R.contains a.tail)).length : Int) -
        ((g.edges.filter (fun a => R.contains a.head)).length : Int) := by
  have h1 : (R.map (fun v => delta g v)).sum =
      (R.map (fun v => (countTail g.edges v : Int) - (countHead g.edges v : Int))).sum :=
    rfl
  rw [h1, sum_map_sub_int, sum_countTail g.edges R hnd, sum_countHead g.edges R hnd]

theorem length_filter_split (l : List Arrow) (p q : Arrow → Bool) :
    (l.filter p).length =
      (l.filter (fun a => p a && q a)).length +
        (l.filter (fun a => p a && !q a)).length := by
  induction l with
  | nil => simp
  | cons x l ih =>
    simp only [List.filter_cons]
    by_cases hp : p x = true
    · by_cases hq : q x = true
      · rw [if_pos hp, if_pos (by rw [hp, hq]; rfl), if_neg (by rw [hp, hq]; simp)]
        simp only [List.length_cons]
        omega
      · rw [if_pos hp, if_neg (by rw [hp, Bool.eq_false_iff.mpr hq]; simp),
          if_pos (by rw [hp, Bool.eq_false_iff.mpr hq]; rfl)]
        simp only [List.length_cons]
        omega
    · rw [if_neg hp, if_neg (by rw [Bool.eq_false_iff.mpr hp]; simp),
        if_neg (by rw [Bool.eq_false_iff.mpr hp]; simp)]
      exact ih

/-- If a vertex set is closed under following edges and its total degree
difference is non-negative, no edge of the graph enters the set from
outside (and the total difference is zero). -/
theorem no_entering (g : SGraph) (R : List String) (hnd : R.Nodup)
    (hclosed : ∀ a ∈ g.edges, a.tail ∈ R → a.head ∈ R)
    (hsum : 0 ≤ (R.map (fun v => delta g v)).sum) :
    ∀ a ∈ g.edges, a.head ∈ R → a.tail ∈ R := by
  have hsd := sumDelta_filter g R hnd
  have hsplit := length_filter_split g.edges (fun a => R.contains a.head)
    (fun a => R.contains a.tail)
  have htail_sub : (g.edges.filter (fun a => R.contains a.tail)).length =
      (g.edges.filter (fun a => R.contains a.head && R.contains a.tail)).length := by
    have : g.edges.filter (fun a => R.contains a.tail) =
        g.edges.filter (fun a => R.contains a.head && R.contains a.tail) := by
      apply List.filter_congr
      intro a ha
      by_cases ht : R.contains a.tail = true
      · rw [ht]
        have hh : R.contains a.head = true := by
          have := hclosed a ha (by simpa using ht)
          simpa using this
        rw [hh]
        rfl
      · rw [Bool.eq_false_iff.mpr ht]
        simp
    rw [this]
  have hzero : (g.edges.filter
      (fun a => R.contains a.head && !R.contains a.tail)).length = 0 := by
    omega
  have hempty : g.edges.filter
      (fun a => R.contains a.head && !R.contains a.tail) = [] :=
    List.eq_nil_of_length_eq_zero hzero
  intro a ha hh
  by_contra ht
  have : a ∈ g.edges.filter (fun a => R.contains a.head && !R.contains a.tail) := by
    refine List.mem_filter.mpr ⟨ha, ?_⟩
    rw [Bool.and_eq_true]
    constructor
    · simpa using hh
    · rw [Bool.not_eq_true', Bool.eq_false_iff]
      intro hc
      exact ht (by simpa using hc)
  rw [hempty] at this
  simp at this

/-! ### EdgeCover (`ait/strategy/edge_cover.py`) -/

/-- Deleting the chosen edge in `_dfs`.  igraph deletes a specific edge id;
arrows with equal triples are interchangeable, so erasing one occurrence of
the value is multiset-faithful. -/
def eraseEdge (g : SGraph) (a : Arrow) : SGraph :=
  ⟨g.verts, g.edges.erase a⟩

/-- The self-loop deletion of `EdgeCover.travel` (default
`self_circle=False`). -/
def deleteSelfLoops (g : SGraph) : SGraph :=
  ⟨g.verts, g.edges.filter (fun a => !(a.tail == a.head))⟩

/-- `EdgeCover._dfs`, with fuel.  `rand` is the stream of random draws:
the `k`-th draw selects index `rand k % n` among the `n` current outgoing
edges, so quantifying over `rand` covers every possible sequence of
`random.choice` outcomes.  Returns the emitted stack entries, the final
graph and the next draw index.  The fuel-exhaustion branch (never reached
for fuel above the edge count) returns an empty stack. -/
instance : Inhabited Arrow := ⟨⟨"", "", ""⟩⟩

def ecDfs (rand : Nat → Nat) :
    Nat → SGraph → String → String → Nat → List (String × String) × SGraph × Nat
  | 0, g, _, _, k => ([], g, k)
  | fuel + 1, g, v, inc, k =>
    let outs := outArrows g v
    if outs.isEmpty then ([(v, inc)], g, k)
    else
      let a := outs.getD (rand k % outs.length) default
      let g1 := eraseEdge g a
      let r1 := ecDfs rand fuel g1 a.head a.name (k + 1)
      let r2 := ecDfs rand fuel r1.2.1 v inc r1.2.2
      (r1.1 ++ r2.1, r2.2.1, r2.2.2)

/-- The working graph of `EdgeCover.travel`: a copy of the input with
self-loops removed (unless `self_circle`), Eulerized in place when the
classification is NONE. -/
def ecWorking (selfCircle : Bool) (g : SGraph) : SGraph :=
  let w := if selfCircle then g else deleteSelfLoops g
  if is_eulerian w = Eulerian.NONE then (eulerize w).2 else w

/-- `EdgeCover.travel`: classify, Eulerize if NONE (the result of the
Eulerization is not checked), run the Hierholzer DFS from `start`, and
return the reversed stack.  A missing start vertex raises *UnknownState*
from `_dfs`. -/
def ecTravel (rand : Nat → Nat) (selfCircle : Bool) (g : SGraph) (start : String) :
    Except PyErr (List (String × String)) :=
  let w := ecWorking selfCircle g
  if start ∈ w.verts then
    Except.ok ((ecDfs rand (w.edges.length + 1) w start "" 0).1.reverse)
  else Except.error PyErr.UnknownState

/-- The arrows traversed by a walk as returned by `EdgeCover.travel`:
consecutive entries `(v, _) (w, n)` traverse the arrow `v→w` named `n`. -/
def walkArrows : List (String × String) → List Arrow
  | [] => []
  | [_] => []
  | (v, i) :: (w, n) :: rest => Arrow.mk v w n :: walkArrows ((w, n) :: rest)

instance (ε α : Type) [DecidableEq ε] [DecidableEq α] : DecidableEq (Except ε α) :=
  fun x y =>
  match x, y with
  | Except.ok a, Except.ok b =>
    if h : a = b then Decidable.isTrue (by rw [h])
    else Decidable.isFalse (by intro hc; cases hc; exact h rfl)
  | Except.error a, Except.error b =>
    if h : a = b then Decidable.isTrue (by rw [h])
    else Decidable.isFalse (by intro hc; cases hc; exact h rfl)
  | Except.ok a, Except.error b => Decidable.isFalse (by intro hc; cases hc)
  | Except.error a, Except.ok b => Decidable.isFalse (by intro hc; cases hc)

/-- Disconnected graph used for the C8 scenario. -/
def gDisc : SGraph :=
  ⟨["a", "b", "c", "d"], [⟨"a", "b", "1"⟩, ⟨"c", "d", "2"⟩]⟩

/-- C8, counterexample.  On the disconnected `gDisc` the working graph is
still not Eulerian after Eulerization, and yet `EdgeCover.travel` does not
surface any error: it returns a (partial) walk.  `ait/errors.py` defines no
*NotEulerizable* error at all, and `travel` ignores `eulerize`'s result. -/
theorem claim_C8_counterexample :
    is_eulerian (ecWorking false gDisc) = Eulerian.NONE ∧
    ecTravel (fun _ => 0) false gDisc "a" = Except.ok [("a", ""), ("b", "1")] := by
  decide

theorem eulerizeLoop_verts :
    ∀ fuel (g : SGraph) r, eulerizeLoop fuel g = some r → r.2.verts = g.verts := by
  intro fuel
  induction fuel with
  | zero => intro g r h; exact absurd h (by simp [eulerizeLoop])
  | succ fuel ih =>
    intro g r h
    rw [eulerizeLoop] at h
    by_cases h1 : (getUnevenPair g).1 = "" ∧ (getUnevenPair g).2 = ""
    · rw [if_pos h1] at h
      cases h
      rfl
    · rw [if_neg h1] at h
      by_cases h2 : (getUnevenPair g).1 = "" ∨ (getUnevenPair g).2 = ""
      · rw [if_pos h2] at h
        cases h
        rfl
      · rw [if_neg h2] at h
        by_cases h3 : shortest_path g (getUnevenPair g).2 (getUnevenPair g).1 = []
        · rw [if_pos h3] at h
          cases h
          rfl
        · rw [if_neg h3] at h
          rw [ih _ r h, duplicate_path_verts]

theorem eulerize_verts (g : SGraph) : (eulerize g).2.verts = g.verts := by
  rw [eulerize]
  by_cases h1 : is_eulerian g ≠ Eulerian.NONE
  · rw [if_pos h1]
  · rw [if_neg h1]
    by_cases h2 : is_connected g = false
    · rw [if_pos h2]
    · rw [if_neg h2]
      rcases hl : eulerizeLoop (totalImbalance g + 1) g with - | r
      · rfl
      · simp only [Option.getD_some]
        exact eulerizeLoop_verts _ g r hl

theorem ecWorking_verts (sc : Bool) (g : SGraph) : (ecWorking sc g).verts = g.verts := by
  rw [ecWorking]
  rcases sc with - | -
  · simp only [Bool.false_eq_true, if_false]
    by_cases h : is_eulerian (deleteSelfLoops g) = Eulerian.NONE
    · rw [if_pos h, eulerize_verts]
      rfl
    · rw [if_neg h]
      rfl
  · simp only [if_true]
    by_cases h : is_eulerian g = Eulerian.NONE
    · rw [if_pos h, eulerize_verts]
    · rw [if_neg h]

/-- C8 (amended): when the working graph is still not Eulerian after
classification and Eulerization, `EdgeCover.travel` does not fail: there
is no *NotEulerizable* error in `ait/errors.py`, `travel` ignores the
result of `eulerize`, and for any start vertex of the graph (and any
sequence of random draws) it returns the walk produced by the Hierholzer
DFS on the (non-Eulerian) working graph. -/
theorem claim_C8_theorem (rand : Nat → Nat) (g : SGraph) (start : String)
    (hstart : start ∈ g.verts)
    (hnone : is_eulerian (ecWorking false g) = Eulerian.NONE) :
    ecTravel rand false g start =
      Except.ok ((ecDfs rand ((ecWorking false g).edges.length + 1)
        (ecWorking false g) start "" 0).1.reverse) := by
  rw [ecTravel]
  rw [if_pos (by rw [ecWorking_verts]; exact hstart)]

/-- C8, witness: the amended claim evaluated on the disconnected `gDisc`. -/
theorem claim_C8_witness :
    ecTravel (fun _ => 0) false gDisc "a" =
      Except.ok ((ecDfs (fun _ => 0) ((ecWorking false gDisc).edges.length + 1)
        (ecWorking false gDisc) "a" "" 0).1.reverse) :=
  claim_C8_theorem (fun _ => 0) gDisc "a" (by decide) (by decide)

/-- Graph with a self-loop on `a` beside the edge `a→b`. -/
def gLoop : SGraph :=
  ⟨["a", "b"], [⟨"a", "a", "l"⟩, ⟨"a", "b", "e"⟩]⟩

/-- C7, counterexample.  On `gLoop`, `EdgeCover.travel` (with the default
`self_circle=False`) returns a walk, but the self-loop `a→a` of the
original input graph — deleted from the working copy before
classification — is never used, refuting the claim that every edge of the
original input graph is used at least once. -/
theorem claim_C7_counterexample :
    ecTravel (fun _ => 0) false gLoop "a" = Except.ok [("a", ""), ("b", "e")] ∧
    Arrow.mk "a" "a" "l" ∈ gLoop.edges ∧
    Arrow.mk "a" "a" "l" ∉ walkArrows [("a", ""), ("b", "e")] := by
  decide

theorem getD_mod_mem (l : List Arrow) (h : l ≠ []) (i : Nat) :
    l.getD (i % l.length) default ∈ l := by
  have hlen : 0 < l.length := List.length_pos.mpr h
  have hlt : i % l.length < l.length := Nat.mod_lt i hlen
  rw [List.getD_eq_getElem?_getD, List.getElem?_eq_getElem hlt]
  exact List.getElem_mem hlt

theorem length_filter_erase_mem (p : Arrow → Bool) :
    ∀ (l : List Arrow) (a : Arrow), a ∈ l →
      ((l.erase a).filter p).length =
        (l.filter p).length - (if p a then 1 else 0) := by
  intro l
  induction l with
  | nil => intro a ha; simp at ha
  | cons x l ih =>
    intro a ha
    by_cases hxa : x = a
    · subst hxa
      rw [List.erase_cons_head, List.filter_cons]
      by_cases hp : p x = true
      · rw [if_pos hp, if_pos hp]
        simp
      · rw [if_neg hp, if_neg (by simpa using hp)]
        simp
    · have hal : a ∈ l := by
        rcases List.mem_cons.mp ha with h | h
        · exact absurd h.symm hxa
        · exact h
      rw [List.erase_cons_tail (by simpa using hxa)]
      rw [List.filter_cons, List.filter_cons]
      by_cases hp : p x = true
      · rw [if_pos hp, if_pos hp]
        simp only [List.length_cons]
        rw [ih a hal]
        have hle : (if p a then 1 else 0) ≤ (l.filter p).length := by
          by_cases hpa : p a = true
          · rw [if_pos hpa]
            have hmm : a ∈ l.filter p := List.mem_filter.mpr ⟨hal, hpa⟩
            have := List.length_pos.mpr (List.ne_nil_of_mem hmm)
            omega
          · rw [if_neg hpa]
            omega
        omega
      · rw [if_neg hp, if_neg hp]
        exact ih a hal

theorem delta_eraseEdge (g : SGraph) (a : Arrow) (ha : a ∈ g.edges) (u : String) :
    delta (eraseEdge g a) u =
      delta g u - (if u = a.tail then 1 else 0) + (if u = a.head then 1 else 0) := by
  have hout : outDeg (eraseEdge g a) u =
      outDeg g u - (if u = a.tail then 1 else 0) := by
    show ((g.edges.erase a).filter (fun x => x.tail == u)).length = _
    rw [length_filter_erase_mem _ g.edges a ha]
    by_cases h : u = a.tail
    · rw [if_pos h, if_pos (by simpa using h.symm)]
      rfl
    · rw [if_neg h, if_neg (by simp; intro hc; exact h hc.symm)]
      rfl
  have hin : inDeg (eraseEdge g a) u =
      inDeg g u - (if u = a.head then 1 else 0) := by
    show ((g.edges.erase a).filter (fun x => x.head == u)).length = _
    rw [length_filter_erase_mem _ g.edges a ha]
    by_cases h : u = a.head
    · rw [if_pos h, if_pos (by simpa using h.symm)]
      rfl
    · rw [if_neg h, if_neg (by simp; intro hc; exact h hc.symm)]
      rfl
  have houtle : (if u = a.tail then 1 else 0) ≤ outDeg g u := by
    by_cases h : u = a.tail
    · rw [if_pos h]
      have hmm : a ∈ g.edges.filter (fun x => x.tail == u) :=
        List.mem_filter.mpr ⟨ha, by simpa using h.symm⟩
      have := List.length_pos.mpr (List.ne_nil_of_mem hmm)
      rw [outDeg]
      omega
    · rw [if_neg h]; omega
  have hinle : (if u = a.head then 1 else 0) ≤ inDeg g u := by
    by_cases h : u = a.head
    · rw [if_pos h]
      have hmm : a ∈ g.edges.filter (fun x => x.head == u) :=
        List.mem_filter.mpr ⟨ha, by simpa using h.symm⟩
      have := List.length_pos.mpr (List.ne_nil_of_mem hmm)
      rw [inDeg]
      omega
    · rw [if_neg h]; omega
  rw [delta, delta, hout, hin]
  split_ifs at houtle hinle ⊢ <;> omega

theorem filter_erase_of_false (p : Arrow → Bool) :
    ∀ (l : List Arrow) (a : Arrow), p a = false →
      (l.erase a).filter p = l.filter p := by
  intro l
  induction l with
  | nil => intro a _; rfl
  | cons x l ih =>
    intro a hpa
    by_cases hxa : x = a
    · subst hxa
      rw [List.erase_cons_head, List.filter_cons, if_neg (by simp [hpa])]
    · rw [List.erase_cons_tail (by simpa using hxa)]
      rw [List.filter_cons, List.filter_cons]
      by_cases hp : p x = true
      · rw [if_pos hp, if_pos hp, ih a hpa]
      · rw [if_neg hp, if_neg hp]
        exact ih a hpa

theorem reachList_no_out (g : SGraph) (v : String) (h : outArrows g v = []) :
    reachList g v = [v] := by
  have hfix : satStep (dirAdj g) g.verts [v] = [v] := by
    rw [satStep]
    have hnil : g.verts.filter
        (fun w => !(List.contains [v] w) && (List.any [v] (fun u => dirAdj g u w))) = [] := by
      rw [List.filter_eq_nil_iff]
      intro w _
      intro hc
      rw [Bool.and_eq_true] at hc
      rcases List.any_eq_true.mp hc.2 with ⟨u, hu, hadj⟩
      rw [List.mem_singleton.mp hu] at hadj
      rcases List.any_eq_true.mp hadj with ⟨x, hx, hcond⟩
      rw [Bool.and_eq_true] at hcond
      have hmm : x ∈ outArrows g v := List.mem_filter.mpr ⟨hx, hcond.1⟩
      rw [h] at hmm
      simp at hmm
    rw [hnil, List.append_nil]
  exact saturate_of_satStep_eq (dirAdj g) g.verts g.verts.length [v] hfix

/-! ### Hierholzer DFS specification layer (`EdgeCover._dfs`) -/

/-- `almostBal g v t`: every vertex is balanced except for one extra
outgoing edge at `v` and one extra incoming edge at `t` (the two may
coincide, in which case the graph is fully balanced). -/
def almostBal (g : SGraph) (v t : String) : Prop :=
  ∀ u ∈ g.verts, delta g u = (if u = v then 1 else 0) - (if u = t then 1 else 0)

theorem eraseEdge_wf (g : SGraph) (a : Arrow) (hwf : g.wf) : (eraseEdge g a).wf := by
  refine ⟨hwf.1, ?_⟩
  intro x hx
  exact hwf.2 x (List.mem_of_mem_erase hx)

theorem dirAdj_mono (g g2 : SGraph) (hsub : ∀ x ∈ g2.edges, x ∈ g.edges)
    (u w : String) (h : dirAdj g2 u w = true) : dirAdj g u w = true := by
  rcases List.any_eq_true.mp h with ⟨x, hx, hc⟩
  exact List.any_eq_true.mpr ⟨x, hsub x hx, hc⟩

theorem reach_mono (g g2 : SGraph) (hverts : g2.verts = g.verts)
    (hsub : ∀ x ∈ g2.edges, x ∈ g.edges) (v : String) :
    ∀ u ∈ reachList g2 v, u ∈ reachList g v := by
  intro u hu
  rw [mem_reachList_iff] at hu ⊢
  exact Relation.ReflTransGen.mono
    (fun a b hab => ⟨dirAdj_mono g g2 hsub a b hab.1, hverts ▸ hab.2⟩) hu

theorem reach_trans (g : SGraph) (v u w : String) (hu : u ∈ reachList g v)
    (hw : w ∈ reachList g u) : w ∈ reachList g v := by
  rw [mem_reachList_iff] at hu hw ⊢
  exact Relation.ReflTransGen.trans hu hw

theorem walkArrows_cons2 (v w : String × String) (rest : List (String × String)) :
    walkArrows (v :: w :: rest) = Arrow.mk v.1 w.1 w.2 :: walkArrows (w :: rest) := by
  rcases v with ⟨a, b⟩
  rcases w with ⟨c, d⟩
  rfl

theorem walkArrows_concat :
    ∀ (X : List (String × String)) (p y : String × String), X.getLast? = some p →
      walkArrows (X ++ [y]) = walkArrows X ++ [Arrow.mk p.1 y.1 y.2] := by
  intro X
  induction X with
  | nil => intro p y hp; exact absurd hp (by simp)
  | cons x X ih =>
    intro p y hp
    rcases X with - | ⟨x2, X2⟩
    · have hpx : p = x := by simpa using hp.symm
      subst hpx
      rfl
    · have hp2 : (x2 :: X2).getLast? = some p := by
        rw [← hp, List.getLast?_cons_cons]
      have hih := ih p y hp2
      show walkArrows (x :: (x2 :: (X2 ++ [y]))) = _
      rw [walkArrows_cons2]
      rw [show x2 :: (X2 ++ [y]) = (x2 :: X2) ++ [y] from rfl, hih, walkArrows_cons2]
      rfl

theorem walkArrows_append (y : String × String) :
    ∀ (X Y : List (String × String)),
      walkArrows (X ++ y :: Y) = walkArrows (X ++ [y]) ++ walkArrows (y :: Y) := by
  intro X
  induction X with
  | nil => intro Y; rfl
  | cons x X ih =>
    intro Y
    rcases X with - | ⟨x2, X2⟩
    · rfl
    · show walkArrows (x :: (x2 :: (X2 ++ y :: Y))) = _
      rw [walkArrows_cons2]
      rw [show x2 :: (X2 ++ y :: Y) = (x2 :: X2) ++ y :: Y from rfl, ih Y]
      rw [show (x :: x2 :: X2) ++ [y] = x :: (x2 :: (X2 ++ [y])) from rfl, walkArrows_cons2]
      rfl

theorem countTail_filter_not_mem (l : List Arrow) (R : List String) (u : String)
    (hu : u ∉ R) :
    countTail (l.filter (fun x => !(R.contains x.tail))) u = countTail l u := by
  rw [countTail, countTail, List.filter_filter]
  have hcg : l.filter (fun a => (a.tail == u) && !(R.contains a.tail)) =
      l.filter (fun a => a.tail == u) := by
    apply List.filter_congr
    intro x _
    by_cases hxt : x.tail = u
    · have hc : (R.contains x.tail) = false := by
        rw [hxt]; simpa using hu
      simp [hxt, hc]
      exact hu
    · have hc : (x.tail == u) = false := by simpa using hxt
      simp [hc]
  rw [hcg]

theorem countTail_filter_mem (l : List Arrow) (R : List String) (u : String)
    (hu : u ∈ R) :
    countTail (l.filter (fun x => !(R.contains x.tail))) u = 0 := by
  rw [countTail, List.filter_filter, List.length_eq_zero]
  rw [List.filter_eq_nil_iff]
  intro x _ hc
  rw [Bool.and_eq_true] at hc
  have hxt : x.tail = u := by simpa using hc.1
  have : (R.contains x.tail) = false := by
    rw [Bool.not_eq_true'] at hc; exact hc.2
  rw [hxt] at this
  exact absurd hu (by simpa using this)

theorem countHead_filter_not_mem (l : List Arrow) (R : List String) (u : String)
    (hu : u ∉ R) (hclosed : ∀ x ∈ l, x.tail ∈ R → x.head ∈ R) :
    countHead (l.filter (fun x => !(R.contains x.tail))) u = countHead l u := by
  rw [countHead, countHead, List.filter_filter]
  have hcg : l.filter (fun a => (a.head == u) && !(R.contains a.tail)) =
      l.filter (fun a => a.head == u) := by
    apply List.filter_congr
    intro x hx
    by_cases hxh : x.head = u
    · have hts : x.tail ∉ R := by
        intro hc
        exact hu (hxh ▸ hclosed x hx hc)
      have hc : (R.contains x.tail) = false := by simpa using hts
      simp [hxh, hc]
      exact hts
    · have hc : (x.head == u) = false := by simpa using hxh
      simp [hc]
  rw [hcg]

theorem countHead_filter_mem (l : List Arrow) (R : List String) (u : String)
    (hu : u ∈ R) (hent : ∀ x ∈ l, x.head ∈ R → x.tail ∈ R) :
    countHead (l.filter (fun x => !(R.contains x.tail))) u = 0 := by
  rw [countHead, List.filter_filter, List.length_eq_zero]
  rw [List.filter_eq_nil_iff]
  intro x hx hc
  rw [Bool.and_eq_true] at hc
  have hxh : x.head = u := by simpa using hc.1
  have htail : x.tail ∈ R := hent x hx (hxh ▸ hu)
  have : (R.contains x.tail) = false := by
    rw [Bool.not_eq_true'] at hc; exact hc.2
  exact absurd htail (by simpa using this)

theorem stuck_target (g : SGraph) (v t : String) (hv : v ∈ g.verts)
    (hbal : almostBal g v t) (houts : outArrows g v = []) : t = v := by
  have hout0 : outDeg g v = 0 := by
    show (g.edges.filter (fun a => a.tail == v)).length = 0
    rw [show g.edges.filter (fun a => a.tail == v) = outArrows g v from rfl, houts]
    rfl
  have hb := hbal v hv
  rw [delta, hout0, if_pos rfl] at hb
  by_cases h : v = t
  · exact h.symm
  · rw [if_neg h] at hb
    exfalso
    omega

theorem ecDfs_base (rand : Nat → Nat) (fuel : Nat) (g : SGraph) (v inc : String)
    (k : Nat) (h : outArrows g v = []) :
    ecDfs rand (fuel + 1) g v inc k = ([(v, inc)], g, k) := by
  simp only [ecDfs]
  rw [if_pos (by simp [h])]

theorem ecDfs_step (rand : Nat → Nat) (fuel : Nat) (g : SGraph) (v inc : String)
    (k : Nat) (a : Arrow)
    (ha : (outArrows g v).getD (rand k % (outArrows g v).length) default = a)
    (h : outArrows g v ≠ []) :
    ecDfs rand (fuel + 1) g v inc k =
      ((ecDfs rand fuel (eraseEdge g a) a.head a.name (k + 1)).1 ++
          (ecDfs rand fuel (ecDfs rand fuel (eraseEdge g a) a.head a.name (k + 1)).2.1
            v inc (ecDfs rand fuel (eraseEdge g a) a.head a.name (k + 1)).2.2).1,
        (ecDfs rand fuel (ecDfs rand fuel (eraseEdge g a) a.head a.name (k + 1)).2.1
            v inc (ecDfs rand fuel (eraseEdge g a) a.head a.name (k + 1)).2.2).2.1,
        (ecDfs rand fuel (ecDfs rand fuel (eraseEdge g a) a.head a.name (k + 1)).2.1
            v inc (ecDfs rand fuel (eraseEdge g a) a.head a.name (k + 1)).2.2).2.2) := by
  subst ha
  simp only [ecDfs]
  rw [if_neg (by simp [h])]

theorem sum_indicator_int2 (w : String) :
    ∀ (l : List String), l.Nodup →
      (l.map (fun v => if v = w then (1 : Int) else 0)).sum =
        if w ∈ l then 1 else 0 := by
  intro l hnd
  have hmap : l.map (fun v => if v = w then (1 : Int) else 0) =
      l.map (fun v => if w = v then (1 : Int) else 0) := by
    apply List.map_congr_left
    intro u _
    by_cases h : u = w
    · rw [if_pos h, if_pos h.symm]
    · rw [if_neg h, if_neg (fun hc => h hc.symm)]
  rw [hmap]
  exact sum_indicator_int w l hnd

/-- Splitting reachability at the first chosen edge: the vertices reachable
from `v` in `g` are those reachable from `a.head` after erasing `a`,
together with those reachable from `v` in the residual graph left by the
sub-walk. -/
theorem reach_split (g : SGraph) (hwf : g.wf) (a : Arrow) (ha : a ∈ g.edges)
    (v : String) (hatail : a.tail = v)
    (G2 : SGraph) (hG2v : G2.verts = g.verts)
    (hG2e : G2.edges = (eraseEdge g a).edges.filter
      (fun x => !((reachList (eraseEdge g a) a.head).contains x.tail))) :
    ∀ w, w ∈ reachList g v ↔
      (w ∈ reachList (eraseEdge g a) a.head ∨ w ∈ reachList G2 v) := by
  intro w
  constructor
  · intro hw
    rw [mem_reachList_iff] at hw
    induction hw with
    | refl => exact Or.inr (self_mem_reachList G2 v)
    | tail hvb hbc ih =>
      rename_i b c
      rcases hbc with ⟨hadj, hcmem⟩
      rcases List.any_eq_true.mp hadj with ⟨x, hx, hcond⟩
      rw [Bool.and_eq_true] at hcond
      have hxt : x.tail = b := by simpa using hcond.1
      have hxh : x.head = c := by simpa using hcond.2
      by_cases hxa : x = a
      · subst hxa
        refine Or.inl ?_
        rw [← hxh]
        exact self_mem_reachList (eraseEdge g x) x.head
      · have hx1 : x ∈ (eraseEdge g a).edges := (List.mem_erase_of_ne hxa).mpr hx
        by_cases hbR1 : b ∈ reachList (eraseEdge g a) a.head
        · have hch : x.head ∈ (eraseEdge g a).verts := (hwf.2 x hx).2
          have htin : x.tail ∈ reachList (eraseEdge g a) a.head := by
            rw [hxt]; exact hbR1
          exact Or.inl (hxh ▸ reachList_closed (eraseEdge g a) a.head x hx1 hch htin)
        · have hb2 : b ∈ reachList G2 v := ih.resolve_left hbR1
          have hxG2 : x ∈ G2.edges := by
            rw [hG2e]
            refine List.mem_filter.mpr ⟨hx1, ?_⟩
            have : ((reachList (eraseEdge g a) a.head).contains x.tail) = false := by
              rw [hxt]
              simpa using hbR1
            rw [this]
            rfl
          have hch2 : x.head ∈ G2.verts := by
            rw [hG2v]; exact (hwf.2 x hx).2
          have htin : x.tail ∈ reachList G2 v := by rw [hxt]; exact hb2
          exact Or.inr (hxh ▸ reachList_closed G2 v x hxG2 hch2 htin)
  · intro hw
    rcases hw with h1 | h2
    · have hsub : ∀ x ∈ (eraseEdge g a).edges, x ∈ g.edges :=
        fun x hx => List.mem_of_mem_erase hx
      have hhead : a.head ∈ reachList g v := by
        refine reachList_closed g v a ha (hwf.2 a ha).2 ?_
        rw [hatail]
        exact self_mem_reachList g v
      exact reach_trans g v a.head w hhead
        (reach_mono g (eraseEdge g a) rfl hsub a.head w h1)
    · have hsub2 : ∀ x ∈ G2.edges, x ∈ g.edges := by
        intro x hx
        rw [hG2e] at hx
        exact List.mem_of_mem_erase (List.mem_filter.mp hx).1
      exact reach_mono g G2 hG2v hsub2 v w h2

/-- After the sub-walk from `a.head` consumes every edge whose tail it can
reach, the residual graph is balanced at every vertex. -/
theorem residual_balanced (g1 : SGraph) (hwf1 : g1.wf) (h t : String)
    (hh : h ∈ g1.verts) (htr : t ∈ reachList g1 h)
    (hbal : almostBal g1 h t)
    (G2 : SGraph) (hG2v : G2.verts = g1.verts)
    (hG2e : G2.edges = g1.edges.filter
      (fun x => !((reachList g1 h).contains x.tail))) :
    ∀ u ∈ G2.verts, delta G2 u = 0 := by
  have hRnd : (reachList g1 h).Nodup := reachList_nodup g1 h hwf1
  have hclosed : ∀ x ∈ g1.edges, x.tail ∈ reachList g1 h → x.head ∈ reachList g1 h :=
    fun x hx hxt => reachList_closed g1 h x hx (hwf1.2 x hx).2 hxt
  have hsum0 : ((reachList g1 h).map (fun u => delta g1 u)).sum = 0 := by
    have hmapeq : (reachList g1 h).map (fun u => delta g1 u) =
        (reachList g1 h).map (fun u =>
          (if u = h then (1 : Int) else 0) - (if u = t then (1 : Int) else 0)) := by
      apply List.map_congr_left
      intro u hu
      exact hbal u (reachList_subset g1 h hh u hu)
    rw [hmapeq, sum_map_sub_int, sum_indicator_int2 h _ hRnd, sum_indicator_int2 t _ hRnd]
    rw [if_pos (self_mem_reachList g1 h), if_pos htr]
    ring
  have hent := no_entering g1 (reachList g1 h) hRnd hclosed (le_of_eq hsum0.symm)
  intro u hu
  have hu1 : u ∈ g1.verts := hG2v ▸ hu
  by_cases huR : u ∈ reachList g1 h
  · have hct : countTail G2.edges u = 0 := by
      rw [hG2e]; exact countTail_filter_mem g1.edges _ u huR
    have hch : countHead G2.edges u = 0 := by
      rw [hG2e]; exact countHead_filter_mem g1.edges _ u huR hent
    show (outDeg G2 u : Int) - inDeg G2 u = 0
    rw [show outDeg G2 u = countTail G2.edges u from rfl,
      show inDeg G2 u = countHead G2.edges u from rfl, hct, hch]
    ring
  · have hct : countTail G2.edges u = countTail g1.edges u := by
      rw [hG2e]; exact countTail_filter_not_mem g1.edges _ u huR
    have hch : countHead G2.edges u = countHead g1.edges u := by
      rw [hG2e]; exact countHead_filter_not_mem g1.edges _ u huR hclosed
    have hbu := hbal u hu1
    have hneh : ¬(u = h) := fun hc => huR (hc ▸ self_mem_reachList g1 h)
    have hnet : ¬(u = t) := fun hc => huR (hc ▸ htr)
    rw [if_neg hneh, if_neg hnet] at hbu
    show (outDeg G2 u : Int) - inDeg G2 u = 0
    rw [show outDeg G2 u = countTail G2.edges u from rfl,
      show inDeg G2 u = countHead G2.edges u from rfl, hct, hch]
    have hdd : (countTail g1.edges u : Int) - countHead g1.edges u = delta g1 u := rfl
    rw [hdd, hbu]
    ring

/-- Full functional specification of the fueled Hierholzer DFS: on a graph
whose only imbalance is one extra out-edge at `v` and one extra in-edge at
`t`, the DFS consumes exactly the edges whose tail is reachable from `v`,
its emitted stack starts at `t` and ends at `(v, inc)`, and the arrows of
the reversed stack are exactly the consumed edges, with multiplicity. -/
theorem ecDfs_spec (rand : Nat → Nat) :
    ∀ (fuel : Nat) (g : SGraph) (v inc t : String) (k : Nat),
      g.wf → v ∈ g.verts → t ∈ g.verts → almostBal g v t →
      g.edges.length + 1 ≤ fuel →
      (ecDfs rand fuel g v inc k).2.1.verts = g.verts ∧
      (ecDfs rand fuel g v inc k).2.1.edges =
        g.edges.filter (fun x => !((reachList g v).contains x.tail)) ∧
      (ecDfs rand fuel g v inc k).1 ≠ [] ∧
      (ecDfs rand fuel g v inc k).1.getLast? = some (v, inc) ∧
      ((ecDfs rand fuel g v inc k).1.head?.map Prod.fst) = some t ∧
      t ∈ reachList g v ∧
      (∀ x : Arrow,
        (walkArrows (ecDfs rand fuel g v inc k).1.reverse).count x +
          (ecDfs rand fuel g v inc k).2.1.edges.count x = g.edges.count x) := by
  intro fuel
  induction fuel with
  | zero =>
    intro g v inc t k _ _ _ _ hfuel
    exact absurd hfuel (by omega)
  | succ fuel ih =>
    intro g v inc t k hwf hv ht hbal hfuel
    by_cases houts : outArrows g v = []
    · have htv : v = t := (stuck_target g v t hv hbal houts).symm
      subst htv
      rw [ecDfs_base rand fuel g v inc k houts]
      refine ⟨rfl, ?_, by simp, rfl, rfl, self_mem_reachList g v, ?_⟩
      · have hreach : reachList g v = [v] := reachList_no_out g v houts
        rw [hreach]
        symm
        rw [List.filter_eq_self]
        intro x hx
        have hxt : x.tail ≠ v := by
          intro hc
          have hmm : x ∈ outArrows g v := List.mem_filter.mpr ⟨hx, by simpa using hc⟩
          rw [houts] at hmm
          simp at hmm
        simp [hxt]
      · intro x
        have hwa : walkArrows ([(v, inc)].reverse) = [] := rfl
        rw [hwa]
        simp
    · obtain ⟨a, ha⟩ : ∃ a, (outArrows g v).getD (rand k % (outArrows g v).length) default = a :=
        ⟨_, rfl⟩
      have hamem : a ∈ outArrows g v := ha ▸ getD_mod_mem (outArrows g v) houts (rand k)
      have haedge : a ∈ g.edges := (List.mem_filter.mp hamem).1
      have hatail : a.tail = v := by simpa using (List.mem_filter.mp hamem).2
      have hahead : a.head ∈ g.verts := (hwf.2 a haedge).2
      have hg1wf : (eraseEdge g a).wf := eraseEdge_wf g a hwf
      have hg1len : (eraseEdge g a).edges.length + 1 = g.edges.length := by
        show (g.edges.erase a).length + 1 = g.edges.length
        rw [List.length_erase_of_mem haedge]
        have hpos : 1 ≤ g.edges.length := List.length_pos.mpr (List.ne_nil_of_mem haedge)
        omega
      have hg1bal : almostBal (eraseEdge g a) a.head t := by
        intro u hu
        have hd := delta_eraseEdge g a haedge u
        have hbu := hbal u hu
        rw [hd, hbu, hatail]
        split_ifs <;> omega
      have hfuel1 : (eraseEdge g a).edges.length + 1 ≤ fuel := by omega
      obtain ⟨h1verts, h1edges, h1ne, h1last, h1head, h1tr, h1count⟩ :=
        ih (eraseEdge g a) a.head a.name t (k + 1) hg1wf hahead ht hg1bal hfuel1
      rcases hr1 : ecDfs rand fuel (eraseEdge g a) a.head a.name (k + 1) with ⟨s1, G2, k2⟩
      rw [hr1] at h1verts h1edges h1ne h1last h1head h1count
      dsimp only at h1verts h1edges h1ne h1last h1head h1count
      have hG2v : G2.verts = g.verts := h1verts
      have hG2wf : G2.wf := by
        refine ⟨by rw [hG2v]; exact hwf.1, ?_⟩
        intro x hx
        rw [h1edges] at hx
        have hxg : x ∈ g.edges := List.mem_of_mem_erase (List.mem_filter.mp hx).1
        refine ⟨?_, ?_⟩
        · rw [hG2v]; exact (hwf.2 x hxg).1
        · rw [hG2v]; exact (hwf.2 x hxg).2
      have hG2bal : almostBal G2 v v := by
        intro u hu
        have h0 := residual_balanced (eraseEdge g a) hg1wf a.head t hahead h1tr hg1bal
          G2 h1verts h1edges u hu
        rw [h0]
        split_ifs <;> omega
      have hG2len : G2.edges.length + 1 ≤ fuel := by
        have hle : G2.edges.length ≤ (eraseEdge g a).edges.length := by
          rw [h1edges]; exact List.length_filter_le _ _
        omega
      have hvG2 : v ∈ G2.verts := by rw [hG2v]; exact hv
      obtain ⟨h2verts, h2edges, h2ne, h2last, h2head, h2tr, h2count⟩ :=
        ih G2 v inc v k2 hG2wf hvG2 hvG2 hG2bal hG2len
      rcases hr2 : ecDfs rand fuel G2 v inc k2 with ⟨s2, G3, k3⟩
      rw [hr2] at h2verts h2edges h2ne h2last h2head h2count
      dsimp only at h2verts h2edges h2ne h2last h2head h2count
      have hstep := ecDfs_step rand fuel g v inc k a ha houts
      rw [hr1] at hstep
      dsimp only at hstep
      rw [hr2] at hstep
      dsimp only at hstep
      rw [hstep]
      dsimp only
      have hsplit := reach_split g hwf a haedge v hatail G2 hG2v h1edges
      refine ⟨?_, ?_, ?_, ?_, ?_, ?_, ?_⟩
      · rw [h2verts, hG2v]
      · rw [h2edges, h1edges, List.filter_filter]
        have hpt : ∀ x : Arrow,
            (!((reachList G2 v).contains x.tail) &&
              !((reachList (eraseEdge g a) a.head).contains x.tail)) =
            !((reachList g v).contains x.tail) := by
          intro x
          by_cases h1m : x.tail ∈ reachList (eraseEdge g a) a.head
          · have hvm : x.tail ∈ reachList g v := (hsplit x.tail).mpr (Or.inl h1m)
            have c1 : ((reachList (eraseEdge g a) a.head).contains x.tail) = true := by
              simpa using h1m
            have cv : ((reachList g v).contains x.tail) = true := by simpa using hvm
            rw [c1, cv]
            simp
          · by_cases h2m : x.tail ∈ reachList G2 v
            · have hvm : x.tail ∈ reachList g v := (hsplit x.tail).mpr (Or.inr h2m)
              have c2 : ((reachList G2 v).contains x.tail) = true := by simpa using h2m
              have cv : ((reachList g v).contains x.tail) = true := by simpa using hvm
              rw [c2, cv]
              simp
            · have hnv : x.tail ∉ reachList g v := by
                intro hc
                rcases (hsplit x.tail).mp hc with h | h
                · exact h1m h
                · exact h2m h
              have c1 : ((reachList (eraseEdge g a) a.head).contains x.tail) = false := by
                simpa using h1m
              have c2 : ((reachList G2 v).contains x.tail) = false := by simpa using h2m
              have cv : ((reachList g v).contains x.tail) = false := by simpa using hnv
              rw [c1, c2, cv]
              simp
        have hstep1 : (eraseEdge g a).edges.filter
            (fun x => !((reachList G2 v).contains x.tail) &&
              !((reachList (eraseEdge g a) a.head).contains x.tail)) =
            (eraseEdge g a).edges.filter (fun x => !((reachList g v).contains x.tail)) :=
          List.filter_congr (fun x _ => hpt x)
        rw [hstep1]
        refine filter_erase_of_false _ g.edges a ?_
        have hcv : ((reachList g v).contains a.tail) = true := by
          rw [hatail]
          simpa using self_mem_reachList g v
        rw [hcv]
        rfl
      · rcases s1 with - | ⟨y1, s1t⟩
        · exact absurd rfl h1ne
        · simp
      · rw [List.getLast?_append_of_ne_nil _ h2ne, h2last]
      · rcases s1 with - | ⟨y1, s1t⟩
        · exact absurd rfl h1ne
        · simpa using h1head
      · exact (hsplit t).mpr (Or.inl h1tr)
      · intro x
        rw [List.reverse_append]
        rcases hs1r : s1.reverse with - | ⟨y, Y⟩
        · have hnil : s1 = [] := by simpa using hs1r
          exact absurd hnil h1ne
        · have hy : y = (a.head, a.name) := by
            have hh := List.head?_reverse s1
            rw [hs1r, h1last] at hh
            exact Option.some.inj hh
          rw [walkArrows_append y s2.reverse Y]
          have hq : ∃ q, s2.head? = some q ∧ q.1 = v := by
            rcases s2 with - | ⟨q, s2t⟩
            · exact absurd rfl h2ne
            · exact ⟨q, rfl, by simpa using h2head⟩
          rcases hq with ⟨q, hqh, hq1⟩
          have hlast2 : s2.reverse.getLast? = some q := by
            rw [List.getLast?_reverse, hqh]
          rw [walkArrows_concat s2.reverse q y hlast2]
          have hbridge : Arrow.mk q.1 y.1 y.2 = a := by
            rw [hq1, hy]
            show Arrow.mk v a.head a.name = a
            rw [← hatail]
          rw [hbridge, List.count_append, List.count_append]
          have hc1 := h1count x
          have hc2 := h2count x
          rw [hs1r] at hc1
          have hce : List.count x (eraseEdge g a).edges = List.count x (g.edges.erase a) :=
            rfl
          rw [hce] at hc1
          by_cases hxa : x = a
          · subst hxa
            rw [List.count_erase_self] at hc1
            have hsc : List.count x [x] = 1 := by simp
            rw [hsc]
            have hpos : 1 ≤ g.edges.count x := by
              have := List.count_pos_iff.mpr haedge
              omega
            omega
          · rw [List.count_erase_of_ne hxa] at hc1
            have hsc : List.count x [a] = 0 := by
              rw [List.count_cons_of_ne hxa, List.count_nil]
            rw [hsc]
            omega

theorem undirAdj_symm (g : SGraph) (u w : String) (h : undirAdj g u w = true) :
    undirAdj g w u = true := by
  rcases List.any_eq_true.mp h with ⟨x, hx, hc⟩
  refine List.any_eq_true.mpr ⟨x, hx, ?_⟩
  rcases Bool.or_eq_true_iff.mp hc with h1 | h1
  · exact Bool.or_eq_true_iff.mpr (Or.inr h1)
  · exact Bool.or_eq_true_iff.mpr (Or.inl h1)

theorem reaches_target_mem (adj : String → String → Bool) (vs : List String)
    (x b : String) (hx : x ∈ vs) (hr : Reaches adj vs x b) : b ∈ vs := by
  induction hr with
  | refl => exact hx
  | tail hab hbc ih => exact hbc.2

theorem reaches_symm (adj : String → String → Bool)
    (hsym : ∀ u w, adj u w = true → adj w u = true) (vs : List String)
    (x b : String) (hx : x ∈ vs) (hr : Reaches adj vs x b) : Reaches adj vs b x := by
  induction hr with
  | refl => exact Relation.ReflTransGen.refl
  | tail hab hbc ih =>
    rename_i c d
    have hcmem : c ∈ vs := reaches_target_mem adj vs x c hx hab
    exact Relation.ReflTransGen.head ⟨hsym c d hbc.1, hcmem⟩ ih

/-- A balanced, weakly connected graph is strongly connected: every vertex
is reachable along directed edges from any vertex. -/
theorem balanced_connected_reach (g : SGraph) (hwf : g.wf)
    (hconn : is_connected g = true) (hbal : ∀ u ∈ g.verts, delta g u = 0)
    (v : String) (hv : v ∈ g.verts) :
    ∀ u ∈ g.verts, u ∈ reachList g v := by
  have hRnd : (reachList g v).Nodup := reachList_nodup g v hwf
  have hclosed : ∀ x ∈ g.edges, x.tail ∈ reachList g v → x.head ∈ reachList g v :=
    fun x hx hxt => reachList_closed g v x hx (hwf.2 x hx).2 hxt
  have hsum0 : ((reachList g v).map (fun u => delta g u)).sum = 0 := by
    have hmapeq : (reachList g v).map (fun u => delta g u) =
        (reachList g v).map (fun _ => (0 : Int)) :=
      List.map_congr_left (fun u hu => hbal u (reachList_subset g v hv u hu))
    rw [hmapeq]
    simp
  have hent := no_entering g (reachList g v) hRnd hclosed (le_of_eq hsum0.symm)
  have hundclosed : ∀ b c, b ∈ reachList g v → undirAdj g b c = true →
      c ∈ reachList g v := by
    intro b c hb hadj
    rcases List.any_eq_true.mp hadj with ⟨x, hx, hcond⟩
    rcases Bool.or_eq_true_iff.mp hcond with h1 | h1
    · rw [Bool.and_eq_true] at h1
      have hxt : x.tail = b := by simpa using h1.1
      have hxh : x.head = c := by simpa using h1.2
      rw [← hxh]
      exact hclosed x hx (by rw [hxt]; exact hb)
    · rw [Bool.and_eq_true] at h1
      have hxt : x.tail = c := by simpa using h1.1
      have hxh : x.head = b := by simpa using h1.2
      have hin := hent x hx (by rw [hxh]; exact hb)
      rw [← hxt]
      exact hin
  have hstep : ∀ u, Reaches (undirAdj g) g.verts v u → u ∈ reachList g v := by
    intro u hr
    induction hr with
    | refl => exact self_mem_reachList g v
    | tail hab hbc ih =>
      rename_i b c
      exact hundclosed b c ih hbc.1
  intro u hu
  rcases hverts : g.verts with - | ⟨v0, rest⟩
  · rw [hverts] at hu
    simp at hu
  · have hv0 : v0 ∈ g.verts := by rw [hverts]; exact List.mem_cons_self v0 rest
    rw [is_connected, hverts] at hconn
    have hall := List.all_eq_true.mp hconn
    have hreach0 : ∀ w, w ∈ v0 :: rest → Reaches (undirAdj g) g.verts v0 w := by
      intro w hw
      have hc := hall w hw
      have hmemsat : w ∈ saturate (undirAdj g) (v0 :: rest) (v0 :: rest).length [v0] := by
        simpa using hc
      rcases mem_saturate_sound (undirAdj g) (v0 :: rest) _ [v0] w hmemsat with ⟨z, hz, hrz⟩
      rw [List.mem_singleton.mp hz] at hrz
      rw [hverts]
      exact hrz
    have hu2 : u ∈ v0 :: rest := by rw [← hverts]; exact hu
    have hv2 : v ∈ v0 :: rest := by rw [← hverts]; exact hv
    have hru := hreach0 u hu2
    have hrv := hreach0 v hv2
    have hsymR : Reaches (undirAdj g) g.verts v v0 :=
      reaches_symm (undirAdj g) (fun a b hab => undirAdj_symm g a b hab)
        g.verts v0 v hv0 hrv
    exact hstep u (Relation.ReflTransGen.trans hsymR hru)

theorem deleteSelfLoops_wf (g : SGraph) (hwf : g.wf) : (deleteSelfLoops g).wf := by
  refine ⟨hwf.1, ?_⟩
  intro x hx
  exact hwf.2 x (List.mem_filter.mp hx).1

theorem eulerizeLoop_wf :
    ∀ fuel (g : SGraph) r, g.wf → eulerizeLoop fuel g = some r → r.2.wf := by
  intro fuel
  induction fuel with
  | zero => intro g r _ h; exact absurd h (by simp [eulerizeLoop])
  | succ fuel ih =>
    intro g r hwf h
    rw [eulerizeLoop] at h
    by_cases h1 : (getUnevenPair g).1 = "" ∧ (getUnevenPair g).2 = ""
    · rw [if_pos h1] at h
      cases h
      exact hwf
    · rw [if_neg h1] at h
      by_cases h2 : (getUnevenPair g).1 = "" ∨ (getUnevenPair g).2 = ""
      · rw [if_pos h2] at h
        cases h
        exact hwf
      · rw [if_neg h2] at h
        by_cases h3 : shortest_path g (getUnevenPair g).2 (getUnevenPair g).1 = []
        · rw [if_pos h3] at h
          cases h
          exact hwf
        · rw [if_neg h3] at h
          refine ih _ r ?_ h
          rcases shortest_path_spec g (getUnevenPair g).2 (getUnevenPair g).1 with
            hnil | ⟨-, hmem⟩
          · exact absurd hnil h3
          · exact duplicate_path_wf g hwf _ hmem

theorem eulerize_wf (g : SGraph) (hwf : g.wf) : (eulerize g).2.wf := by
  rw [eulerize]
  by_cases h1 : is_eulerian g ≠ Eulerian.NONE
  · rw [if_pos h1]
    exact hwf
  · rw [if_neg h1]
    by_cases h2 : is_connected g = false
    · rw [if_pos h2]
      exact hwf
    · rw [if_neg h2]
      rcases hl : eulerizeLoop (totalImbalance g + 1) g with - | r
      · exact hwf
      · simp only [Option.getD_some]
        exact eulerizeLoop_wf _ g r hwf hl

theorem ecWorking_wf (g : SGraph) (hwf : g.wf) : (ecWorking false g).wf := by
  rw [ecWorking]
  simp only [Bool.false_eq_true, if_false]
  by_cases h : is_eulerian (deleteSelfLoops g) = Eulerian.NONE
  · rw [if_pos h]
    exact eulerize_wf _ (deleteSelfLoops_wf g hwf)
  · rw [if_neg h]
    exact deleteSelfLoops_wf g hwf

theorem duplicate_path_edges (g : SGraph) (path : List Arrow) :
    ∃ E, (duplicate_path g path).edges = g.edges ++ E := by
  rcases path with - | ⟨a, rest⟩
  · exact ⟨[], by simp [duplicate_path]⟩
  rw [duplicate_path]
  by_cases hguard : a.tail ∈ g.verts ∧ ((a :: rest).getLast?.getD a).head ∈ g.verts
  · rw [if_pos hguard]
    exact ⟨_, rfl⟩
  · rw [if_neg hguard]
    exact ⟨[], by simp⟩

theorem eulerizeLoop_count_le :
    ∀ fuel (g : SGraph) r, eulerizeLoop fuel g = some r →
      ∀ x : Arrow, g.edges.count x ≤ r.2.edges.count x := by
  intro fuel
  induction fuel with
  | zero => intro g r h; exact absurd h (by simp [eulerizeLoop])
  | succ fuel ih =>
    intro g r h
    rw [eulerizeLoop] at h
    by_cases h1 : (getUnevenPair g).1 = "" ∧ (getUnevenPair g).2 = ""
    · rw [if_pos h1] at h
      cases h
      exact fun x => le_refl _
    · rw [if_neg h1] at h
      by_cases h2 : (getUnevenPair g).1 = "" ∨ (getUnevenPair g).2 = ""
      · rw [if_pos h2] at h
        cases h
        exact fun x => le_refl _
      · rw [if_neg h2] at h
        by_cases h3 : shortest_path g (getUnevenPair g).2 (getUnevenPair g).1 = []
        · rw [if_pos h3] at h
          cases h
          exact fun x => le_refl _
        · rw [if_neg h3] at h
          intro x
          have hstep1 : g.edges.count x ≤
              (duplicate_path g (shortest_path g (getUnevenPair g).2
                (getUnevenPair g).1)).edges.count x := by
            rcases duplicate_path_edges g
              (shortest_path g (getUnevenPair g).2 (getUnevenPair g).1) with ⟨E, hE⟩
            rw [hE, List.count_append]
            omega
          exact le_trans hstep1 (ih _ r h x)

theorem eulerize_count_le (g : SGraph) (x : Arrow) :
    g.edges.count x ≤ (eulerize g).2.edges.count x := by
  rw [eulerize]
  by_cases h1 : is_eulerian g ≠ Eulerian.NONE
  · rw [if_pos h1]
  · rw [if_neg h1]
    by_cases h2 : is_connected g = false
    · rw [if_pos h2]
    · rw [if_neg h2]
      rcases hl : eulerizeLoop (totalImbalance g + 1) g with - | r
      · exact le_refl _
      · simp only [Option.getD_some]
        exact eulerizeLoop_count_le _ g r hl x

theorem ecWorking_count (g : SGraph) (x : Arrow) (hns : (x.tail == x.head) = false) :
    g.edges.count x ≤ (ecWorking false g).edges.count x := by
  have hd : (deleteSelfLoops g).edges.count x = g.edges.count x := by
    show (g.edges.filter (fun a => !(a.tail == a.head))).count x = _
    exact List.count_filter (by rw [hns]; rfl)
  rw [ecWorking]
  simp only [Bool.false_eq_true, if_false]
  by_cases h : is_eulerian (deleteSelfLoops g) = Eulerian.NONE
  · rw [if_pos h]
    calc g.edges.count x = (deleteSelfLoops g).edges.count x := hd.symm
    _ ≤ _ := eulerize_count_le _ x
  · rw [if_neg h]
    exact le_of_eq hd.symm

/-- C7 (amended).  The original claim fails because `travel` (with the
default `self_circle=False`) deletes self-loops from the working copy, so a
self-loop of the input graph never appears in the walk
(`claim_C7_counterexample`).  Amended guarantee: whenever the working graph
(after self-loop removal and Eulerization) classifies as an Eulerian
CIRCUIT, `EdgeCover.travel` from any vertex of the graph returns, for every
sequence of random out-edge choices, a walk that uses every edge of the
working graph exactly once (with multiplicity), and therefore uses every
non-self-loop edge of the original input graph at least once. -/
theorem claim_C7_theorem (rand : Nat → Nat) (g : SGraph) (start : String)
    (hwf : g.wf) (hstart : start ∈ g.verts)
    (hcirc : is_eulerian (ecWorking false g) = Eulerian.CIRCUIT) :
    ∃ walk, ecTravel rand false g start = Except.ok walk ∧
      (∀ x : Arrow, (walkArrows walk).count x = (ecWorking false g).edges.count x) ∧
      (∀ x ∈ g.edges, x.tail ≠ x.head → x ∈ walkArrows walk) := by
  have hwwf : (ecWorking false g).wf := ecWorking_wf g hwf
  have hsw : start ∈ (ecWorking false g).verts := by
    rw [ecWorking_verts]
    exact hstart
  obtain ⟨hconn, hbal⟩ := is_eulerian_circuit_inv _ hcirc
  have hbalstart : almostBal (ecWorking false g) start start := by
    intro u hu
    rw [hbal u hu]
    split_ifs <;> omega
  obtain ⟨hverts, hedges, hne, hlast, hhead, htr, hcount⟩ :=
    ecDfs_spec rand ((ecWorking false g).edges.length + 1) (ecWorking false g)
      start "" start 0 hwwf hsw hsw hbalstart (le_refl _)
  have hreachall := balanced_connected_reach (ecWorking false g) hwwf hconn hbal start hsw
  have hempty : (ecWorking false g).edges.filter
      (fun x => !((reachList (ecWorking false g) start).contains x.tail)) = [] := by
    rw [List.filter_eq_nil_iff]
    intro x hx hc
    have hmemr : x.tail ∈ reachList (ecWorking false g) start :=
      hreachall x.tail (hwwf.2 x hx).1
    rw [Bool.not_eq_true'] at hc
    exact absurd hmemr (by simpa using hc)
  refine ⟨(ecDfs rand ((ecWorking false g).edges.length + 1) (ecWorking false g)
    start "" 0).1.reverse, ?_, ?_, ?_⟩
  · rw [ecTravel, if_pos hsw]
  · intro x
    have hcx := hcount x
    rw [hedges, hempty] at hcx
    simpa using hcx
  · intro x hx hns
    have hcx := hcount x
    rw [hedges, hempty] at hcx
    simp only [List.count_nil, Nat.add_zero] at hcx
    have hge : 1 ≤ g.edges.count x := by
      have := List.count_pos_iff.mpr hx
      omega
    have hle := ecWorking_count g x (beq_eq_false_iff_ne.mpr hns)
    have hpos : 0 < (walkArrows ((ecDfs rand ((ecWorking false g).edges.length + 1)
        (ecWorking false g) start "" 0).1.reverse)).count x := by
      omega
    exact List.count_pos_iff.mp hpos

/-- Two-vertex circuit used to witness C7. -/
def gC7 : SGraph := ⟨["a", "b"], [⟨"a", "b", "x"⟩, ⟨"b", "a", "y"⟩]⟩

/-- The walk `EdgeCover.travel` produces on `gC7` from `a`. -/
def wC7 : List (String × String) := [("a", ""), ("b", "x"), ("a", "y")]

/-- C7, witness: the amended claim instantiated on the two-vertex circuit
`gC7`, whose walk from `a` uses each of the two edges exactly once. -/
theorem claim_C7_witness :
    ecTravel (fun _ => 0) false gC7 "a" = Except.ok wC7 ∧
    (walkArrows wC7).count (Arrow.mk "a" "b" "x") =
      (ecWorking false gC7).edges.count (Arrow.mk "a" "b" "x") ∧
    Arrow.mk "a" "b" "x" ∈ walkArrows wC7 := by
  obtain ⟨walk, hok, hcnt, hmem⟩ :=
    claim_C7_theorem (fun _ => 0) gC7 "a" (by decide) (by decide) (by decide)
  have hconc : ecTravel (fun _ => 0) false gC7 "a" = Except.ok wC7 := by decide
  have hwalk : walk = wC7 := Except.ok.inj (hok.symm.trans hconc)
  subst hwalk
  exact ⟨hok, hcnt _, hmem _ (by decide) (by decide)⟩

/-! ### C9: `NodeCover` (`ait/strategy/node_cover.py`)

The strategy works on igraph vertex ids, so this section uses a vid-level
graph with `Nat` vertices.  The saturation machinery below mirrors the
`String` version above, specialised to `Nat`. -/

def nsatStep (adj : Nat → Nat → Bool) (vs : List Nat) (s : List Nat) :
    List Nat :=
  s ++ vs.filter (fun v => !s.contains v && s.any (fun u => adj u v))

def nsaturate (adj : Nat → Nat → Bool) (vs : List Nat) :
    Nat → List Nat → List Nat
  | 0, s => s
  | n + 1, s => nsaturate adj vs n (nsatStep adj vs s)

/-- One-step adjacency restricted to the vertex universe. -/
def NAdjRel (adj : Nat → Nat → Bool) (vs : List Nat) (u v : Nat) : Prop :=
  adj u v = true ∧ v ∈ vs

/-- Reachability generated by `NAdjRel`. -/
def NReaches (adj : Nat → Nat → Bool) (vs : List Nat) : Nat → Nat → Prop :=
  Relation.ReflTransGen (NAdjRel adj vs)

theorem subset_nsatStep (adj : Nat → Nat → Bool) (vs s : List Nat) :
    s ⊆ nsatStep adj vs s := by
  intro x hx; exact List.mem_append_left _ hx

theorem subset_nsaturate (adj : Nat → Nat → Bool) (vs : List Nat) :
    ∀ n s, s ⊆ nsaturate adj vs n s := by
  intro n
  induction n with
  | zero => intro s x hx; exact hx
  | succ n ih =>
    intro s x hx
    exact ih (nsatStep adj vs s) (subset_nsatStep adj vs s hx)

theorem mem_nsatStep_sound (adj : Nat → Nat → Bool) (vs s : List Nat)
    (v : Nat) (hv : v ∈ nsatStep adj vs s) :
    v ∈ s ∨ ∃ u ∈ s, NAdjRel adj vs u v := by
  rcases List.mem_append.mp hv with h | h
  · exact Or.inl h
  · right
    rcases List.mem_filter.mp h with ⟨hvs, hcond⟩
    rw [Bool.and_eq_true] at hcond
    rcases List.any_eq_true.mp hcond.2 with ⟨u, hu, hadj⟩
    exact ⟨u, hu, hadj, hvs⟩

theorem mem_nsaturate_sound (adj : Nat → Nat → Bool) (vs : List Nat) :
    ∀ n s v, v ∈ nsaturate adj vs n s → ∃ u ∈ s, NReaches adj vs u v := by
  intro n
  induction n with
  | zero =>
    intro s v hv; exact ⟨v, hv, Relation.ReflTransGen.refl⟩
  | succ n ih =>
    intro s v hv
    rcases ih (nsatStep adj vs s) v hv with ⟨u, hu, hr⟩
    rcases mem_nsatStep_sound adj vs s u hu with h | ⟨w, hw, hadj⟩
    · exact ⟨u, h, hr⟩
    · exact ⟨w, hw, Relation.ReflTransGen.trans (Relation.ReflTransGen.single hadj) hr⟩

/-- If one saturation step adds nothing, the set is adjacency-closed. -/
theorem closed_of_nsatStep_eq (adj : Nat → Nat → Bool) (vs s : List Nat)
    (h : nsatStep adj vs s = s) :
    ∀ u ∈ s, ∀ v ∈ vs, adj u v = true → v ∈ s := by
  intro u hu v hv hadj
  by_contra hvs
  have hfil : v ∈ vs.filter (fun v => !s.contains v && s.any (fun u => adj u v)) := by
    refine List.mem_filter.mpr ⟨hv, ?_⟩
    rw [Bool.and_eq_true]
    constructor
    · rw [Bool.not_eq_true']
      rw [Bool.eq_false_iff]
      intro hc
      exact hvs (by simpa using hc)
    · exact List.any_eq_true.mpr ⟨u, hu, hadj⟩
  have : v ∈ nsatStep adj vs s := List.mem_append_right _ hfil
  rw [h] at this
  exact hvs this

theorem nsaturate_of_nsatStep_eq (adj : Nat → Nat → Bool) (vs : List Nat)
    (n : Nat) (s : List Nat) (h : nsatStep adj vs s = s) :
    nsaturate adj vs n s = s := by
  induction n with
  | zero => rfl
  | succ n ih =>
    show nsaturate adj vs n (nsatStep adj vs s) = s
    rw [h]; exact ih

/-- Measure: vertices of the universe not yet in the set. -/
def nsatMissing (vs s : List Nat) : Nat :=
  (vs.filter (fun v => !s.contains v)).length

theorem nsatMissing_nsatStep_lt (adj : Nat → Nat → Bool) (vs s : List Nat)
    (h : nsatStep adj vs s ≠ s) :
    nsatMissing vs (nsatStep adj vs s) < nsatMissing vs s := by
  set t := vs.filter (fun v => !s.contains v && s.any (fun u => adj u v)) with ht
  have hts : nsatStep adj vs s = s ++ t := rfl
  have htne : t ≠ [] := by
    intro h0
    exact h (by rw [hts, h0, List.append_nil])
  have hsub : List.Sublist (vs.filter (fun v => !(nsatStep adj vs s).contains v))
      (vs.filter (fun v => !s.contains v)) := by
    apply List.monotone_filter_right
    intro a ha
    rw [Bool.not_eq_true', Bool.eq_false_iff] at ha ⊢
    intro hc
    apply ha
    have hmem : a ∈ s := by simpa using hc
    have : a ∈ nsatStep adj vs s := by rw [hts]; exact List.mem_append_left t hmem
    simpa using this
  rcases Nat.lt_or_eq_of_le hsub.length_le with hlt | heq
  · exact hlt
  · exfalso
    have heql := hsub.eq_of_length heq
    rcases List.exists_mem_of_ne_nil t htne with ⟨v, hvt⟩
    have hvt' := hvt
    rw [ht] at hvt'
    have hvvs : v ∈ vs := (List.mem_filter.mp hvt').1
    have hvnot : (!s.contains v) = true := by
      have := (List.mem_filter.mp hvt').2
      rw [Bool.and_eq_true] at this
      exact this.1
    have hvfil : v ∈ vs.filter (fun v => !s.contains v) :=
      List.mem_filter.mpr ⟨hvvs, hvnot⟩
    rw [← heql] at hvfil
    have hvno := (List.mem_filter.mp hvfil).2
    rw [Bool.not_eq_true', Bool.eq_false_iff] at hvno
    apply hvno
    have : v ∈ nsatStep adj vs s := by
      rw [hts]; exact List.mem_append_right s hvt
    simpa using this

/-- With fuel at least the number of missing universe vertices, saturation
reaches a fixpoint. -/
theorem nsatStep_nsaturate_eq (adj : Nat → Nat → Bool) (vs : List Nat) :
    ∀ n s, nsatMissing vs s ≤ n →
      nsatStep adj vs (nsaturate adj vs n s) = nsaturate adj vs n s := by
  intro n
  induction n with
  | zero =>
    intro s hs
    have h0 : nsatMissing vs s = 0 := Nat.le_zero.mp hs
    have hfe : vs.filter (fun v => !s.contains v) = [] :=
      List.eq_nil_of_length_eq_zero h0
    show nsatStep adj vs s = s
    have hnil : vs.filter (fun v => !s.contains v && s.any (fun u => adj u v)) = [] := by
      have hsub : List.Sublist
          (vs.filter (fun v => !s.contains v && s.any (fun u => adj u v)))
          (vs.filter (fun v => !s.contains v)) := by
        apply List.monotone_filter_right
        intro a ha
        rw [Bool.and_eq_true] at ha
        exact ha.1
      rw [hfe] at hsub
      exact List.sublist_nil.mp hsub
    rw [nsatStep, hnil, List.append_nil]
  | succ n ih =>
    intro s hs
    by_cases hfix : nsatStep adj vs s = s
    · rw [nsaturate, nsaturate_of_nsatStep_eq adj vs n _ (by rw [hfix]; exact hfix)]
      rw [hfix]; exact hfix
    · have hlt := nsatMissing_nsatStep_lt adj vs s hfix
      have : nsatMissing vs (nsatStep adj vs s) ≤ n := by omega
      exact ih (nsatStep adj vs s) this

/-- Completeness: a nsaturated set with enough fuel contains everything
reachable from the seed. -/
theorem mem_nsaturate_complete (adj : Nat → Nat → Bool) (vs : List Nat)
    (n : Nat) (s : List Nat) (hn : nsatMissing vs s ≤ n)
    (u v : Nat) (hu : u ∈ s) (hr : NReaches adj vs u v) :
    v ∈ nsaturate adj vs n s := by
  have hclosed := closed_of_nsatStep_eq adj vs _ (nsatStep_nsaturate_eq adj vs n s hn)
  induction hr with
  | refl => exact subset_nsaturate adj vs n s hu
  | tail _ hstep ih =>
    rcases hstep with ⟨hadj, hmem⟩
    exact hclosed _ ih _ hmem hadj

theorem nsatMissing_le_length (vs s : List Nat) : nsatMissing vs s ≤ vs.length :=
  List.length_filter_le _ vs

theorem nsaturate_subset_union (adj : Nat → Nat → Bool) (vs : List Nat) :
    ∀ n s x, x ∈ nsaturate adj vs n s → x ∈ s ∨ x ∈ vs := by
  intro n
  induction n with
  | zero => intro s x hx; exact Or.inl hx
  | succ n ih =>
    intro s x hx
    rcases ih (nsatStep adj vs s) x hx with h | h
    · rcases List.mem_append.mp h with h2 | h2
      · exact Or.inl h2
      · exact Or.inr (List.mem_filter.mp h2).1
    · exact Or.inr h


/-- vid-level working graph of `NodeCover`: `n` vertices `0..n-1`; parallel
edges appear as duplicate pairs (edge ids are list positions; edge names
carry no control flow for this strategy and are omitted). -/
structure NGraph where
  n : Nat
  edges : List (Nat × Nat)
deriving DecidableEq, Repr

def NGraph.wf (g : NGraph) : Prop :=
  ∀ e ∈ g.edges, e.1 < g.n ∧ e.2 < g.n

instance (g : NGraph) : Decidable g.wf := by
  unfold NGraph.wf; infer_instance

/-- Directed vid adjacency: at least one edge from `u` to `w`. -/
def nadjF (g : NGraph) : Nat → Nat → Bool :=
  fun u w => g.edges.contains (u, w)

/-- Executable set of vids reachable from `v` along directed edges. -/
def nreachList (g : NGraph) (v : Nat) : List Nat :=
  nsaturate (nadjF g) (List.range g.n) (List.range g.n).length [v]

/-- Neighbors of `v`, in edge-id order, deduplicated (igraph enumerates
vertex-distinct simple paths). -/
def nbrs (es : List (Nat × Nat)) (v : Nat) : List Nat :=
  ((es.filter (fun e => e.1 == v)).map (fun e => e.2)).dedup

/-- DFS enumeration of all simple paths starting at `v` with the vertices
of `pre` excluded (igraph `get_all_simple_paths` before the `to=` filter).
Every prefix is itself emitted, matching igraph, which emits a path for
every target it reaches (including the trivial path `[v]`). -/
def spAux (es : List (Nat × Nat)) : Nat → List Nat → Nat → List (List Nat)
  | 0, pre, v => [pre ++ [v]]
  | fuel + 1, pre, v =>
    (pre ++ [v]) ::
      ((nbrs es v).filter (fun w => !((pre ++ [v]).contains w))).flatMap
        (fun w => spAux es fuel (pre ++ [v]) w)

/-- `igraph.Graph.get_all_simple_paths(v, to=toSet)`. -/
def get_all_simple_paths (g : NGraph) (v : Nat) (toSet : List Nat) :
    List (List Nat) :=
  (spAux g.edges g.n [] v).filter (fun p =>
    match p.getLast? with
    | some w => toSet.contains w
    | none => false)

/-- `sorted(paths, key=len)` (a stable sort by length). -/
def sortByLen (ps : List (List Nat)) : List (List Nat) :=
  List.insertionSort (fun p q => p.length ≤ q.length) ps

/-- Ordered-dict lookup with `Nat` keys (`_simple_paths_cache`). -/
def alookupN {α : Type} : List (Nat × α) → Nat → Option α
  | [], _ => none
  | (k, v) :: rest, key => if k == key then some v else alookupN rest key

/-- Ordered-dict update with `Nat` keys. -/
def asetN {α : Type} : List (Nat × α) → Nat → α → List (Nat × α)
  | [], key, x => [(key, x)]
  | (k, v) :: rest, key, x =>
    if k == key then (k, x) :: rest else (k, v) :: asetN rest key x

/-- Mutable state of a `NodeCover` run: the deep-copied working graph, the
unvisited vid set, `_current_vid` and the simple-path cache.  The `_paths`
arrow recording is omitted: it never influences control flow apart from
the early return of `_update_path`, which is modeled. -/
structure NCState where
  graph : NGraph
  unvisited : List Nat
  current : Int
  cache : List (Nat × List (List Nat))

/-- `NodeCover._get_simple_paths`: serve from the cache, else enumerate
(with `to=` the unvisited set at call time), sort by length and cache. -/
def getSimplePaths (st : NCState) (vid : Nat) : NCState × List (List Nat) :=
  match alookupN st.cache vid with
  | some ps => (st, ps)
  | none =>
    let ps := sortByLen (get_all_simple_paths st.graph vid st.unvisited)
    ({ st with cache := asetN st.cache vid ps }, ps)

/-- `self._graph.es.select(_from=s, _to=t)`. -/
def selectEdges (es : List (Nat × Nat)) (s t : Nat) : List (Nat × Nat) :=
  es.filter (fun e => e.1 == s && e.2 == t)

/-- The edge loop of `_update_path`: walk consecutive pairs, return `false`
on a missing edge (the early `return`), and delete the first matching edge
when the pair has parallel edges. -/
def updateSteps : List (Nat × Nat) → List Nat → List (Nat × Nat) × Bool
  | es, [] => (es, true)
  | es, [_] => (es, true)
  | es, s :: t :: rest =>
    let sel := selectEdges es s t
    if sel.isEmpty then (es, false)
    else
      let es2 := if 1 < sel.length then es.erase (s, t) else es
      updateSteps es2 (t :: rest)

/-- `NodeCover._update_path`: ignore paths shorter than 2, subtract the
path from the unvisited set, run the edge loop, and set `_current_vid` to
the path end only if the loop completed. -/
def update_path (st : NCState) (path : List Nat) : NCState :=
  if path.length < 2 then st
  else
    let unv := st.unvisited.filter (fun v => !path.contains v)
    let r := updateSteps st.graph.edges path
    if r.2 then
      ⟨⟨st.graph.n, r.1⟩, unv, ((path.getLast?.getD 0 : Nat) : Int), st.cache⟩
    else
      ⟨⟨st.graph.n, r.1⟩, unv, st.current, st.cache⟩

/-- `CandidatePath` (coverage plus vid sequence). -/
structure CandV where
  coverage : Int
  path : List Nat
deriving DecidableEq, Repr

def cvLength (c : CandV) : Int :=
  if c.path.isEmpty then -1 else (c.path.length : Int)

def cvValid (c : CandV) : Bool := decide (1 ≤ cvLength c)

/-- `CandidatePath.__gt__`. -/
def cvGT (a b : CandV) : Bool :=
  if cvValid a && cvValid b then
    if a.coverage == b.coverage then decide (cvLength a < cvLength b)
    else decide (b.coverage < a.coverage)
  else cvValid a

/-- Number of unvisited vids covered by a path. -/
def covOf (unvisited : List Nat) (p : List Nat) : Nat :=
  (unvisited.filter (fun v => p.contains v)).length

/-- The scanning loop of `_elect`: keep the first strict improvement in
coverage, breaking early on full coverage. -/
def electScan (unvisited : List Nat) (total : Nat) :
    List (List Nat) → Int → List Nat → Int × List Nat
  | [], cov, tmp => (cov, tmp)
  | p :: rest, cov, tmp =>
    let covered := covOf unvisited p
    let cov2 := if cov < (covered : Int) then (covered : Int) else cov
    let tmp2 := if cov < (covered : Int) then p else tmp
    if covered == total then (cov2, tmp2)
    else electScan unvisited total rest cov2 tmp2

/-- `NodeCover._elect` on a cache row: returns the destructively filtered
row together with the candidate. -/
def elect (unvisited : List Nat) (paths : List (List Nat)) :
    List (List Nat) × CandV :=
  if unvisited.length == 0 then (paths, ⟨-1, []⟩)
  else if paths.isEmpty then (paths, ⟨-1, []⟩)
  else
    let filtered := paths.filter
      (fun p => !((unvisited.filter (fun v => p.contains v)).isEmpty))
    let r := electScan unvisited unvisited.length filtered (-1) []
    (filtered, ⟨r.1, r.2⟩)

/-- Tail of `_choose_path`: give up when neither candidate is valid, else
apply and return the winner (the current-vertex candidate wins ties). -/
def finishChoose (st : NCState) (c1 c2 : CandV) : NCState × List Nat :=
  if cvValid c1 = false ∧ cvValid c2 = false then (st, [])
  else
    let winner := if cvGT c1 c2 then c1 else c2
    (update_path st winner.path, winner.path)

/-- `NodeCover._choose_path`: elect from the start vertex, and from the
current vertex when it differs from both `-1` and the start; a missing
cache row for the start vertex would be a `KeyError`. -/
def choose_path (st : NCState) (startVid : Nat) :
    Except PyErr (NCState × List Nat) :=
  match alookupN st.cache startVid with
  | none => Except.error PyErr.KeyErr
  | some paths1 =>
    let r1 := elect st.unvisited paths1
    let st1 : NCState := { st with cache := asetN st.cache startVid r1.1 }
    if st1.current ≠ -1 ∧ st1.current ≠ (startVid : Int) then
      let cur : Nat := st1.current.toNat
      let r0 := getSimplePaths st1 cur
      let r2 := elect r0.1.unvisited r0.2
      let st3 : NCState := { r0.1 with cache := asetN r0.1.cache cur r2.1 }
      Except.ok (finishChoose st3 r1.2 r2.2)
    else Except.ok (finishChoose st1 r1.2 ⟨-1, []⟩)

/-- The `while` loop of `NodeCover.travel`, with fuel (`none` models fuel
exhaustion and is proved unreachable for sufficient fuel). -/
def ncLoop (startVid : Nat) : Nat → NCState → List Nat →
    Option (Except PyErr NCState)
  | 0, _, _ => none
  | fuel + 1, st, path =>
    if st.unvisited.isEmpty || path.isEmpty then some (Except.ok st)
    else
      let left := st.unvisited.length
      match choose_path st startVid with
      | Except.error e => some (Except.error e)
      | Except.ok (st2, path2) =>
        if path2.isEmpty || left == st2.unvisited.length then
          some (Except.ok st2)
        else ncLoop startVid fuel st2 path2

/-- `NodeCover.travel` with an integer start vid: deep-copy, mark all vids
unvisited, take the longest simple path from the start (`paths[-1]` is an
`IndexError` on an empty list), apply it, and loop. -/
def nc_travel (g : NGraph) (startVid : Nat) : Except PyErr NCState :=
  let st0 : NCState := ⟨g, List.range g.n, -1, []⟩
  let r0 := getSimplePaths st0 startVid
  match (r0.2).getLast? with
  | none => Except.error PyErr.IndexErr
  | some path0 =>
    let st2 := update_path r0.1 path0
    match ncLoop startVid (g.n + 1) st2 path0 with
    | some r => r
    | none => Except.error PyErr.ValueErr

/-- Two vids with the single edge `1 → 0`; start at `0`. -/
def gC9x : NGraph := ⟨2, [(1, 0)]⟩

/-- C9, counterexample.  On `gC9x` from vid `0`, the longest simple path
from the start is the trivial `[0]`, which `_update_path` ignores, so the
start itself is never removed from the unvisited set; `travel` returns
with `unvisited = {0, 1}` although vid `0` is trivially reachable from
itself, refuting the claimed equality with the unreachable set. -/
theorem claim_C9_counterexample :
    (match nc_travel gC9x 0 with
     | Except.ok st => st.unvisited
     | Except.error _ => []) = [0, 1] ∧
    0 ∈ nreachList gC9x 0 := by decide

theorem mem_nreachList_iff (g : NGraph) (v u : Nat) :
    u ∈ nreachList g v ↔ NReaches (nadjF g) (List.range g.n) v u := by
  constructor
  · intro h
    rcases mem_nsaturate_sound (nadjF g) (List.range g.n) (List.range g.n).length
      [v] u h with ⟨w, hw, hr⟩
    rw [List.mem_singleton.mp hw] at hr
    exact hr
  · intro h
    exact mem_nsaturate_complete (nadjF g) (List.range g.n) (List.range g.n).length
      [v] (nsatMissing_le_length _ [v]) v u (List.mem_singleton.mpr rfl) h

theorem self_mem_nreachList (g : NGraph) (v : Nat) : v ∈ nreachList g v :=
  subset_nsaturate (nadjF g) (List.range g.n) (List.range g.n).length [v]
    (List.mem_singleton.mpr rfl)

theorem nreachList_closed (g : NGraph) (v : Nat) (e : Nat × Nat)
    (he : e ∈ g.edges) (hhead : e.2 < g.n)
    (htail : e.1 ∈ nreachList g v) : e.2 ∈ nreachList g v := by
  have hstep := closed_of_nsatStep_eq (nadjF g) (List.range g.n) _
    (nsatStep_nsaturate_eq (nadjF g) (List.range g.n) (List.range g.n).length [v]
      (nsatMissing_le_length _ [v]))
  refine hstep e.1 htail e.2 (List.mem_range.mpr hhead) ?_
  show g.edges.contains (e.1, e.2) = true
  simpa using he

theorem nreachList_subset (g : NGraph) (v : Nat) (hv : v < g.n) :
    ∀ u ∈ nreachList g v, u < g.n := by
  intro u hu
  rcases nsaturate_subset_union (nadjF g) (List.range g.n) (List.range g.n).length
    [v] u hu with h | h
  · rw [List.mem_singleton.mp h]
    exact hv
  · exact List.mem_range.mp h

theorem nreach_trans (g : NGraph) (v u w : Nat) (hu : u ∈ nreachList g v)
    (hw : w ∈ nreachList g u) : w ∈ nreachList g v := by
  rw [mem_nreachList_iff] at hu hw ⊢
  exact Relation.ReflTransGen.trans hu hw

theorem alookupN_nil {α : Type} (k : Nat) :
    alookupN ([] : List (Nat × α)) k = none := rfl

theorem alookupN_cons {α : Type} (pk : Nat) (pv : α) (rest : List (Nat × α))
    (k : Nat) :
    alookupN ((pk, pv) :: rest) k = if pk == k then some pv else alookupN rest k :=
  rfl

theorem asetN_nil {α : Type} (k : Nat) (x : α) :
    asetN ([] : List (Nat × α)) k x = [(k, x)] := rfl

theorem asetN_cons {α : Type} (pk : Nat) (pv : α) (rest : List (Nat × α))
    (k : Nat) (x : α) :
    asetN ((pk, pv) :: rest) k x =
      if pk == k then (pk, x) :: rest else (pk, pv) :: asetN rest k x := rfl

theorem alookupN_asetN {α : Type} :
    ∀ (l : List (Nat × α)) (k k' : Nat) (x : α),
      alookupN (asetN l k x) k' = if k' = k then some x else alookupN l k' := by
  intro l
  induction l with
  | nil =>
    intro k k' x
    rw [asetN_nil, alookupN_cons, alookupN_nil]
    by_cases h : k' = k
    · rw [if_pos h, if_pos (show (k == k') = true by simpa using h.symm)]
    · rw [if_neg h, if_neg (show ¬((k == k') = true) by
        simpa using fun hc => h hc.symm)]
  | cons p rest ih =>
    intro k k' x
    rcases p with ⟨pk, pv⟩
    rw [asetN_cons]
    by_cases hpk : pk = k
    · rw [if_pos (show (pk == k) = true by simpa using hpk), alookupN_cons,
        alookupN_cons]
      by_cases h : k' = k
      · rw [if_pos h, if_pos (show (pk == k') = true by
          simpa using (hpk.trans h.symm))]
      · have hne : ¬((pk == k') = true) := by
          simp only [beq_iff_eq]
          intro hc
          exact h (hc ▸ hpk)
        rw [if_neg h, if_neg hne, if_neg hne]
    · rw [if_neg (show ¬((pk == k) = true) by simpa using hpk), alookupN_cons,
        alookupN_cons]
      by_cases hk : pk = k'
      · have hkk : ¬(k' = k) := fun hc => hpk (hk.trans hc)
        have hbe : (pk == k') = true := by simpa using hk
        rw [if_pos hbe, if_neg hkk, if_pos hbe]
      · have hbe : ¬((pk == k') = true) := by simpa using hk
        rw [if_neg hbe, ih, if_neg hbe]

/-- Consecutive vids of the path are joined by an edge. -/
def isNChain (es : List (Nat × Nat)) : List Nat → Bool
  | [] => true
  | [_] => true
  | a :: b :: rest => es.contains (a, b) && isNChain es (b :: rest)

theorem isNChain_congr (es1 es2 : List (Nat × Nat))
    (h : ∀ e : Nat × Nat, e ∈ es1 ↔ e ∈ es2) :
    ∀ p, isNChain es1 p = isNChain es2 p := by
  intro p
  induction p with
  | nil => rfl
  | cons a rest ih =>
    rcases rest with - | ⟨b, rest2⟩
    · rfl
    · rw [isNChain, isNChain, ih]
      by_cases hm : (a, b) ∈ es1
      · rw [show es1.contains (a, b) = true by simpa using hm,
          show es2.contains (a, b) = true by simpa using (h (a, b)).mp hm]
      · rw [show es1.contains (a, b) = false by simpa using hm,
          show es2.contains (a, b) = false by
            simpa using fun hc => hm ((h (a, b)).mpr hc)]

theorem isNChain_cons (es : List (Nat × Nat)) (a b : Nat) (rest : List Nat)
    (h : isNChain es (a :: b :: rest) = true) :
    (a, b) ∈ es ∧ isNChain es (b :: rest) = true := by
  rw [isNChain, Bool.and_eq_true] at h
  exact ⟨by simpa using h.1, h.2⟩

theorem chain_mem_reach (g : NGraph) (hwf : g.wf) :
    ∀ (suf : List Nat) (v : Nat), v < g.n →
      isNChain g.edges (v :: suf) = true →
      ∀ w ∈ v :: suf, w ∈ nreachList g v := by
  intro suf
  induction suf with
  | nil =>
    intro v _ _ w hw
    rw [List.mem_singleton.mp hw]
    exact self_mem_nreachList g v
  | cons b rest ih =>
    intro v hv hchain w hw
    rcases isNChain_cons g.edges v b rest hchain with ⟨hedge, hchain2⟩
    have hbn : b < g.n := (hwf (v, b) hedge).2
    have hbreach : b ∈ nreachList g v :=
      nreachList_closed g v (v, b) hedge hbn (self_mem_nreachList g v)
    rcases List.mem_cons.mp hw with h | h
    · rw [h]
      exact self_mem_nreachList g v
    · exact nreach_trans g v b w hbreach (ih b hbn hchain2 w h)

theorem chain_prefix (es : List (Nat × Nat)) :
    ∀ (l1 : List Nat) (x : Nat) (l2 : List Nat),
      isNChain es (l1 ++ x :: l2) = true → isNChain es (l1 ++ [x]) = true := by
  intro l1
  induction l1 with
  | nil => intro x l2 _; rfl
  | cons a l1 ih =>
    intro x l2 h
    rcases l1 with - | ⟨b, l1t⟩
    · rcases isNChain_cons es a x l2 h with ⟨he, -⟩
      show (es.contains (a, x) && isNChain es [x]) = true
      rw [Bool.and_eq_true]
      exact ⟨by simpa using he, rfl⟩
    · rcases isNChain_cons es a b (l1t ++ x :: l2) h with ⟨he, h2⟩
      have := ih x l2 h2
      show isNChain es (a :: b :: (l1t ++ [x])) = true
      rw [isNChain]
      rw [Bool.and_eq_true]
      exact ⟨by simpa using he, this⟩

theorem chain_snoc (es : List (Nat × Nat)) :
    ∀ (p : List Nat) (b c : Nat), isNChain es p = true →
      p.getLast? = some b → (b, c) ∈ es → isNChain es (p ++ [c]) = true := by
  intro p
  induction p with
  | nil => intro b c _ hl _; exact absurd hl (by simp)
  | cons a rest ih =>
    intro b c hchain hlast hedge
    rcases rest with - | ⟨d, rest2⟩
    · have hab : a = b := by simpa using hlast
      subst hab
      show (es.contains (a, c) && isNChain es [c]) = true
      rw [Bool.and_eq_true]
      exact ⟨by simpa using hedge, rfl⟩
    · rcases isNChain_cons es a d rest2 hchain with ⟨he, h2⟩
      have hlast2 : (d :: rest2).getLast? = some b := by
        rw [← hlast, List.getLast?_cons_cons]
      have := ih b c h2 hlast2 hedge
      show isNChain es (a :: d :: (rest2 ++ [c])) = true
      rw [isNChain]
      rw [Bool.and_eq_true]
      exact ⟨by simpa using he, this⟩

theorem spAux_sound (es : List (Nat × Nat)) :
    ∀ (fuel : Nat) (pre : List Nat) (v : Nat) (p : List Nat),
      p ∈ spAux es fuel pre v →
      ∃ suf, p = pre ++ v :: suf ∧ isNChain es (v :: suf) = true := by
  intro fuel
  induction fuel with
  | zero =>
    intro pre v p hp
    exact ⟨[], by simpa [spAux] using hp, rfl⟩
  | succ fuel ih =>
    intro pre v p hp
    rw [spAux] at hp
    rcases List.mem_cons.mp hp with h | h
    · exact ⟨[], by simpa using h, rfl⟩
    · rcases List.mem_flatMap.mp h with ⟨w, hw, hpw⟩
      rcases ih (pre ++ [v]) w p hpw with ⟨suf, hps, hchain⟩
      have hwnb : w ∈ nbrs es v := (List.mem_filter.mp hw).1
      have hedge : (v, w) ∈ es := by
        rcases List.mem_map.mp (List.mem_dedup.mp hwnb) with ⟨e, he, hew⟩
        rcases List.mem_filter.mp he with ⟨hees, hcond⟩
        have he1 : e.1 = v := by simpa using hcond
        have hevw : e = (v, w) := by
          rcases e with ⟨e1, e2⟩
          simp only at he1 hew
          rw [he1, hew]
        rw [← hevw]
        exact hees
      refine ⟨w :: suf, ?_, ?_⟩
      · rw [hps]
        simp
      · show (es.contains (v, w) && isNChain es (w :: suf)) = true
        rw [Bool.and_eq_true]
        exact ⟨by simpa using hedge, hchain⟩

theorem spAux_complete (es : List (Nat × Nat)) :
    ∀ (fuel : Nat) (suf : List Nat) (pre : List Nat) (v : Nat),
      isNChain es (v :: suf) = true → (pre ++ v :: suf).Nodup →
      suf.length ≤ fuel → (pre ++ v :: suf) ∈ spAux es fuel pre v := by
  intro fuel
  induction fuel with
  | zero =>
    intro suf pre v hchain hnd hlen
    have hsuf : suf = [] := List.eq_nil_of_length_eq_zero (Nat.le_zero.mp hlen)
    subst hsuf
    simp [spAux]
  | succ fuel ih =>
    intro suf pre v hchain hnd hlen
    rcases suf with - | ⟨w, suf2⟩
    · rw [spAux]
      exact List.mem_cons_self _ _
    · rcases isNChain_cons es v w suf2 hchain with ⟨hedge, hchain2⟩
      rw [spAux]
      refine List.mem_cons_of_mem _ (List.mem_flatMap.mpr ⟨w, ?_, ?_⟩)
      · refine List.mem_filter.mpr ⟨?_, ?_⟩
        · refine List.mem_dedup.mpr (List.mem_map.mpr ⟨(v, w), ?_, rfl⟩)
          exact List.mem_filter.mpr ⟨hedge, by simp⟩
        · have hw1 : w ∉ pre := by
            rcases List.nodup_append.mp hnd with ⟨-, -, hdisj⟩
            intro hc
            exact hdisj hc (by simp)
          have hw2 : w ≠ v := by
            have h2 : (v :: w :: suf2).Nodup := (List.nodup_append.mp hnd).2.1
            rcases List.nodup_cons.mp h2 with ⟨hvn, -⟩
            intro hc
            apply hvn
            rw [← hc]
            exact List.mem_cons_self w suf2
          have hnm : w ∉ pre ++ [v] := by
            intro hc
            rcases List.mem_append.mp hc with h | h
            · exact hw1 h
            · exact hw2 (List.mem_singleton.mp h)
          simpa using hnm
      · have hre : pre ++ v :: w :: suf2 = (pre ++ [v]) ++ w :: suf2 := by simp
        rw [hre]
        refine ih suf2 (pre ++ [v]) w hchain2 ?_ (by simpa using hlen)
        rw [← hre]
        exact hnd

theorem mem_sortByLen (p : List Nat) (ps : List (List Nat)) :
    p ∈ sortByLen ps ↔ p ∈ ps :=
  (List.perm_insertionSort _ ps).mem_iff

theorem sortByLen_sorted (ps : List (List Nat)) :
    (sortByLen ps).Pairwise (fun p q => p.length ≤ q.length) := by
  haveI htot : IsTotal (List Nat) (fun p q => p.length ≤ q.length) :=
    ⟨fun p q => Nat.le_total p.length q.length⟩
  haveI htrans : IsTrans (List Nat) (fun p q => p.length ≤ q.length) :=
    ⟨fun _ _ _ hab hbc => le_trans hab hbc⟩
  exact List.sorted_insertionSort _ ps

theorem getLast?_mem_list {α : Type} :
    ∀ (l : List α) (a : α), l.getLast? = some a → a ∈ l := by
  intro l
  induction l with
  | nil => intro a ha; exact absurd ha (by simp)
  | cons x rest ih =>
    intro a ha
    rcases rest with - | ⟨y, rest2⟩
    · have : x = a := by simpa using ha
      rw [this]
      exact List.mem_cons_self a []
    · have h2 : (y :: rest2).getLast? = some a := by
        rw [← ha, List.getLast?_cons_cons]
      exact List.mem_cons_of_mem x (ih a h2)

theorem pairwise_getLast_ge :
    ∀ (l : List (List Nat)), l.Pairwise (fun p q => p.length ≤ q.length) →
      ∀ p, l.getLast? = some p → ∀ q ∈ l, q.length ≤ p.length := by
  intro l
  induction l with
  | nil => intro _ p hp; exact absurd hp (by simp)
  | cons x rest ih =>
    intro hpw p hp q hq
    rcases rest with - | ⟨y, rest2⟩
    · have hxp : x = p := by simpa using hp
      have hqx : q = x := List.mem_singleton.mp hq
      rw [hqx, hxp]
    · have hp2 : (y :: rest2).getLast? = some p := by
        rw [← hp, List.getLast?_cons_cons]
      rcases List.pairwise_cons.mp hpw with ⟨hx, hpw2⟩
      rcases List.mem_cons.mp hq with h | h
      · rw [h]
        exact hx p (getLast?_mem_list _ p hp2)
      · exact ih hpw2 p hp2 q h

theorem nodup_lt_length_le (l : List Nat) (n : Nat) (hnd : l.Nodup)
    (hlt : ∀ x ∈ l, x < n) : l.length ≤ n := by
  have hsub : l ⊆ List.range n := fun x hx => List.mem_range.mpr (hlt x hx)
  have hle := (List.subperm_of_subset hnd hsub).length_le
  simpa using hle

/-- Every reachable vid is the endpoint of a duplicate-free chain from the
start, so igraph's simple-path enumeration reaches it. -/
theorem nreach_chain (g : NGraph) (v : Nat) :
    ∀ w ∈ nreachList g v, ∃ suf, isNChain g.edges (v :: suf) = true ∧
      (v :: suf).Nodup ∧ (v :: suf).getLast? = some w := by
  intro w hw
  rw [mem_nreachList_iff] at hw
  induction hw with
  | refl => exact ⟨[], rfl, List.nodup_singleton v, rfl⟩
  | tail hab hbc ih =>
    rename_i b c
    rcases ih with ⟨suf, hchain, hnd, hlast⟩
    rcases hbc with ⟨hadj, hcr⟩
    have hedge : (b, c) ∈ g.edges := by simpa [nadjF] using hadj
    by_cases hcmem : c ∈ v :: suf
    · rcases List.append_of_mem hcmem with ⟨s, t, hst⟩
      have hchain2 : isNChain g.edges (s ++ [c]) = true := by
        have hh := hchain
        rw [hst] at hh
        exact chain_prefix g.edges s c t hh
      have hnd2 : (s ++ [c]).Nodup := by
        have hsub : List.Sublist (s ++ [c]) (s ++ c :: t) :=
          (List.append_sublist_append_left s).mpr
            (List.Sublist.cons₂ c (List.nil_sublist t))
        have hh := hnd
        rw [hst] at hh
        exact hh.sublist hsub
      rcases s with - | ⟨s0, st⟩
      · have hcv : c = v := by
          have hh := hst
          simp only [List.nil_append] at hh
          exact (List.cons.inj hh).1.symm
        exact ⟨[], rfl, List.nodup_singleton v, by simp [hcv]⟩
      · have hs0 : s0 = v := by
          have hh := hst
          rw [List.cons_append] at hh
          exact (List.cons.inj hh).1.symm
        refine ⟨st ++ [c], ?_, ?_, ?_⟩
        · have hh := hchain2
          rw [List.cons_append, hs0] at hh
          exact hh
        · have hh := hnd2
          rw [List.cons_append, hs0] at hh
          exact hh
        · have hh : ((s0 :: st) ++ [c]).getLast? = some c := List.getLast?_concat _
          rw [List.cons_append, hs0] at hh
          exact hh
    · refine ⟨suf ++ [c], ?_, ?_, ?_⟩
      · have hh := chain_snoc g.edges (v :: suf) b c hchain hlast hedge
        simpa using hh
      · have hh : ((v :: suf) ++ [c]).Nodup := by
          rw [List.nodup_append]
          refine ⟨hnd, List.nodup_singleton c, ?_⟩
          intro a ha hca
          rw [List.mem_singleton.mp hca] at ha
          exact hcmem ha
        simpa using hh
      · have hh : ((v :: suf) ++ [c]).getLast? = some c := List.getLast?_concat _
        simpa using hh

theorem sel_mem (es : List (Nat × Nat)) (s t : Nat) (y : Nat × Nat)
    (hy : y ∈ selectEdges es s t) : y = (s, t) ∧ y ∈ es := by
  rcases List.mem_filter.mp hy with ⟨hmem, hcond⟩
  rw [Bool.and_eq_true] at hcond
  have h1 : y.1 = s := by simpa using hcond.1
  have h2 : y.2 = t := by simpa using hcond.2
  refine ⟨?_, hmem⟩
  rcases y with ⟨a, b⟩
  simp only at h1 h2
  rw [h1, h2]

theorem sel_pair_mem_erase (s t : Nat) :
    ∀ (es : List (Nat × Nat)), 1 < (selectEdges es s t).length →
      (s, t) ∈ es.erase (s, t) := by
  intro es
  induction es with
  | nil => intro h; simp [selectEdges] at h
  | cons x es ih =>
    intro h
    by_cases hx : x = (s, t)
    · subst hx
      rw [List.erase_cons_head]
      have hsel : selectEdges ((s, t) :: es) s t = (s, t) :: selectEdges es s t := by
        rw [selectEdges, List.filter_cons, if_pos (by simp)]
        rfl
      rw [hsel, List.length_cons] at h
      have hne : selectEdges es s t ≠ [] := by
        intro hc
        rw [hc] at h
        simp at h
      rcases List.exists_mem_of_ne_nil _ hne with ⟨y, hy⟩
      rcases sel_mem es s t y hy with ⟨hy1, hy2⟩
      rw [← hy1]
      exact hy2
    · rw [List.erase_cons_tail (by simpa using hx)]
      have hsel : selectEdges (x :: es) s t = selectEdges es s t := by
        rw [selectEdges, List.filter_cons, if_neg ?hcond]
        · rfl
        · rw [Bool.and_eq_true]
          rintro ⟨h1, h2⟩
          apply hx
          rcases x with ⟨a, b⟩
          have ha : a = s := by simpa using h1
          have hb : b = t := by simpa using h2
          rw [ha, hb]
      rw [hsel] at h
      exact List.mem_cons_of_mem x (ih h)

theorem erase_keep_mem (es : List (Nat × Nat)) (s t : Nat)
    (hlen : 1 < (selectEdges es s t).length) :
    ∀ e : Nat × Nat, e ∈ es.erase (s, t) ↔ e ∈ es := by
  intro e
  constructor
  · exact List.mem_of_mem_erase
  · intro he
    by_cases hest : e = (s, t)
    · subst hest
      exact sel_pair_mem_erase s t es hlen
    · exact (List.mem_erase_of_ne hest).mpr he

theorem updateSteps_mem :
    ∀ (path : List Nat) (es : List (Nat × Nat)) (e : Nat × Nat),
      e ∈ (updateSteps es path).1 ↔ e ∈ es := by
  intro path
  induction path with
  | nil => intro es e; exact Iff.rfl
  | cons s rest ih =>
    intro es e
    rcases rest with - | ⟨t, rest2⟩
    · exact Iff.rfl
    · simp only [updateSteps]
      by_cases hsel : (selectEdges es s t).isEmpty = true
      · rw [if_pos hsel]
      · rw [if_neg hsel]
        by_cases hlen : 1 < (selectEdges es s t).length
        · rw [if_pos hlen]
          exact (ih _ e).trans (erase_keep_mem es s t hlen e)
        · rw [if_neg hlen]
          exact ih es e

theorem updateSteps_complete :
    ∀ (path : List Nat) (es : List (Nat × Nat)),
      isNChain es path = true → (updateSteps es path).2 = true := by
  intro path
  induction path with
  | nil => intro es _; rfl
  | cons s rest ih =>
    intro es hchain
    rcases rest with - | ⟨t, rest2⟩
    · rfl
    · rcases isNChain_cons es s t rest2 hchain with ⟨hedge, hchain2⟩
      have hselne : ¬((selectEdges es s t).isEmpty = true) := by
        have hmm : (s, t) ∈ selectEdges es s t :=
          List.mem_filter.mpr ⟨hedge, by simp⟩
        intro hc
        rw [List.isEmpty_iff] at hc
        rw [hc] at hmm
        simp at hmm
      simp only [updateSteps]
      rw [if_neg hselne]
      by_cases hlen : 1 < (selectEdges es s t).length
      · rw [if_pos hlen]
        refine ih (es.erase (s, t)) ?_
        rw [isNChain_congr _ es (erase_keep_mem es s t hlen)]
        exact hchain2
      · rw [if_neg hlen]
        exact ih es hchain2

theorem electScan_tmp (u : List Nat) (total : Nat) :
    ∀ (l : List (List Nat)) (cov : Int) (tmp : List Nat),
      (electScan u total l cov tmp).2 = tmp ∨ (electScan u total l cov tmp).2 ∈ l := by
  intro l
  induction l with
  | nil => intro cov tmp; exact Or.inl rfl
  | cons p rest ih =>
    intro cov tmp
    simp only [electScan]
    by_cases hcv : cov < (covOf u p : Int)
    · rw [if_pos hcv, if_pos hcv]
      by_cases hbr : (covOf u p == total) = true
      · rw [if_pos hbr]
        exact Or.inr (List.mem_cons_self p rest)
      · rw [if_neg hbr]
        rcases ih ((covOf u p : Int)) p with h | h
        · rw [h]
          exact Or.inr (List.mem_cons_self p rest)
        · exact Or.inr (List.mem_cons_of_mem p h)
    · rw [if_neg hcv, if_neg hcv]
      by_cases hbr : (covOf u p == total) = true
      · rw [if_pos hbr]
        exact Or.inl rfl
      · rw [if_neg hbr]
        rcases ih cov tmp with h | h
        · exact Or.inl h
        · exact Or.inr (List.mem_cons_of_mem p h)

theorem electScan_ne_nil (u : List Nat) (total : Nat) :
    ∀ (l : List (List Nat)) (cov : Int) (tmp : List Nat),
      (∀ p ∈ l, p ≠ []) → (tmp ≠ [] ∨ (cov < 0 ∧ l ≠ [])) →
      (electScan u total l cov tmp).2 ≠ [] := by
  intro l
  induction l with
  | nil =>
    intro cov tmp _ h
    rcases h with h | ⟨-, hne⟩
    · exact h
    · exact absurd rfl hne
  | cons p rest ih =>
    intro cov tmp hall h
    have hpne : p ≠ [] := hall p (List.mem_cons_self p rest)
    simp only [electScan]
    by_cases hcv : cov < (covOf u p : Int)
    · rw [if_pos hcv, if_pos hcv]
      by_cases hbr : (covOf u p == total) = true
      · rw [if_pos hbr]
        exact hpne
      · rw [if_neg hbr]
        exact ih _ p (fun q hq => hall q (List.mem_cons_of_mem p hq)) (Or.inl hpne)
    · rw [if_neg hcv, if_neg hcv]
      have htmp : tmp ≠ [] := by
        rcases h with h | ⟨hc0, -⟩
        · exact h
        · exfalso
          apply hcv
          have hge : (0 : Int) ≤ (covOf u p : Int) := Int.ofNat_nonneg _
          omega
      by_cases hbr : (covOf u p == total) = true
      · rw [if_pos hbr]
        exact htmp
      · rw [if_neg hbr]
        exact ih cov tmp (fun q hq => hall q (List.mem_cons_of_mem p hq)) (Or.inl htmp)

theorem elect_path_spec (u : List Nat) (paths : List (List Nat)) :
    (elect u paths).2.path ≠ [] →
      (elect u paths).2.path ∈ paths ∧ ∃ w ∈ u, w ∈ (elect u paths).2.path := by
  intro hne
  rw [elect] at hne ⊢
  by_cases h0 : (u.length == 0) = true
  · rw [if_pos h0] at hne
    exact absurd rfl hne
  · rw [if_neg h0] at hne ⊢
    by_cases hp : paths.isEmpty = true
    · rw [if_pos hp] at hne
      exact absurd rfl hne
    · rw [if_neg hp] at hne ⊢
      dsimp only at hne ⊢
      rcases electScan_tmp u u.length
        (paths.filter (fun p => !((u.filter (fun v => p.contains v)).isEmpty)))
        (-1) [] with h | h
      · rw [h] at hne
        exact absurd rfl hne
      · refine ⟨(List.mem_filter.mp h).1, ?_⟩
        have hcond := (List.mem_filter.mp h).2
        rw [Bool.not_eq_true', List.isEmpty_eq_false] at hcond
        rcases List.exists_mem_of_ne_nil _ hcond with ⟨w, hwmem⟩
        rcases List.mem_filter.mp hwmem with ⟨hwu, hwc⟩
        exact ⟨w, hwu, by simpa using hwc⟩

theorem elect_progress (u : List Nat) (paths : List (List Nat))
    (w : Nat) (hw : w ∈ u) (p : List Nat) (hp : p ∈ paths) (hwp : w ∈ p) :
    (elect u paths).2.path ≠ [] := by
  rw [elect]
  have h0 : ¬((u.length == 0) = true) := by
    intro hc
    have hlen : u.length = 0 := by simpa using hc
    exact List.ne_nil_of_mem hw (List.eq_nil_of_length_eq_zero hlen)
  rw [if_neg h0]
  have hpne : ¬(paths.isEmpty = true) := by
    intro hc
    rw [List.isEmpty_iff] at hc
    rw [hc] at hp
    simp at hp
  rw [if_neg hpne]
  dsimp only
  apply electScan_ne_nil
  · intro q hq
    have hcond := (List.mem_filter.mp hq).2
    intro hqnil
    rw [hqnil] at hcond
    simp at hcond
  · refine Or.inr ⟨by norm_num, ?_⟩
    have hpf : p ∈ paths.filter
        (fun q => !((u.filter (fun v => q.contains v)).isEmpty)) := by
      refine List.mem_filter.mpr ⟨hp, ?_⟩
      have hwm : w ∈ u.filter (fun v => p.contains v) :=
        List.mem_filter.mpr ⟨hw, by simpa using hwp⟩
      have hne2 : u.filter (fun v => p.contains v) ≠ [] := List.ne_nil_of_mem hwm
      rw [Bool.not_eq_true', List.isEmpty_eq_false]
      exact hne2
    exact List.ne_nil_of_mem hpf

theorem elect_cache_sub (u : List Nat) (paths : List (List Nat)) :
    ∀ q ∈ (elect u paths).1, q ∈ paths := by
  intro q hq
  rw [elect] at hq
  by_cases h0 : (u.length == 0) = true
  · rw [if_pos h0] at hq
    exact hq
  · rw [if_neg h0] at hq
    by_cases hp : paths.isEmpty = true
    · rw [if_pos hp] at hq
      exact hq
    · rw [if_neg hp] at hq
      exact (List.mem_filter.mp hq).1

theorem elect_cache_keep (u : List Nat) (paths : List (List Nat))
    (q : List Nat) (hq : q ∈ paths) (w : Nat) (hw : w ∈ u) (hwq : w ∈ q) :
    q ∈ (elect u paths).1 := by
  rw [elect]
  by_cases h0 : (u.length == 0) = true
  · rw [if_pos h0]
    exact hq
  · rw [if_neg h0]
    by_cases hp : paths.isEmpty = true
    · rw [if_pos hp]
      exact hq
    · rw [if_neg hp]
      refine List.mem_filter.mpr ⟨hq, ?_⟩
      have hwm : w ∈ u.filter (fun v => q.contains v) :=
        List.mem_filter.mpr ⟨hw, by simpa using hwq⟩
      rw [Bool.not_eq_true', List.isEmpty_eq_false]
      exact List.ne_nil_of_mem hwm

theorem cvValid_of_ne_nil (c : CandV) (h : c.path ≠ []) : cvValid c = true := by
  rw [cvValid, cvLength, if_neg (by simpa using h)]
  have hpos : 0 < c.path.length := List.length_pos.mpr h
  simp
  omega

theorem cvValid_path_ne_nil (c : CandV) (h : cvValid c = true) : c.path ≠ [] := by
  intro hc
  rw [cvValid, cvLength, if_pos (by simpa using hc)] at h
  simp at h

theorem winner_valid (c1 c2 : CandV) (h : ¬(cvValid c1 = false ∧ cvValid c2 = false)) :
    cvValid (if cvGT c1 c2 then c1 else c2) = true := by
  by_cases h1 : cvValid c1 = true
  · by_cases hgt : cvGT c1 c2 = true
    · rw [if_pos hgt]
      exact h1
    · rw [if_neg hgt]
      by_cases h2 : cvValid c2 = true
      · exact h2
      · exfalso
        apply hgt
        have hv2 : cvValid c2 = false := Bool.eq_false_iff.mpr h2
        rw [cvGT, if_neg (show ¬((cvValid c1 && cvValid c2) = true) by
          rw [h1, hv2]; simp)]
        exact h1
  · have hv1 : cvValid c1 = false := Bool.eq_false_iff.mpr h1
    have h2 : cvValid c2 = true := by
      by_contra hc
      exact h ⟨hv1, Bool.eq_false_iff.mpr hc⟩
    have hgt : cvGT c1 c2 = false := by
      rw [cvGT, if_neg (show ¬((cvValid c1 && cvValid c2) = true) by
        rw [hv1]; simp)]
      exact hv1
    rw [if_neg (show ¬(cvGT c1 c2 = true) by rw [hgt]; simp)]
    exact h2

theorem update_path_short (st : NCState) (path : List Nat) (h : path.length < 2) :
    update_path st path = st := by
  rw [update_path, if_pos h]

theorem update_path_long (st : NCState) (path : List Nat) (h : ¬path.length < 2) :
    (update_path st path).unvisited =
        st.unvisited.filter (fun v => !path.contains v) ∧
      (update_path st path).cache = st.cache ∧
      (update_path st path).graph.n = st.graph.n ∧
      (∀ e : Nat × Nat, e ∈ (update_path st path).graph.edges ↔ e ∈ st.graph.edges) := by
  rw [update_path, if_neg h]
  by_cases hc : (updateSteps st.graph.edges path).2 = true
  · rw [if_pos hc]
    exact ⟨rfl, rfl, rfl, fun e => updateSteps_mem path st.graph.edges e⟩
  · rw [if_neg hc]
    exact ⟨rfl, rfl, rfl, fun e => updateSteps_mem path st.graph.edges e⟩

theorem update_path_current (st : NCState) (path : List Nat) (h : ¬path.length < 2)
    (hchain : isNChain st.graph.edges path = true) :
    (update_path st path).current = ((path.getLast?.getD 0 : Nat) : Int) := by
  rw [update_path, if_neg h, if_pos (updateSteps_complete path st.graph.edges hchain)]

theorem getSimplePaths_spec (st : NCState) (vid : Nat) :
    (getSimplePaths st vid).1.graph = st.graph ∧
    (getSimplePaths st vid).1.unvisited = st.unvisited ∧
    (getSimplePaths st vid).1.current = st.current ∧
    (((getSimplePaths st vid).1.cache = st.cache ∧
        alookupN st.cache vid = some (getSimplePaths st vid).2) ∨
      ((getSimplePaths st vid).1.cache = asetN st.cache vid (getSimplePaths st vid).2 ∧
        alookupN st.cache vid = none ∧
        (getSimplePaths st vid).2 =
          sortByLen (get_all_simple_paths st.graph vid st.unvisited))) := by
  rcases hl : alookupN st.cache vid with - | ps
  · rw [getSimplePaths, hl]
    exact ⟨rfl, rfl, rfl, Or.inr ⟨rfl, rfl, rfl⟩⟩
  · rw [getSimplePaths, hl]
    exact ⟨rfl, rfl, rfl, Or.inl ⟨rfl, rfl⟩⟩

theorem get_simple_paths_sound (g : NGraph) (vid : Nat) (toSet : List Nat) :
    ∀ p ∈ sortByLen (get_all_simple_paths g vid toSet),
      p.head? = some vid ∧ isNChain g.edges p = true := by
  intro p hp
  rw [mem_sortByLen] at hp
  rcases List.mem_filter.mp hp with ⟨hmem, -⟩
  rcases spAux_sound g.edges g.n [] vid p hmem with ⟨suf, hps, hchain⟩
  rw [hps]
  exact ⟨by simp, by simpa using hchain⟩

theorem get_simple_paths_complete (g : NGraph) (hwf : g.wf) (vid : Nat)
    (hvid : vid < g.n) (w : Nat) (hw : w ∈ nreachList g vid) :
    ∃ p ∈ sortByLen (get_all_simple_paths g vid (List.range g.n)), w ∈ p := by
  rcases nreach_chain g vid w hw with ⟨suf, hchain, hnd, hlast⟩
  refine ⟨vid :: suf, ?_, getLast?_mem_list _ w hlast⟩
  rw [mem_sortByLen]
  refine List.mem_filter.mpr ⟨?_, ?_⟩
  · have hfuel : suf.length ≤ g.n := by
      have hlt : ∀ x ∈ vid :: suf, x < g.n := by
        intro x hx
        have hxr : x ∈ nreachList g vid := chain_mem_reach g hwf suf vid hvid hchain x hx
        exact nreachList_subset g vid hvid x hxr
      have hll := nodup_lt_length_le (vid :: suf) g.n hnd hlt
      simp only [List.length_cons] at hll
      omega
    have hsp := spAux_complete g.edges g.n suf [] vid hchain (by simpa using hnd) hfuel
    simpa using hsp
  · rw [hlast]
    have hwn : w < g.n := nreachList_subset g vid hvid w hw
    simpa using List.mem_range.mpr hwn

theorem initial_pair_mem (g : NGraph) (hwf : g.wf) (vid t : Nat)
    (he : (vid, t) ∈ g.edges) (hne : t ≠ vid) :
    [vid, t] ∈ sortByLen (get_all_simple_paths g vid (List.range g.n)) := by
  rw [mem_sortByLen]
  refine List.mem_filter.mpr ⟨?_, ?_⟩
  · have hchain : isNChain g.edges (vid :: [t]) = true := by
      show (g.edges.contains (vid, t) && isNChain g.edges [t]) = true
      rw [Bool.and_eq_true]
      exact ⟨by simpa using he, rfl⟩
    have hnd : (([] : List Nat) ++ vid :: [t]).Nodup := by
      simp [Ne.symm hne]
    have hfl : ([t] : List Nat).length ≤ g.n := by
      have htn := (hwf (vid, t) he).2
      simp only [List.length_singleton]
      omega
    have hsp := spAux_complete g.edges g.n [t] [] vid hchain hnd hfl
    simpa using hsp
  · have hlast : ([vid, t] : List Nat).getLast? = some t := rfl
    rw [hlast]
    simpa using List.mem_range.mpr (hwf (vid, t) he).2

/-- The loop invariant of `NodeCover.travel`: the working graph has the
vertex count and the adjacency of the input (parallel-edge deletion keeps
at least one edge per pair), every visited vid is reachable from the
start, the start and the current vid are visited, every cached path is a
chain headed at its key, and the cache row of the start keeps a path
through every reachable unvisited vid. -/
def ncInv (g : NGraph) (startVid : Nat) (st : NCState) : Prop :=
  st.graph.n = g.n ∧
  (∀ e : Nat × Nat, e ∈ st.graph.edges ↔ e ∈ g.edges) ∧
  (∀ w ∈ st.unvisited, w < g.n) ∧
  startVid ∉ st.unvisited ∧
  (∀ w, w < g.n → w ∉ st.unvisited → w ∈ nreachList g startVid) ∧
  (st.current = -1 ∨ ∃ c : Nat, st.current = (c : Int) ∧
    c ∈ nreachList g startVid ∧ c ∉ st.unvisited) ∧
  (∀ vid P, alookupN st.cache vid = some P → ∀ p ∈ P,
    p.head? = some vid ∧ isNChain g.edges p = true) ∧
  (∃ P0, alookupN st.cache startVid = some P0 ∧
    ∀ w, w ∈ nreachList g startVid → w ∈ st.unvisited → ∃ p ∈ P0, w ∈ p)

theorem apply_winner (g : NGraph) (startVid : Nat) (hwf : g.wf)
    (hstart : startVid < g.n) (st : NCState) (hinv : ncInv g startVid st)
    (path : List Nat) (hv : Nat) (hhead : path.head? = some hv)
    (hchain : isNChain g.edges path = true)
    (hvr : hv ∈ nreachList g startVid) (hvnu : hv ∉ st.unvisited)
    (w : Nat) (hwu : w ∈ st.unvisited) (hwp : w ∈ path) :
    ncInv g startVid (update_path st path) ∧
    (update_path st path).unvisited =
      st.unvisited.filter (fun v => !path.contains v) ∧
    (update_path st path).unvisited.length < st.unvisited.length := by
  rcases path with - | ⟨p0, rest⟩
  · exact absurd hhead (by simp)
  have hp0 : p0 = hv := by simpa using hhead
  subst hp0
  have hwne : w ≠ p0 := fun hc => hvnu (hc ▸ hwu)
  have hrest : rest ≠ [] := by
    intro hc
    subst hc
    exact hwne (List.mem_singleton.mp hwp)
  have hlen2 : ¬(p0 :: rest).length < 2 := by
    have hplen : 0 < rest.length := List.length_pos.mpr hrest
    simp only [List.length_cons]
    omega
  obtain ⟨hunv, hcache, hn, hedges⟩ := update_path_long st (p0 :: rest) hlen2
  have hpmem : ∀ x ∈ p0 :: rest, x ∈ nreachList g startVid := by
    intro x hx
    have hvn2 : p0 < g.n := nreachList_subset g startVid hstart p0 hvr
    have hxr : x ∈ nreachList g p0 := chain_mem_reach g hwf rest p0 hvn2 hchain x hx
    exact nreach_trans g startVid p0 x hvr hxr
  obtain ⟨h1, h2, h3, h4, h5, h6, h7, h8⟩ := hinv
  refine ⟨⟨?_, ?_, ?_, ?_, ?_, ?_, ?_, ?_⟩, hunv, ?_⟩
  · rw [hn]
    exact h1
  · intro e
    rw [hedges e]
    exact h2 e
  · intro x hx
    rw [hunv] at hx
    exact h3 x (List.mem_filter.mp hx).1
  · intro hc
    rw [hunv] at hc
    exact h4 (List.mem_filter.mp hc).1
  · intro x hx hnx
    by_cases hxin : x ∈ st.unvisited
    · have hxp : x ∈ p0 :: rest := by
        by_contra hxc
        apply hnx
        rw [hunv]
        refine List.mem_filter.mpr ⟨hxin, ?_⟩
        simpa using hxc
      exact hpmem x hxp
    · exact h5 x hx hxin
  · have hchainst : isNChain st.graph.edges (p0 :: rest) = true := by
      rw [isNChain_congr st.graph.edges g.edges h2]
      exact hchain
    have hcur := update_path_current st (p0 :: rest) hlen2 hchainst
    right
    rcases hlast : (p0 :: rest).getLast? with - | lv
    · exact absurd hlast (by simp)
    · refine ⟨lv, ?_, hpmem lv (getLast?_mem_list _ lv hlast), ?_⟩
      · rw [hcur, hlast]
        rfl
      · rw [hunv]
        intro hc
        have hcc := (List.mem_filter.mp hc).2
        rw [Bool.not_eq_true'] at hcc
        have hlvmem : lv ∈ p0 :: rest := getLast?_mem_list _ lv hlast
        exact absurd (by simpa using hlvmem : (p0 :: rest).contains lv = true)
          (by rw [hcc]; simp)
  · intro vid P hP
    rw [hcache] at hP
    exact h7 vid P hP
  · rcases h8 with ⟨P0, hP0, hcomp⟩
    refine ⟨P0, by rw [hcache]; exact hP0, ?_⟩
    intro x hxr hxu
    rw [hunv] at hxu
    exact hcomp x hxr (List.mem_filter.mp hxu).1
  · rw [hunv]
    refine List.length_filter_lt_length_iff_exists.mpr ⟨w, hwu, ?_⟩
    have hct : ((p0 :: rest).contains w) = true := by simpa using hwp
    simp [hct]
    intro hne2
    rcases List.mem_cons.mp hwp with h | h
    · exact absurd h hne2
    · exact h

theorem finish_apply (g : NGraph) (startVid : Nat) (hwf : g.wf)
    (hstart : startVid < g.n) (st' : NCState) (hinv' : ncInv g startVid st')
    (c1 c2 : CandV)
    (hcand : ∀ c : CandV, (c = c1 ∨ c = c2) → c.path ≠ [] →
      ∃ hv, c.path.head? = some hv ∧ isNChain g.edges c.path = true ∧
        hv ∈ nreachList g startVid ∧ hv ∉ st'.unvisited ∧
        ∃ w ∈ st'.unvisited, w ∈ c.path)
    (hprog : (∃ w ∈ st'.unvisited, w ∈ nreachList g startVid) →
      cvValid c1 = true ∨ cvValid c2 = true) :
    ∃ st2 p2, finishChoose st' c1 c2 = (st2, p2) ∧ ncInv g startVid st2 ∧
      (st2.unvisited = st'.unvisited ∨
        ∃ q : List Nat, st2.unvisited = st'.unvisited.filter (fun v => !q.contains v)) ∧
      ((∃ w ∈ st'.unvisited, w ∈ nreachList g startVid) →
        p2 ≠ [] ∧ st2.unvisited.length < st'.unvisited.length) := by
  by_cases hboth : cvValid c1 = false ∧ cvValid c2 = false
  · rw [finishChoose, if_pos hboth]
    refine ⟨st', [], rfl, hinv', Or.inl rfl, ?_⟩
    intro hex
    rcases hprog hex with h | h
    · rw [hboth.1] at h
      exact absurd h (by simp)
    · rw [hboth.2] at h
      exact absurd h (by simp)
  · rw [finishChoose, if_neg hboth]
    have hwv := winner_valid c1 c2 hboth
    have hmem : (if cvGT c1 c2 then c1 else c2) = c1 ∨
        (if cvGT c1 c2 then c1 else c2) = c2 := by
      by_cases hgt : cvGT c1 c2 = true
      · rw [if_pos hgt]
        exact Or.inl rfl
      · rw [if_neg hgt]
        exact Or.inr rfl
    have hne := cvValid_path_ne_nil _ hwv
    rcases hcand _ hmem hne with ⟨hv, hhead, hchain, hvr, hvnu, w, hwu, hwp⟩
    obtain ⟨hinv2, hunveq, hlt⟩ := apply_winner g startVid hwf hstart st' hinv'
      (if cvGT c1 c2 then c1 else c2).path hv hhead hchain hvr hvnu w hwu hwp
    exact ⟨update_path st' (if cvGT c1 c2 then c1 else c2).path,
      (if cvGT c1 c2 then c1 else c2).path, rfl, hinv2,
      Or.inr ⟨(if cvGT c1 c2 then c1 else c2).path, hunveq⟩,
      fun _ => ⟨hne, hlt⟩⟩

theorem inv_cache_set (g : NGraph) (startVid : Nat) (st : NCState)
    (hinv : ncInv g startVid st) (vid : Nat) (P : List (List Nat))
    (hsound : ∀ p ∈ P, p.head? = some vid ∧ isNChain g.edges p = true)
    (hkeep : vid = startVid →
      ∀ w, w ∈ nreachList g startVid → w ∈ st.unvisited → ∃ p ∈ P, w ∈ p) :
    ncInv g startVid ⟨st.graph, st.unvisited, st.current, asetN st.cache vid P⟩ := by
  obtain ⟨h1, h2, h3, h4, h5, h6, h7, h8⟩ := hinv
  refine ⟨h1, h2, h3, h4, h5, h6, ?_, ?_⟩
  · intro vid2 P2 hP2
    dsimp only at hP2
    rw [alookupN_asetN] at hP2
    by_cases hv : vid2 = vid
    · rw [if_pos hv] at hP2
      have hPP := Option.some.inj hP2
      rw [← hPP]
      intro p hp
      have hs := hsound p hp
      rw [hv]
      exact hs
    · rw [if_neg hv] at hP2
      exact h7 vid2 P2 hP2
  · by_cases hv : startVid = vid
    · refine ⟨P, ?_, hkeep hv.symm⟩
      dsimp only
      rw [alookupN_asetN, if_pos hv]
    · rcases h8 with ⟨P0, hP0, hcomp⟩
      refine ⟨P0, ?_, hcomp⟩
      dsimp only
      rw [alookupN_asetN, if_neg hv]
      exact hP0

theorem choose_path_spec (g : NGraph) (startVid : Nat) (hwf : g.wf)
    (hstart : startVid < g.n) (st : NCState) (hinv : ncInv g startVid st) :
    ∃ st2 p2, choose_path st startVid = Except.ok (st2, p2) ∧
      ncInv g startVid st2 ∧
      (st2.unvisited = st.unvisited ∨
        ∃ q : List Nat, st2.unvisited = st.unvisited.filter (fun v => !q.contains v)) ∧
      ((∃ w ∈ st.unvisited, w ∈ nreachList g startVid) →
        p2 ≠ [] ∧ st2.unvisited.length < st.unvisited.length) := by
  obtain ⟨h1, h2, h3, h4, h5, h6, h7, h8⟩ := hinv
  obtain ⟨P0, hP0, hcomp⟩ := h8
  have hsound1 : ∀ p ∈ (elect st.unvisited P0).1,
      p.head? = some startVid ∧ isNChain g.edges p = true :=
    fun p hp => h7 startVid P0 hP0 p (elect_cache_sub st.unvisited P0 p hp)
  have hkeep1 : ∀ w, w ∈ nreachList g startVid → w ∈ st.unvisited →
      ∃ p ∈ (elect st.unvisited P0).1, w ∈ p := by
    intro w hwr hwu
    rcases hcomp w hwr hwu with ⟨p, hp, hwp⟩
    exact ⟨p, elect_cache_keep st.unvisited P0 p hp w hwu hwp, hwp⟩
  have hinv1 : ncInv g startVid
      ⟨st.graph, st.unvisited, st.current,
        asetN st.cache startVid (elect st.unvisited P0).1⟩ :=
    inv_cache_set g startVid st ⟨h1, h2, h3, h4, h5, h6, h7, ⟨P0, hP0, hcomp⟩⟩
      startVid (elect st.unvisited P0).1 hsound1 (fun _ => hkeep1)
  have hc1 : (elect st.unvisited P0).2.path ≠ [] →
      (elect st.unvisited P0).2.path.head? = some startVid ∧
      isNChain g.edges (elect st.unvisited P0).2.path = true ∧
      ∃ w ∈ st.unvisited, w ∈ (elect st.unvisited P0).2.path := by
    intro hne
    rcases elect_path_spec st.unvisited P0 hne with ⟨hpmem, hex⟩
    rcases h7 startVid P0 hP0 _ hpmem with ⟨hh, hc⟩
    exact ⟨hh, hc, hex⟩
  have hprog1 : (∃ w ∈ st.unvisited, w ∈ nreachList g startVid) →
      cvValid (elect st.unvisited P0).2 = true := by
    rintro ⟨w, hwu, hwr⟩
    rcases hcomp w hwr hwu with ⟨p, hp, hwp⟩
    exact cvValid_of_ne_nil _ (elect_progress st.unvisited P0 w hwu p hp hwp)
  rw [choose_path, hP0]
  dsimp only
  by_cases hcur : st.current ≠ -1 ∧ st.current ≠ (startVid : Int)
  · rw [if_pos hcur]
    obtain ⟨hcne, hcs⟩ := hcur
    rcases h6 with hcm1 | ⟨c, hceq, hcr, hcnu⟩
    · exact absurd hcm1 hcne
    have hcurnat : st.current.toNat = c := by
      rw [hceq]
      simp
    have hcneq : c ≠ startVid := by
      intro hcc
      apply hcs
      rw [hceq, hcc]
    obtain ⟨hg1, hg2, hg3, hgc⟩ := getSimplePaths_spec
      ⟨st.graph, st.unvisited, st.current,
        asetN st.cache startVid (elect st.unvisited P0).1⟩ (st.current.toNat)
    set R0 := getSimplePaths
      ⟨st.graph, st.unvisited, st.current,
        asetN st.cache startVid (elect st.unvisited P0).1⟩ (st.current.toNat) with hR0
    obtain ⟨i1, i2, i3, i4, i5, i6, i7, i8⟩ := hinv1
    have hsound2 : ∀ p ∈ R0.2,
        p.head? = some st.current.toNat ∧ isNChain g.edges p = true := by
      rcases hgc with ⟨hceq2, hlook⟩ | ⟨hceq2, hnone, hval⟩
      · intro p hp
        exact i7 (st.current.toNat) R0.2 hlook p hp
      · intro p hp
        rw [hval] at hp
        have hs := get_simple_paths_sound st.graph (st.current.toNat) st.unvisited p hp
        refine ⟨hs.1, ?_⟩
        have hsc := hs.2
        rw [isNChain_congr st.graph.edges g.edges h2 p] at hsc
        exact hsc
    have hinvR : ncInv g startVid R0.1 := by
      have heta : R0.1 = ⟨R0.1.graph, R0.1.unvisited, R0.1.current, R0.1.cache⟩ := rfl
      rcases hgc with ⟨hceq2, -⟩ | ⟨hceq2, -, -⟩
      · rw [heta, hg1, hg2, hg3, hceq2]
        exact ⟨i1, i2, i3, i4, i5, i6, i7, i8⟩
      · rw [heta, hg1, hg2, hg3, hceq2]
        exact inv_cache_set g startVid
          ⟨st.graph, st.unvisited, st.current,
            asetN st.cache startVid (elect st.unvisited P0).1⟩
          ⟨i1, i2, i3, i4, i5, i6, i7, i8⟩ (st.current.toNat) R0.2 hsound2
          (fun hcc => absurd (hcurnat.symm.trans hcc) hcneq)
    have hu0 : R0.1.unvisited = st.unvisited := hg2
    have hsound3 : ∀ p ∈ (elect R0.1.unvisited R0.2).1,
        p.head? = some st.current.toNat ∧ isNChain g.edges p = true :=
      fun p hp => hsound2 p (elect_cache_sub R0.1.unvisited R0.2 p hp)
    have hinv3 : ncInv g startVid
        ⟨R0.1.graph, R0.1.unvisited, R0.1.current,
          asetN R0.1.cache (st.current.toNat) (elect R0.1.unvisited R0.2).1⟩ :=
      inv_cache_set g startVid R0.1 hinvR (st.current.toNat)
        (elect R0.1.unvisited R0.2).1 hsound3
        (fun hcc => absurd (hcurnat.symm.trans hcc) hcneq)
    have hcand : ∀ cd : CandV,
        (cd = (elect st.unvisited P0).2 ∨ cd = (elect R0.1.unvisited R0.2).2) →
        cd.path ≠ [] →
        ∃ hv, cd.path.head? = some hv ∧ isNChain g.edges cd.path = true ∧
          hv ∈ nreachList g startVid ∧
          hv ∉ (⟨R0.1.graph, R0.1.unvisited, R0.1.current,
            asetN R0.1.cache (st.current.toNat)
              (elect R0.1.unvisited R0.2).1⟩ : NCState).unvisited ∧
          ∃ w ∈ (⟨R0.1.graph, R0.1.unvisited, R0.1.current,
            asetN R0.1.cache (st.current.toNat)
              (elect R0.1.unvisited R0.2).1⟩ : NCState).unvisited, w ∈ cd.path := by
      intro cd hcd hne
      rcases hcd with hcd | hcd
      · subst hcd
        rcases hc1 hne with ⟨hh, hch, w, hwu, hwp⟩
        refine ⟨startVid, hh, hch, self_mem_nreachList g startVid, ?_, w, ?_, hwp⟩
        · dsimp only
          rw [hu0]
          exact h4
        · dsimp only
          rw [hu0]
          exact hwu
      · subst hcd
        rcases elect_path_spec R0.1.unvisited R0.2 hne with ⟨hpmem, w, hwu, hwp⟩
        rcases hsound2 _ hpmem with ⟨hh, hch⟩
        refine ⟨st.current.toNat, hh, hch, ?_, ?_, w, ?_, hwp⟩
        · rw [hcurnat]
          exact hcr
        · dsimp only
          rw [hu0, hcurnat]
          exact hcnu
        · dsimp only
          exact hwu
    have hprog : (∃ w ∈ (⟨R0.1.graph, R0.1.unvisited, R0.1.current,
        asetN R0.1.cache (st.current.toNat)
          (elect R0.1.unvisited R0.2).1⟩ : NCState).unvisited,
          w ∈ nreachList g startVid) →
        cvValid (elect st.unvisited P0).2 = true ∨
        cvValid (elect R0.1.unvisited R0.2).2 = true := by
      intro hex
      dsimp only at hex
      rw [hu0] at hex
      exact Or.inl (hprog1 hex)
    obtain ⟨st2, p2, hfc, hinv2, hunv, hpr⟩ := finish_apply g startVid hwf hstart
      ⟨R0.1.graph, R0.1.unvisited, R0.1.current,
        asetN R0.1.cache (st.current.toNat) (elect R0.1.unvisited R0.2).1⟩
      hinv3 (elect st.unvisited P0).2 (elect R0.1.unvisited R0.2).2 hcand hprog
    refine ⟨st2, p2, congrArg Except.ok hfc, hinv2, ?_, ?_⟩
    · dsimp only at hunv
      rw [hu0] at hunv
      exact hunv
    · dsimp only at hpr
      rw [hu0] at hpr
      exact hpr
  · rw [if_neg hcur]
    have hcand : ∀ cd : CandV,
        (cd = (elect st.unvisited P0).2 ∨ cd = (⟨-1, []⟩ : CandV)) →
        cd.path ≠ [] →
        ∃ hv, cd.path.head? = some hv ∧ isNChain g.edges cd.path = true ∧
          hv ∈ nreachList g startVid ∧
          hv ∉ (⟨st.graph, st.unvisited, st.current,
            asetN st.cache startVid (elect st.unvisited P0).1⟩ : NCState).unvisited ∧
          ∃ w ∈ (⟨st.graph, st.unvisited, st.current,
            asetN st.cache startVid (elect st.unvisited P0).1⟩ : NCState).unvisited,
            w ∈ cd.path := by
      intro cd hcd hne
      rcases hcd with hcd | hcd
      · subst hcd
        rcases hc1 hne with ⟨hh, hch, w, hwu, hwp⟩
        exact ⟨startVid, hh, hch, self_mem_nreachList g startVid, h4, w, hwu, hwp⟩
      · subst hcd
        exact absurd rfl hne
    have hprog : (∃ w ∈ (⟨st.graph, st.unvisited, st.current,
        asetN st.cache startVid (elect st.unvisited P0).1⟩ : NCState).unvisited,
          w ∈ nreachList g startVid) →
        cvValid (elect st.unvisited P0).2 = true ∨
        cvValid (⟨-1, []⟩ : CandV) = true := by
      intro hex
      exact Or.inl (hprog1 hex)
    obtain ⟨st2, p2, hfc, hinv2, hunv, hpr⟩ := finish_apply g startVid hwf hstart
      ⟨st.graph, st.unvisited, st.current,
        asetN st.cache startVid (elect st.unvisited P0).1⟩
      hinv1 (elect st.unvisited P0).2 ⟨-1, []⟩ hcand hprog
    exact ⟨st2, p2, congrArg Except.ok hfc, hinv2, hunv, hpr⟩

theorem ncLoop_spec (g : NGraph) (startVid : Nat) (hwf : g.wf)
    (hstart : startVid < g.n) :
    ∀ (fuel : Nat) (st : NCState) (path : List Nat), ncInv g startVid st →
      path ≠ [] → st.unvisited.length < fuel →
      ∃ stf, ncLoop startVid fuel st path = some (Except.ok stf) ∧
        ∀ w, w < g.n → (w ∈ stf.unvisited ↔ w ∉ nreachList g startVid) := by
  intro fuel
  induction fuel with
  | zero =>
    intro st path _ _ h
    omega
  | succ fuel ih =>
    intro st path hinv hpath hlen
    have h3 := hinv.2.2.1
    rw [ncLoop]
    by_cases hstop : (st.unvisited.isEmpty || path.isEmpty) = true
    · rw [if_pos hstop]
      refine ⟨st, rfl, ?_⟩
      have hpe : path.isEmpty = false := by
        rcases path with - | ⟨a, r⟩
        · exact absurd rfl hpath
        · rfl
      rw [hpe, Bool.or_false] at hstop
      have hue : st.unvisited = [] := by rwa [List.isEmpty_iff] at hstop
      intro w hwn
      constructor
      · intro hw
        rw [hue] at hw
        simp at hw
      · intro hnr
        exfalso
        have h5 := hinv.2.2.2.2.1
        exact hnr (h5 w hwn (by rw [hue]; simp))
    · rw [if_neg hstop]
      obtain ⟨st2, p2, hcp, hinv2, hunv, hpr⟩ :=
        choose_path_spec g startVid hwf hstart st hinv
      rw [hcp]
      dsimp only
      by_cases hrem : ∃ w ∈ st.unvisited, w ∈ nreachList g startVid
      · obtain ⟨hp2ne, hlt⟩ := hpr hrem
        have hcond : ¬((p2.isEmpty ||
            (st.unvisited.length == st2.unvisited.length)) = true) := by
          intro hc
          rcases Bool.or_eq_true_iff.mp hc with h | h
          · rw [List.isEmpty_iff] at h
            exact hp2ne h
          · have : st.unvisited.length = st2.unvisited.length := by simpa using h
            omega
        rw [if_neg hcond]
        exact ih st2 p2 hinv2 hp2ne (by omega)
      · push_neg at hrem
        by_cases hcond : (p2.isEmpty ||
            (st.unvisited.length == st2.unvisited.length)) = true
        · rw [if_pos hcond]
          refine ⟨st2, rfl, ?_⟩
          intro w hwn
          constructor
          · intro hw
            have hsub : w ∈ st.unvisited := by
              rcases hunv with he | ⟨q, he⟩
              · rwa [he] at hw
              · rw [he] at hw
                exact (List.mem_filter.mp hw).1
            exact hrem w hsub
          · intro hnr
            by_contra hw
            have h5b := hinv2.2.2.2.2.1
            exact hnr (h5b w hwn hw)
        · exfalso
          have hlne : st.unvisited.length ≠ st2.unvisited.length := by
            intro hc
            apply hcond
            refine Bool.or_eq_true_iff.mpr (Or.inr ?_)
            simpa using hc
          rcases hunv with he | ⟨q, he⟩
          · exact hlne (by rw [he])
          · have hle := List.length_filter_le
              (fun v => !q.contains v) st.unvisited
            have hlt2 : (st.unvisited.filter (fun v => !q.contains v)).length <
                st.unvisited.length := by
              rw [he] at hlne
              omega
            obtain ⟨x, hx, hnx⟩ := List.length_filter_lt_length_iff_exists.mp hlt2
            have hxn : x < g.n := h3 x hx
            have hxnot2 : x ∉ st2.unvisited := by
              rw [he]
              intro hc
              exact hnx (List.mem_filter.mp hc).2
            have h5b := hinv2.2.2.2.2.1
            exact hrem x hx (h5b x hxn hxnot2)

theorem head?_mem_list {α : Type} (l : List α) (a : α) (h : l.head? = some a) :
    a ∈ l := by
  rcases l with - | ⟨x, r⟩
  · exact absurd h (by simp)
  · have hxa : x = a := by simpa using h
    rw [← hxa]
    exact List.mem_cons_self x r

theorem chain_head_reach (g : NGraph) (hwf : g.wf) (p : List Nat) (hv : Nat)
    (hhead : p.head? = some hv) (hvlt : hv < g.n)
    (hchain : isNChain g.edges p = true) : ∀ x ∈ p, x ∈ nreachList g hv := by
  rcases p with - | ⟨q0, rest⟩
  · exact absurd hhead (by simp)
  · have hq : q0 = hv := by simpa using hhead
    subst hq
    exact chain_mem_reach g hwf rest q0 hvlt hchain

/-- The initial cache row of `NodeCover.travel`: all simple paths from the
start with every vid as a target, sorted by length. -/
def initPaths (g : NGraph) (startVid : Nat) : List (List Nat) :=
  sortByLen (get_all_simple_paths g startVid (List.range g.n))

/-- C9 (amended).  The claimed equality between the final unvisited set
and the unreachable set fails when the start vertex has no outgoing edge
to a different vertex (`claim_C9_counterexample`: the trivial longest path
`[start]` is ignored by `_update_path`, so even the start stays
unvisited).  Amended: when the start vertex has at least one outgoing edge
to a distinct vertex, `NodeCover.travel` terminates without raising and at
termination `unvisited_vertex_ids` is exactly the set of vids unreachable
from the start; edge deletion never affects this, as only one of several
parallel edges is ever deleted. -/
theorem claim_C9_theorem (g : NGraph) (startVid : Nat) (hwf : g.wf)
    (hstart : startVid < g.n) (t : Nat) (hedge : (startVid, t) ∈ g.edges)
    (htne : t ≠ startVid) :
    ∃ stf, nc_travel g startVid = Except.ok stf ∧
      ∀ w, w < g.n → (w ∈ stf.unvisited ↔ w ∉ nreachList g startVid) := by
  have hgs : getSimplePaths ⟨g, List.range g.n, -1, []⟩ startVid =
      (⟨g, List.range g.n, -1, asetN [] startVid (initPaths g startVid)⟩,
        initPaths g startVid) := rfl
  have hsound0 : ∀ p ∈ initPaths g startVid,
      p.head? = some startVid ∧ isNChain g.edges p = true :=
    get_simple_paths_sound g startVid (List.range g.n)
  have hmem2 : [startVid, t] ∈ initPaths g startVid :=
    initial_pair_mem g hwf startVid t hedge htne
  have hPSne : initPaths g startVid ≠ [] := List.ne_nil_of_mem hmem2
  obtain ⟨path0, hlast⟩ : ∃ p, (initPaths g startVid).getLast? = some p :=
    Option.isSome_iff_exists.mp (List.getLast?_isSome.mpr hPSne)
  have hp0mem : path0 ∈ initPaths g startVid :=
    getLast?_mem_list _ path0 hlast
  have hp0 := hsound0 path0 hp0mem
  have hlen2 : 2 ≤ path0.length := by
    have hge := pairwise_getLast_ge (initPaths g startVid)
      (sortByLen_sorted (get_all_simple_paths g startVid (List.range g.n)))
      path0 hlast [startVid, t] hmem2
    simpa using hge
  have hstartmem : startVid ∈ path0 := head?_mem_list path0 startVid hp0.1
  have hpmem : ∀ x ∈ path0, x ∈ nreachList g startVid :=
    chain_head_reach g hwf path0 startVid hp0.1 hstart hp0.2
  have hlen2' : ¬path0.length < 2 := by omega
  obtain ⟨hunv, hcache, hn, hedges⟩ := update_path_long
    ⟨g, List.range g.n, -1, asetN [] startVid (initPaths g startVid)⟩ path0 hlen2'
  have hcur := update_path_current
    ⟨g, List.range g.n, -1, asetN [] startVid (initPaths g startVid)⟩ path0 hlen2'
    hp0.2
  have hinv2 : ncInv g startVid (update_path
      ⟨g, List.range g.n, -1, asetN [] startVid (initPaths g startVid)⟩ path0) := by
    refine ⟨hn, hedges, ?_, ?_, ?_, ?_, ?_, ?_⟩
    · intro x hx
      rw [hunv] at hx
      exact List.mem_range.mp (List.mem_filter.mp hx).1
    · rw [hunv]
      intro hc
      have hpred := (List.mem_filter.mp hc).2
      rw [Bool.not_eq_true'] at hpred
      have hct : path0.contains startVid = true := by simpa using hstartmem
      rw [hct] at hpred
      exact absurd hpred (by simp)
    · intro w hwn hwnot
      rw [hunv] at hwnot
      by_cases hwp : w ∈ path0
      · exact hpmem w hwp
      · exfalso
        apply hwnot
        refine List.mem_filter.mpr ⟨List.mem_range.mpr hwn, ?_⟩
        simpa using hwp
    · right
      obtain ⟨lv, hl0⟩ : ∃ a, path0.getLast? = some a :=
        Option.isSome_iff_exists.mp
          (List.getLast?_isSome.mpr (List.ne_nil_of_mem hstartmem))
      refine ⟨lv, ?_, hpmem lv (getLast?_mem_list _ lv hl0), ?_⟩
      · rw [hcur, hl0]
        rfl
      · rw [hunv]
        intro hc
        have hpred := (List.mem_filter.mp hc).2
        rw [Bool.not_eq_true'] at hpred
        have hct : path0.contains lv = true := by
          simpa using getLast?_mem_list _ lv hl0
        rw [hct] at hpred
        exact absurd hpred (by simp)
    · intro vid P hP
      rw [hcache] at hP
      have hlk : alookupN (asetN ([] : List (Nat × List (List Nat))) startVid
          (initPaths g startVid)) vid =
          if vid = startVid then some (initPaths g startVid) else none := by
        rw [alookupN_asetN]
        by_cases h : vid = startVid
        · rw [if_pos h, if_pos h]
        · rw [if_neg h, if_neg h]
          rfl
      rw [hlk] at hP
      by_cases h : vid = startVid
      · rw [if_pos h] at hP
        have hPP := Option.some.inj hP
        intro p hp
        rw [h]
        exact hsound0 p (by rw [hPP]; exact hp)
      · rw [if_neg h] at hP
        exact absurd hP (by simp)
    · refine ⟨initPaths g startVid, ?_, ?_⟩
      · rw [hcache]
        rw [alookupN_asetN, if_pos rfl]
      · intro w hwr _
        exact get_simple_paths_complete g hwf startVid hstart w hwr
  have hlenu : (update_path
      ⟨g, List.range g.n, -1, asetN [] startVid (initPaths g startVid)⟩
      path0).unvisited.length < g.n + 1 := by
    rw [hunv]
    show (List.filter (fun v => !path0.contains v) (List.range g.n)).length < g.n + 1
    have hfl := List.length_filter_le (fun v => !path0.contains v) (List.range g.n)
    have hr : (List.range g.n).length = g.n := List.length_range g.n
    omega
  obtain ⟨stf, hloop, hiff⟩ := ncLoop_spec g startVid hwf hstart (g.n + 1)
    (update_path ⟨g, List.range g.n, -1, asetN [] startVid (initPaths g startVid)⟩
      path0) path0 hinv2 (List.ne_nil_of_mem hstartmem) hlenu
  rw [nc_travel]
  dsimp only
  rw [hgs]
  dsimp only
  rw [hlast]
  dsimp only
  rw [hloop]
  exact ⟨stf, rfl, hiff⟩

/-- Three vids, one edge `0 → 1`; vid `2` is unreachable from `0`. -/
def gC9w : NGraph := ⟨3, [(0, 1)]⟩

/-- C9, witness: on `gC9w` from vid `0` (which has an outgoing edge to a
distinct vid), `travel` returns with exactly the unreachable vid `2`
unvisited. -/
theorem claim_C9_witness :
    (match nc_travel gC9w 0 with
     | Except.ok st => st.unvisited
     | Except.error _ => [99]) = [2] ∧
    (nreachList gC9w 0).contains 2 = false ∧
    (nreachList gC9w 0).contains 1 = true := by
  obtain ⟨stf, hok, hiff⟩ := claim_C9_theorem gC9w 0 (by decide) (by decide) 1
    (by decide) (by decide)
  refine ⟨by decide, ?_, by decide⟩
  have hu2 : stf.unvisited = [2] := by
    have hd : (match nc_travel gC9w 0 with
       | Except.ok st => st.unvisited
       | Except.error _ => [99]) = [2] := by decide
    rw [hok] at hd
    exact hd
  have h2 := (hiff 2 (by decide)).mp (by rw [hu2]; decide)
  simpa using h2
